import Mathlib

/-!
# prom-aggregation-gateway: merge and aggregation engine

A shallow embedding of `cmd/prom-aggregation-gateway/main.go` and theorems about it.

Modelling conventions.

* Go slices are lists; a Go loop that walks two slices with two indices and appends to an
  output slice is a recursive function on the two remaining suffixes that conses onto its
  result.  Such a loop carries a step budget equal to the total number of remaining elements,
  which it never exhausts.
* Go strings are Lean strings; the byte-wise comparison `<` of Go agrees with the
  code-point-wise comparison used here on valid UTF-8, which is what the text parser accepts.
* `float64` is modelled bit-exactly (sign, biased exponent, fraction) with IEEE 754
  round-to-nearest-even addition; all NaN results are the canonical quiet NaN.
* `uint64` is a natural number, with sums reduced modulo `2 ^ 64`.
* Pointer fields of the protobuf messages which the text parser may leave unset are options;
  dereferencing an unset one is a run-time panic, a third outcome next to a normal return
  with or without an error.  Fields which the parser always sets (names, values, the family
  type, bucket bounds and counts) are plain values.
* Go maps are association lists with unique keys; the iteration order of a `range` over a map
  is the order of the list.
-/

namespace Gateway

/-! ## float64 -/

/-- An IEEE 754 binary64 datum: sign bit, 11-bit biased exponent, 52-bit fraction. -/
structure Float64 where
  sign : Bool
  expo : Fin 2048
  frac : Fin 4503599627370496
deriving DecidableEq, Repr

namespace Float64

def isNaN (x : Float64) : Bool := x.expo.val == 2047 && x.frac.val != 0

def isInf (x : Float64) : Bool := x.expo.val == 2047 && x.frac.val == 0

def canonicalNaN : Float64 := ⟨false, 2047, 2251799813685248⟩

def inf (neg : Bool) : Float64 := ⟨neg, 2047, 0⟩

def zero (neg : Bool) : Float64 := ⟨neg, 0, 0⟩

/-- Number of binary digits of `n`; the first argument bounds the number of steps. -/
def bitLength : Nat → Nat → Nat
  | 0, _ => 0
  | fuel + 1, n => if n = 0 then 0 else bitLength fuel (n / 2) + 1

/-- Significand of a finite datum: its absolute value is `sig * 2 ^ (ex - 1074)`. -/
def sig (x : Float64) : Nat :=
  if x.expo.val = 0 then x.frac.val else 4503599627370496 + x.frac.val

/-- Binary exponent of a finite datum, offset by 1074 (subnormals and the first binade
share the exponent 0). -/
def ex (x : Float64) : Nat := x.expo.val - 1

/-- The datum nearest to `± n * 2 ^ (e - 1074)`, ties to the even significand, overflowing
to infinity. -/
def round (neg : Bool) (n e : Nat) : Float64 :=
  let len := bitLength 2200 n
  if len ≤ 53 then
    let s := min (53 - len) e
    let n1 := n * 2 ^ s
    let e1 := e - s
    if n1 < 4503599627370496 then ⟨neg, 0, Fin.ofNat n1⟩
    else if e1 + 1 ≥ 2047 then inf neg
    else ⟨neg, Fin.ofNat (e1 + 1), Fin.ofNat (n1 - 4503599627370496)⟩
  else
    let k := len - 53
    let q := n / 2 ^ k
    let r := n % 2 ^ k
    let up : Bool := decide (2 * r > 2 ^ k) || (decide (2 * r = 2 ^ k) && decide (q % 2 = 1))
    let q1 := if up then q + 1 else q
    let q2 := if q1 = 9007199254740992 then 4503599627370496 else q1
    let e2 := if q1 = 9007199254740992 then e + k + 1 else e + k
    if e2 + 1 ≥ 2047 then inf neg
    else ⟨neg, Fin.ofNat (e2 + 1), Fin.ofNat (q2 - 4503599627370496)⟩

/-- Go `x + y` on float64. -/
def add (x y : Float64) : Float64 :=
  if x.isNaN || y.isNaN then canonicalNaN
  else if x.isInf then
    if y.isInf && (x.sign != y.sign) then canonicalNaN else x
  else if y.isInf then y
  else
    let e := min x.ex y.ex
    let a := x.sig * 2 ^ (x.ex - e)
    let b := y.sig * 2 ^ (y.ex - e)
    if x.sign = y.sign then
      if a + b = 0 then zero x.sign else round x.sign (a + b) e
    else if a = b then zero false
    else if b < a then round x.sign (a - b) e
    else round y.sign (b - a) e

/-- The datum without its sign bit, read as a number: the order of these numbers is the
order of the absolute values (infinity included). -/
def key (x : Float64) : Nat := x.expo.val * 4503599627370496 + x.frac.val

/-- Go `x < y` on float64 (false as soon as one side is NaN; `-0` is not below `+0`). -/
def lt (x y : Float64) : Bool :=
  if x.isNaN || y.isNaN then false
  else
    match x.sign, y.sign with
    | false, false => decide (x.key < y.key)
    | true, true => decide (y.key < x.key)
    | true, false => !(x.key == 0 && y.key == 0)
    | false, true => false

end Float64

/-! ## Strings -/

/-- Go `s < t` on strings. -/
def strLess (s t : String) : Bool := decide (s.toList < t.toList)

/-! ## Data model (`dto` messages) -/

inductive MetricType where
  | COUNTER
  | GAUGE
  | SUMMARY
  | UNTYPED
  | HISTOGRAM
deriving DecidableEq, Repr

structure LabelPair where
  name : String
  value : String
deriving DecidableEq, Repr

structure Gauge where
  value : Float64
deriving DecidableEq, Repr

structure Counter where
  value : Float64
deriving DecidableEq, Repr

structure Untyped where
  value : Float64
deriving DecidableEq, Repr

structure Quantile where
  quantile : Float64
  value : Float64
deriving DecidableEq, Repr

structure Summary where
  sampleCount : Option Nat := none
  sampleSum : Option Float64 := none
  quantile : List Quantile := []
deriving DecidableEq, Repr

structure Bucket where
  cumulativeCount : Nat
  upperBound : Float64
deriving DecidableEq, Repr

structure Histogram where
  sampleCount : Option Nat := none
  sampleSum : Option Float64 := none
  bucket : List Bucket := []
deriving DecidableEq, Repr

structure Metric where
  label : List LabelPair := []
  gauge : Option Gauge := none
  counter : Option Counter := none
  summary : Option Summary := none
  untyped : Option Untyped := none
  histogram : Option Histogram := none
  timestampMs : Option Int := none
deriving DecidableEq, Repr

structure MetricFamily where
  name : String
  help : Option String := none
  type : MetricType
  metric : List Metric := []
deriving DecidableEq, Repr

/-! ## Outcomes -/

/-- The errors the gateway returns. -/
inductive Error where
  | typeMismatch (name : String) (ta tb : MetricType)
  | invalidLabelSet (msg : String)
  | duplicateLabels (lset : String)
deriving DecidableEq, Repr

/-- Outcome of a call: a normal return without an error, a normal return with an error, or a
run-time panic (nil pointer dereference). -/
inductive Result (α : Type) where
  | ok (v : α)
  | err (e : Error)
  | panic
deriving DecidableEq, Repr

namespace Result

def bind {α β : Type} (r : Result α) (f : α → Result β) : Result β :=
  match r with
  | ok v => f v
  | err e => err e
  | panic => panic

def map {α β : Type} (f : α → β) (r : Result α) : Result β :=
  r.bind (fun v => ok (f v))

end Result

/-! ## Canonical ordering -/

/-- The function `lablesLessThan` of main.go.  The loop advances both indices together, so the
final `len(a) < len(b)` compares the lengths of the two unread suffixes. -/
def lablesLessThan : List LabelPair → List LabelPair → Bool
  | a :: as, b :: bs =>
    if a.name != b.name then strLess a.name b.name
    else if a.value != b.value then strLess a.value b.value
    else lablesLessThan as bs
  | as, bs => decide (as.length < bs.length)

/-- The method `byLabel.Less`. -/
def byLabelLess (m n : Metric) : Bool := lablesLessThan m.label n.label

/-- The method `byName.Less` (`GetName` of a label pair whose name is set is that name). -/
def byNameLess (p q : LabelPair) : Bool := strLess p.name q.name

/-- Go `sort.Sort` for a given `Less`: the elements rearranged into ascending order.  Modelled
by insertion sort; `sort.Sort` promises nothing about the relative order of elements that are
tied under `Less`, and whenever no two elements are tied the ascending arrangement is unique
and this is it. -/
def sortBy {α : Type} (less : α → α → Bool) (l : List α) : List α :=
  l.insertionSort (fun x y => less y x = false)

/-! ## Merge engine -/

/-- Go `x + y` on uint64. -/
def addUint64 (x y : Nat) : Nat := (x + y) % 18446744073709551616

/-- The loop of `mergeBuckets` together with the two loops that copy the remainders. -/
def mergeBucketsLoop : Nat → List Bucket → List Bucket → List Bucket
  | _, [], bs => bs
  | _, as, [] => as
  | 0, _, _ => []
  | fuel + 1, a :: as, b :: bs =>
    if Float64.lt a.upperBound b.upperBound then
      a :: mergeBucketsLoop fuel as (b :: bs)
    else if Float64.lt b.upperBound a.upperBound then
      b :: mergeBucketsLoop fuel (a :: as) bs
    else
      { cumulativeCount := addUint64 a.cumulativeCount b.cumulativeCount,
        upperBound := a.upperBound } :: mergeBucketsLoop fuel as bs

/-- The function `mergeBuckets` of main.go. -/
def mergeBuckets (a b : List Bucket) : List Bucket :=
  mergeBucketsLoop (a.length + b.length) a b

/-- The function `mergeMetric` of main.go.  A nil result is `none`; dereferencing a payload
that is not set panics. -/
def mergeMetric (ty : MetricType) (a b : Metric) : Result (Option Metric) :=
  match ty with
  | .COUNTER =>
    match a.counter, b.counter with
    | some ca, some cb =>
      .ok (some { label := a.label, counter := some { value := Float64.add ca.value cb.value } })
    | _, _ => .panic
  | .GAUGE =>
    match a.gauge, b.gauge with
    | some ga, some gb =>
      .ok (some { label := a.label, gauge := some { value := Float64.add ga.value gb.value } })
    | _, _ => .panic
  | .HISTOGRAM =>
    match a.histogram, b.histogram with
    | some ha, some hb =>
      match ha.sampleCount, hb.sampleCount, ha.sampleSum, hb.sampleSum with
      | some ca, some cb, some sa, some sb =>
        .ok (some { label := a.label,
                    histogram := some { sampleCount := some (addUint64 ca cb),
                                        sampleSum := some (Float64.add sa sb),
                                        bucket := mergeBuckets ha.bucket hb.bucket } })
      | _, _, _, _ => .panic
    | _, _ => .panic
  | .UNTYPED =>
    match a.untyped, b.untyped with
    | some ua, some ub =>
      .ok (some { label := a.label, untyped := some { value := Float64.add ua.value ub.value } })
    | _, _ => .panic
  | .SUMMARY => .ok none

/-- The merge-join loop of `mergeFamily` together with the two loops that copy the
remainders. -/
def mergeFamilyLoop (ty : MetricType) (overwrite : Bool) :
    Nat → List Metric → List Metric → Result (List Metric)
  | _, [], bs => .ok bs
  | _, as, [] => .ok as
  | 0, _, _ => .ok []
  | fuel + 1, a :: as, b :: bs =>
    if lablesLessThan a.label b.label then
      (mergeFamilyLoop ty overwrite fuel as (b :: bs)).map (fun out => a :: out)
    else if lablesLessThan b.label a.label then
      (mergeFamilyLoop ty overwrite fuel (a :: as) bs).map (fun out => b :: out)
    else if overwrite then
      (mergeFamilyLoop ty overwrite fuel as bs).map (fun out => b :: out)
    else
      match mergeMetric ty a b with
      | .ok (some merged) =>
        (mergeFamilyLoop ty overwrite fuel as bs).map (fun out => merged :: out)
      | .ok none => mergeFamilyLoop ty overwrite fuel as bs
      | .err e => .err e
      | .panic => .panic

/-- The function `mergeFamily` of main.go. -/
def mergeFamily (a b : MetricFamily) (overwrite : Bool) : Result MetricFamily :=
  if a.type != b.type then .err (.typeMismatch a.name a.type b.type)
  else
    (mergeFamilyLoop a.type overwrite (a.metric.length + b.metric.length) a.metric b.metric).map
      (fun out => { name := a.name, help := a.help, type := a.type, metric := out })

/-! ## Duplicate validator -/

/-- A `model.LabelSet`: a Go map from label names to label values. -/
abbrev LabelSet := String → Option String

/-- Go `lset[k] = v`. -/
def LabelSet.set (lset : LabelSet) (k v : String) : LabelSet :=
  fun k1 => if k1 = k then some v else lset k1

/-- The methods of `model.LabelSet` (package prometheus/common/model) that `validateFamily`
calls; each is a function of the map alone. -/
structure LabelSetLib where
  validate : LabelSet → Option String
  fingerprint : LabelSet → Nat
  render : LabelSet → String

/-- The map that the inner loop of `validateFamily` builds from the label pairs of a metric,
assigning them in sequence. -/
def labelMap (labels : List LabelPair) : LabelSet :=
  labels.foldl (fun (lset : LabelSet) p => LabelSet.set lset p.name p.value) (fun _ => none)

/-- The label set `validateFamily` builds for a metric: its label pairs, then the family name
under `__name__`. -/
def toLabelSet (familyName : String) (labels : List LabelPair) : LabelSet :=
  LabelSet.set (labelMap labels) "__name__" familyName

/-- The loop of `validateFamily`; the first argument is the set of fingerprints seen. -/
def validateFamilyLoop (lib : LabelSetLib) (familyName : String) :
    List Nat → List Metric → Option Error
  | _, [] => none
  | fingerprints, m :: ms =>
    let lset := toLabelSet familyName m.label
    match lib.validate lset with
    | some msg => some (.invalidLabelSet msg)
    | none =>
      if fingerprints.contains (lib.fingerprint lset) then
        some (.duplicateLabels (lib.render lset))
      else validateFamilyLoop lib familyName (lib.fingerprint lset :: fingerprints) ms

/-- The function `validateFamily` of main.go; `none` is the nil error. -/
def validateFamily (lib : LabelSetLib) (f : MetricFamily) : Option Error :=
  validateFamilyLoop lib f.name [] f.metric

/-! ## Source state store -/

/-- Go `m[k]` with the comma-ok idiom, on a map held as an association list. -/
def mapGet {β : Type} (m : List (String × β)) (k : String) : Option β :=
  match m with
  | [] => none
  | (k1, v) :: rest => if k1 = k then some v else mapGet rest k

/-- Go `m[k] = v`. -/
def mapSet {β : Type} (m : List (String × β)) (k : String) (v : β) : List (String × β) :=
  match m with
  | [] => [(k, v)]
  | (k1, v1) :: rest => if k1 = k then (k, v) :: rest else (k1, v1) :: mapSet rest k v

/-- The struct `jobFamily`; times are instants on an integer time line. -/
structure JobFamily where
  lastUpdate : Int := 0
  families : List (String × MetricFamily) := []
deriving DecidableEq, Repr

/-- The struct `aggate` without its lock. -/
structure Aggate where
  byJob : Bool
  jobPruneDuration : Int
  familiesByJob : List (String × JobFamily) := []
deriving DecidableEq, Repr

def newAggate (byJob : Bool) (jobPruneDuration : Int) : Aggate :=
  { byJob := byJob, jobPruneDuration := jobPruneDuration, familiesByJob := [] }

/-- The first statement of the loop body of `parseAndMerge`: the labels of every metric
sorted by name. -/
def sortLabels (family : MetricFamily) : MetricFamily :=
  { family with
    metric := family.metric.map (fun m => { m with label := sortBy byNameLess m.label }) }

/-- The body of the loop of `parseAndMerge` for one family, entered at time `t` with the
family under the key `name`.  The outcome `ok` stands for reaching the end of the body (or
its `continue`), the other outcomes for leaving `parseAndMerge`; the second component is the
map `familiesByJob` at that point. -/
def processFamily (lib : LabelSetLib) (byJob : Bool) (job : String) (t : Int) (name : String)
    (family : MetricFamily) (store : List (String × JobFamily)) :
    Result Unit × List (String × JobFamily) :=
  let family1 := sortLabels family
  match validateFamily lib family1 with
  | some e => (.err e, store)
  | none =>
    let family2 := { family1 with metric := sortBy byLabelLess family1.metric }
    let entry : JobFamily :=
      match mapGet store job with
      | some existing => existing
      | none => { families := [] }
    let entry1 : JobFamily := { entry with lastUpdate := t }
    match mapGet entry1.families name with
    | none =>
      (.ok (), mapSet store job { entry1 with families := mapSet entry1.families name family2 })
    | some existingFamily =>
      match mergeFamily existingFamily family2 byJob with
      | .err e => (.err e, mapSet store job entry1)
      | .panic => (.panic, mapSet store job entry1)
      | .ok merged =>
        (.ok (), mapSet store job { entry1 with families := mapSet entry1.families name merged })

/-- The loop of `parseAndMerge` over the parsed families, in the order in which the `range`
visits them.  `now k` is the reading of the clock while the family at position `k` of the
batch is processed.  The result is the outcome of the call and the map `familiesByJob` it
leaves behind. -/
def parseAndMergeLoop (lib : LabelSetLib) (byJob : Bool) (job : String) (now : Nat → Int) :
    Nat → List (String × MetricFamily) → List (String × JobFamily) →
      Result Unit × List (String × JobFamily)
  | _, [], store => (.ok (), store)
  | k, (name, family) :: rest, store =>
    match processFamily lib byJob job (now k) name family store with
    | (.ok _, store1) => parseAndMergeLoop lib byJob job now (k + 1) rest store1
    | (.err e, store1) => (.err e, store1)
    | (.panic, store1) => (.panic, store1)

/-- The method `parseAndMerge` of main.go, applied to the families the text parser returned
(a parse error is returned before the store is touched). -/
def parseAndMerge (lib : LabelSetLib) (a : Aggate) (job : String) (now : Nat → Int)
    (inFamilies : List (String × MetricFamily)) : Result Unit × Aggate :=
  let r := parseAndMergeLoop lib a.byJob job now 0 inFamilies a.familiesByJob
  (r.1, { a with familiesByJob := r.2 })

/-! ## Staleness pruner and snapshot assembler -/

/-- Go `delete(m, k)`. -/
def mapDelete {β : Type} (m : List (String × β)) (k : String) : List (String × β) :=
  m.filter (fun e => decide (e.1 ≠ k))

/-- The method `prune` of main.go: the names of the gauge families are collected, then
deleted from the map of the source. -/
def prune (job : JobFamily) : JobFamily :=
  let prunedFamilies :=
    job.families.filterMap (fun e => if e.2.type = .GAUGE then some e.1 else none)
  { job with families := prunedFamilies.foldl mapDelete job.families }

/-- The inner loop of `handler`: the families of one source, in the order in which the
`range` visits them, merged into `mergedFamilies`. -/
def mergeJobFamilies :
    List (String × MetricFamily) → List (String × MetricFamily) →
      Result (List (String × MetricFamily))
  | [], mergedFamilies => .ok mergedFamilies
  | (name, family) :: rest, mergedFamilies =>
    match mapGet mergedFamilies name with
    | none => mergeJobFamilies rest (mapSet mergedFamilies name family)
    | some existingFamily =>
      match mergeFamily existingFamily family false with
      | .ok merged => mergeJobFamilies rest (mapSet mergedFamilies name merged)
      | .err e => .err e
      | .panic => .panic

/-- The outer loop of `handler` over the sources, in the order in which the `range` visits
them.  `now k` is the reading of the clock when the source at position `k` is tested for
staleness.  The result is the outcome with the map `mergedFamilies`, and the sources as the
loop leaves them (`prune` works on the stored source in place). -/
def handlerLoop (jobPruneDuration : Int) (now : Nat → Int) :
    Nat → List (String × JobFamily) → List (String × MetricFamily) →
      Result (List (String × MetricFamily)) × List (String × JobFamily)
  | _, [], mergedFamilies => (.ok mergedFamilies, [])
  | k, (jobName, job) :: rest, mergedFamilies =>
    let job1 := if now k - job.lastUpdate > jobPruneDuration then prune job else job
    match mergeJobFamilies job1.families mergedFamilies with
    | .ok mergedFamilies1 =>
      let r := handlerLoop jobPruneDuration now (k + 1) rest mergedFamilies1
      (r.1, (jobName, job1) :: r.2)
    | .err e => (.err e, (jobName, job1) :: rest)
    | .panic => (.panic, (jobName, job1) :: rest)

/-- The method `handler` of main.go: the families handed to the encoder, in sequence, or the
merge error, and the store it leaves behind.  The encoder is taken to accept every family
(when it fails the handler stops handing it families). -/
def handler (a : Aggate) (now : Nat → Int) : Result (List MetricFamily) × Aggate :=
  let r := handlerLoop a.jobPruneDuration now 0 a.familiesByJob []
  let a1 : Aggate := { a with familiesByJob := r.2 }
  match r.1 with
  | .ok mergedFamilies =>
    let metricNames := sortBy strLess (mergedFamilies.map (fun e => e.1))
    (.ok (metricNames.filterMap (fun name => mapGet mergedFamilies name)), a1)
  | .err e => (.err e, a1)
  | .panic => (.panic, a1)

/-- The mode in which a method holds `familiesLock`. -/
inductive LockMode where
  | exclusive
  | shared
deriving DecidableEq, Repr

/-- `parseAndMerge` takes `familiesLock.Lock()` and holds it until it returns. -/
def parseAndMergeLock : LockMode := .exclusive

/-- `handler` takes `familiesLock.RLock()` and holds it until it returns. -/
def handlerLock : LockMode := .shared

/-! ## Notions used to state the properties -/

/-- The order on label pairs by name, then by value. -/
def pairLess (p q : LabelPair) : Prop :=
  p.name < q.name ∨ (p.name = q.name ∧ p.value < q.value)

/-- A metric sequence is strictly ascending in the label order: every metric is below every
later one (for a transitive order the same as each being below its successor). -/
abbrev StrictAsc (ms : List Metric) : Prop :=
  ms.Pairwise (fun x y => lablesLessThan x.label y.label = true)

/-- The first metric of a sequence that carries the given label sequence, if any. -/
def findLabel (l : List LabelPair) (ms : List Metric) : Option Metric :=
  ms.find? (fun m => decide (m.label = l))

/-- What the merge-join of `mergeFamily` computes where both heads carry the same labels. -/
def combine (ty : MetricType) (overwrite : Bool) (a b : Metric) : Result (Option Metric) :=
  if overwrite then .ok (some b) else mergeMetric ty a b

/-- The metric, if any, that `combine` contributes to the output. -/
def combined (ty : MetricType) (overwrite : Bool) (a b : Metric) : Option Metric :=
  match combine ty overwrite a b with
  | .ok r => r
  | _ => none

/-- The entry of a merged family at one label sequence, from the entries of the operands. -/
def mergeOpt (ty : MetricType) (overwrite : Bool) : Option Metric → Option Metric → Option Metric
  | some x, some y => combined ty overwrite x y
  | some x, none => some x
  | none, some y => some y
  | none, none => none

/-- The metric carries the payload that `mergeMetric` dereferences for the given type. -/
def hasPayload (ty : MetricType) (m : Metric) : Bool :=
  match ty with
  | .COUNTER => m.counter.isSome
  | .GAUGE => m.gauge.isSome
  | .UNTYPED => m.untyped.isSome
  | .SUMMARY => true
  | .HISTOGRAM =>
    match m.histogram with
    | some h => h.sampleCount.isSome && h.sampleSum.isSome
    | none => false

/-- Every metric of the family carries the payload of the declared type. -/
abbrev WellTyped (f : MetricFamily) : Prop := ∀ m ∈ f.metric, hasPayload f.type m = true

/-- The value of a metric of a scalar type. -/
def scalarValue (ty : MetricType) (m : Metric) : Option Float64 :=
  match ty with
  | .COUNTER => m.counter.map (fun c => c.value)
  | .GAUGE => m.gauge.map (fun g => g.value)
  | .UNTYPED => m.untyped.map (fun u => u.value)
  | _ => none

/-- The scalar types: counter, gauge and untyped. -/
def isScalar (ty : MetricType) : Bool :=
  match ty with
  | .COUNTER => true
  | .GAUGE => true
  | .UNTYPED => true
  | _ => false

/-- The metric `mergeMetric` builds for a scalar type: the labels and one value. -/
def scalarMetric (ty : MetricType) (l : List LabelPair) (v : Float64) : Metric :=
  match ty with
  | .COUNTER => { label := l, counter := some { value := v } }
  | .GAUGE => { label := l, gauge := some { value := v } }
  | .UNTYPED => { label := l, untyped := some { value := v } }
  | _ => { label := l }

/-- Go `x == y` on float64: neither side is NaN and the two are the same datum or both are
zeros. -/
def Float64.eq (x y : Float64) : Bool :=
  !x.isNaN && !y.isNaN && (decide (x = y) || (x.sig == 0 && y.sig == 0))

/-- The bucket `mergeBuckets` emits for two buckets with equal upper bounds. -/
def sumBucket (x y : Bucket) : Bucket :=
  { cumulativeCount := addUint64 x.cumulativeCount y.cumulativeCount, upperBound := x.upperBound }

/-- The label names of a metric are pairwise distinct. -/
abbrev DistinctLabelNames (m : Metric) : Prop := (m.label.map (fun p => p.name)).Nodup

/-- The second family is the first with the label pairs of each metric rearranged. -/
def LabelsPermuted (f g : MetricFamily) : Prop :=
  f.name = g.name ∧ f.help = g.help ∧ f.type = g.type ∧
    List.Forall₂ (fun m n => m.label.Perm n.label ∧ n = { m with label := n.label })
      f.metric g.metric

/-- Every accumulated family of every source is well typed. -/
abbrev WellTypedStore (store : List (String × JobFamily)) : Prop :=
  ∀ e ∈ store, ∀ g ∈ e.2.families, WellTyped g.2

/-- The float64 value of a natural number (rounded to nearest even beyond `2 ^ 53`). -/
def Float64.ofNat (n : Nat) : Float64 :=
  if n = 0 then Float64.zero false else Float64.round false n 1074

/-! ## Notions used to state the properties of the store -/

/-- The family mappings of the sources, without the timestamps. -/
def familyMaps (store : List (String × JobFamily)) :
    List (String × List (String × MetricFamily)) :=
  store.map (fun e => (e.1, e.2.families))

/-- The keys of a map held as an association list are pairwise distinct, as in a Go map. -/
abbrev NodupKeys {β : Type} (m : List (String × β)) : Prop := (m.map (fun e => e.1)).Nodup

/-- A bucket sequence is strictly ascending in upper bound. -/
abbrev BoundsAscending (bs : List Bucket) : Prop :=
  bs.Pairwise (fun x y => Float64.lt x.upperBound y.upperBound = true)

/-- The cumulative counts of a bucket sequence never decrease. -/
abbrev CountsNondecreasing (bs : List Bucket) : Prop :=
  bs.Pairwise (fun x y => x.cumulativeCount ≤ y.cumulativeCount)

/-- What the staleness test at time `t` leaves of a source: without its gauge families when
the time elapsed since its last update exceeds the window, as it was otherwise. -/
def expire (window t : Int) (job : JobFamily) : JobFamily :=
  if t - job.lastUpdate > window then
    { job with families := job.families.filter (fun e => decide (e.2.type ≠ .GAUGE)) }
  else job

/-- The sources after an export that visited all of them, the source at position `i` being
tested at time `now (k + i)`. -/
def afterExport (window : Int) (now : Nat → Int) :
    Nat → List (String × JobFamily) → List (String × JobFamily)
  | _, [] => []
  | k, (jobName, job) :: rest =>
    (jobName, expire window (now k) job) :: afterExport window now (k + 1) rest

/-- The families merged under one name by the loops of `handler`, visited in sequence:
`acc` is the entry of `mergedFamilies` under that name so far. -/
def mergeNamed (name : String) :
    List (String × MetricFamily) → Option MetricFamily → Result (Option MetricFamily)
  | [], acc => .ok acc
  | (k, f) :: rest, acc =>
    if k = name then
      match acc with
      | none => mergeNamed name rest (some f)
      | some existing =>
        match mergeFamily existing f false with
        | .ok merged => mergeNamed name rest (some merged)
        | .err e => .err e
        | .panic => .panic
    else mergeNamed name rest acc

/-- All family entries of the sources, in the order in which `handler` visits them. -/
def allFamilies (store : List (String × JobFamily)) : List (String × MetricFamily) :=
  store.flatMap (fun e => e.2.families)

/-- Every accumulated family is stored under its own name. -/
abbrev KeysAreNames (store : List (String × JobFamily)) : Prop :=
  ∀ e ∈ store, ∀ g ∈ e.2.families, g.2.name = g.1


/-- No source is stale when the export visits it: at the reading of the clock for its position
the time elapsed since its last update does not exceed the window. -/
abbrev NoneStale (window : Int) (now : Nat → Int) (store : List (String × JobFamily)) : Prop :=
  ∀ p ∈ store.enum, ¬ (now p.1 - p.2.2.lastUpdate > window)

/-- One more value added to a running float64 sum; the first value starts the sum. -/
def addInto (acc : Option Float64) (v : Float64) : Option Float64 :=
  match acc with
  | none => some v
  | some s => some (Float64.add s v)

/-- The float64 sum of a sequence of values, added from left to right; there is none for the
empty sequence. -/
def sumValues (vs : List Float64) : Option Float64 := vs.foldl addInto none

/-- The value a source has accumulated for a label sequence in its family of the given name,
if it holds one. -/
def sourceValue (ty : MetricType) (name : String) (l : List LabelPair) (job : JobFamily) :
    Option Float64 :=
  (mapGet job.families name).bind (fun g => (findLabel l g.metric).bind (scalarValue ty))

/-- The values that the sources holding a label sequence under a family name have accumulated
for it, in the order in which `handler` visits the sources. -/
def valuesAt (ty : MetricType) (name : String) (l : List LabelPair)
    (store : List (String × JobFamily)) : List Float64 :=
  store.filterMap (fun e => sourceValue ty name l e.2)

/-- A source as the staleness test of `handler` at time `t` leaves it: pruned when the time
elapsed since its last update exceeds the window. -/
def staleChecked (window t : Int) (job : JobFamily) : JobFamily :=
  if t - job.lastUpdate > window then prune job else job

/-- The labels of a metric are in strictly ascending order of their names. -/
abbrev LabelsSorted (m : Metric) : Prop :=
  m.label.Pairwise (fun p q => strLess p.name q.name = true)

/-- The canonical order of a family: the labels of every metric ascending by name, and the
metric sequence strictly ascending in the label order `lablesLessThan`. -/
abbrev FamilySorted (f : MetricFamily) : Prop :=
  (∀ m ∈ f.metric, LabelsSorted m) ∧ StrictAsc f.metric

/-- Every accumulated family of every source is in canonical order. -/
abbrev StoreSorted (store : List (String × JobFamily)) : Prop :=
  ∀ e ∈ store, ∀ g ∈ e.2.families, FamilySorted g.2

/-- The same source with its family mapping enumerated in another order. -/
def SameSource (e e1 : String × JobFamily) : Prop :=
  e1.1 = e.1 ∧ e1.2.lastUpdate = e.2.lastUpdate ∧ e1.2.families.Perm e.2.families

/-- The store states reachable from the empty store by calls of `parseAndMerge`, on batches
whose metrics each have pairwise distinct label names, and of `handler`, whatever they
return.  The order in which a Go map is enumerated is not fixed, so a reachable state stays
reachable when the sources, or the families of the sources, are put in another order. -/
inductive Reachable (lib : LabelSetLib) : Aggate → Prop
  | empty (byJob : Bool) (jobPruneDuration : Int) :
      Reachable lib (newAggate byJob jobPruneDuration)
  | push (a : Aggate) (job : String) (now : Nat → Int) (batch : List (String × MetricFamily)) :
      Reachable lib a → (∀ e ∈ batch, ∀ m ∈ e.2.metric, DistinctLabelNames m) →
      Reachable lib (parseAndMerge lib a job now batch).2
  | scrape (a : Aggate) (now : Nat → Int) :
      Reachable lib a → Reachable lib (handler a now).2
  | reorderSources (a : Aggate) (store : List (String × JobFamily)) :
      Reachable lib a → store.Perm a.familiesByJob →
      Reachable lib { a with familiesByJob := store }
  | reorderFamilies (a : Aggate) (store : List (String × JobFamily)) :
      Reachable lib a → List.Forall₂ SameSource a.familiesByJob store →
      Reachable lib { a with familiesByJob := store }
/-! ## Concrete inputs (from `main_test.go` and the boundary cases) -/

/-- A number that determines a string. -/
def encodeString (s : String) : Nat :=
  s.toList.foldl (fun acc c => acc * 1114112 + c.toNat + 1) 0

/-- A label-set library for the examples: every label set is valid, and the fingerprint
separates the label sets over the names `a`, `b`, `job`, `loaded`, `name` and `path`. -/
def exampleLib : LabelSetLib :=
  { validate := fun _ => none,
    fingerprint := fun lset =>
      ["a", "b", "job", "loaded", "name", "path"].foldl
        (fun acc k => acc * 340282366920938463463374607431768211456 +
          (match lset k with
           | some v => encodeString v + 1
           | none => 0)) 0,
    render := fun lset => (lset "name").getD "" }

/-- The family of `labelFields1`. -/
def labelFields1 : MetricFamily :=
  { name := "ui_page_render_errors", help := some "A counter", type := .COUNTER,
    metric := [{ label := [⟨"path", "/org/:orgId"⟩], counter := some ⟨Float64.ofNat 1⟩ },
               { label := [⟨"path", "/prom/:orgId"⟩], counter := some ⟨Float64.ofNat 1⟩ }] }

/-- The family of `labelFields2`. -/
def labelFields2 : MetricFamily :=
  { name := "ui_page_render_errors", help := some "A counter", type := .COUNTER,
    metric := [{ label := [⟨"path", "/prom/:orgId"⟩], counter := some ⟨Float64.ofNat 1⟩ }] }

/-- The family of `gaugeInput`, labels and metrics in canonical order. -/
def gaugeInput : MetricFamily :=
  { name := "ui_external_lib_loaded",
    help := some "A gauge with entries in un-sorted order", type := .GAUGE,
    metric := [{ label := [⟨"loaded", "true"⟩, ⟨"name", "Intercom"⟩],
                 gauge := some ⟨Float64.ofNat 1⟩ },
               { label := [⟨"loaded", "true"⟩, ⟨"name", "ga"⟩],
                 gauge := some ⟨Float64.ofNat 1⟩ },
               { label := [⟨"loaded", "true"⟩, ⟨"name", "mixpanel"⟩],
                 gauge := some ⟨Float64.ofNat 1⟩ }] }

/-- A second push of the same gauges, one series missing and one new. -/
def gaugeInput2 : MetricFamily :=
  { name := "ui_external_lib_loaded",
    help := some "A gauge with entries in un-sorted order", type := .GAUGE,
    metric := [{ label := [⟨"loaded", "true"⟩, ⟨"name", "ga"⟩],
                 gauge := some ⟨Float64.ofNat 7⟩ },
               { label := [⟨"loaded", "true"⟩, ⟨"name", "mixpanel"⟩],
                 gauge := some ⟨Float64.ofNat 1⟩ },
               { label := [⟨"loaded", "true"⟩, ⟨"name", "zendesk"⟩],
                 gauge := some ⟨Float64.ofNat 1⟩ }] }

/-- A histogram metric with the bounds 3, 4 and +Inf, sum 2.5 and count 1. -/
def histogram1 : Metric :=
  { histogram := some
      { sampleCount := some 1, sampleSum := some ⟨false, 1024, 1125899906842624⟩,
        bucket := [⟨3, Float64.ofNat 3⟩, ⟨4, Float64.ofNat 4⟩, ⟨4, Float64.inf false⟩] } }

/-- A histogram metric with the same bounds, sum 4.5 and count 1. -/
def histogram2 : Metric :=
  { histogram := some
      { sampleCount := some 1, sampleSum := some ⟨false, 1025, 562949953421312⟩,
        bucket := [⟨0, Float64.ofNat 3⟩, ⟨4, Float64.ofNat 4⟩, ⟨5, Float64.inf false⟩] } }

/-- A histogram metric whose counts are `2 ^ 63`, as parsed from
`h_bucket{le="+Inf"} 9223372036854775808`, `h_sum 1`, `h_count 9223372036854775808`. -/
def histogramHalf : Metric :=
  { histogram := some
      { sampleCount := some 9223372036854775808, sampleSum := some (Float64.ofNat 1),
        bucket := [⟨9223372036854775808, Float64.inf false⟩] } }

/-- The family of `duplicateLabels`, as the text parser returns it. -/
def duplicateLabels : MetricFamily :=
  { name := "ui_external_lib_loaded", help := some "Test with duplicate values", type := .GAUGE,
    metric := [{ label := [⟨"name", "Munchkin"⟩, ⟨"loaded", "true"⟩],
                 gauge := some ⟨Float64.ofNat 15171⟩ },
               { label := [⟨"name", "Munchkin"⟩, ⟨"loaded", "true"⟩],
                 gauge := some ⟨Float64.ofNat 1⟩ }] }

/-- The family of `reorderedLabels1`. -/
def reorderedLabels1 : MetricFamily :=
  { name := "counter", help := some "A counter", type := .COUNTER,
    metric := [{ label := [⟨"a", "a"⟩, ⟨"b", "b"⟩], counter := some ⟨Float64.ofNat 1⟩ }] }

/-- The family of `reorderedLabels2`. -/
def reorderedLabels2 : MetricFamily :=
  { name := "counter", help := some "A counter", type := .COUNTER,
    metric := [{ label := [⟨"b", "b"⟩, ⟨"a", "a"⟩], counter := some ⟨Float64.ofNat 2⟩ }] }

/-- The family of `reorderedLabels2` with its labels in the order of `reorderedLabels1`. -/
def reorderedLabels2Sorted : MetricFamily :=
  { name := "counter", help := some "A counter", type := .COUNTER,
    metric := [{ label := [⟨"a", "a"⟩, ⟨"b", "b"⟩], counter := some ⟨Float64.ofNat 2⟩ }] }

/-- A counter family with one unlabelled metric of the given value. -/
def counterOf (n : Nat) : MetricFamily :=
  { name := "counter", help := some "A counter", type := .COUNTER,
    metric := [{ counter := some ⟨Float64.ofNat n⟩ }] }

/-- Two summary families that share the series `{job="a"}`. -/
def summary1 : MetricFamily :=
  { name := "rpc", type := .SUMMARY,
    metric := [{ label := [⟨"job", "a"⟩], summary := some { sampleCount := some 1 } },
               { label := [⟨"job", "b"⟩], summary := some { sampleCount := some 2 } }] }

def summary2 : MetricFamily :=
  { name := "rpc", type := .SUMMARY,
    metric := [{ label := [⟨"job", "a"⟩], summary := some { sampleCount := some 3 } },
               { label := [⟨"job", "c"⟩], summary := some { sampleCount := some 4 } }] }


/-- The histogram family parsed from `h_bucket{le="1"} 1` alone: no sample count, no sample
sum. -/
def histogramBare : MetricFamily :=
  { name := "h", type := .HISTOGRAM,
    metric := [{ histogram := some { bucket := [⟨1, Float64.ofNat 1⟩] } }] }

/-- The store, not partitioned by job, after the source `j1` pushed `histogramBare` at
time 0. -/
def storeBareHistogram : Aggate :=
  { byJob := false, jobPruneDuration := 60,
    familiesByJob := [("j1", { lastUpdate := 0, families := [("h", histogramBare)] })] }

/-- A counter family with one metric `{k="key"}` of value `n` for every pair `(key, n)`. -/
def countersAt (vals : List (String × Nat)) : MetricFamily :=
  { name := "counter", type := .COUNTER,
    metric := vals.map (fun e => { label := [⟨"k", e.1⟩], counter := some ⟨Float64.ofNat e.2⟩ }) }
/-! ## Concrete inputs for the store -/

/-- Buckets with the bounds 1 and 3, five observations at most 1. -/
def bucketsOdd : List Bucket := [⟨5, Float64.ofNat 1⟩, ⟨5, Float64.ofNat 3⟩]

/-- Buckets with the bounds 2 and 4, one observation at most 2. -/
def bucketsEven : List Bucket := [⟨1, Float64.ofNat 2⟩, ⟨1, Float64.ofNat 4⟩]

/-- A family `x` of the given type with one unlabelled metric of value 1. -/
def familyX (ty : MetricType) : MetricFamily :=
  { name := "x", type := ty,
    metric := [scalarMetric ty [] (Float64.ofNat 1)] }

/-- The store after the source `j1` pushed the counter `x 1` at time 0. -/
def storeCounterX : Aggate :=
  { byJob := false, jobPruneDuration := 90,
    familiesByJob := [("j1", { lastUpdate := 0, families := [("x", familyX .COUNTER)] })] }

/-- The store after the source `j1` pushed the gauge `x 1` at time 0. -/
def storeGaugeX : Aggate :=
  { byJob := false, jobPruneDuration := 90,
    familiesByJob := [("j1", { lastUpdate := 0, families := [("x", familyX .GAUGE)] })] }


/-- A family of the given name and scalar type with one unlabelled metric of value `n`. -/
def familyOf (name : String) (ty : MetricType) (n : Nat) : MetricFamily :=
  { name := name, type := ty, metric := [scalarMetric ty [] (Float64.ofNat n)] }

/-- Two sources with a window of 90: `j1`, last updated at time 0, holds the gauge `g` and
the counter `c`; `j2`, last updated at time 50, holds the gauge `g` and the counter `d`. -/
def storeTwoSources : Aggate :=
  { byJob := true, jobPruneDuration := 90,
    familiesByJob :=
      [("j1", { lastUpdate := 0,
                families := [("g", familyOf "g" .GAUGE 1), ("c", familyOf "c" .COUNTER 2)] }),
       ("j2", { lastUpdate := 50,
                families := [("g", familyOf "g" .GAUGE 4), ("d", familyOf "d" .COUNTER 8)] })] }

/-- The store of the test case in which the sources `j1` and `j2` each push `gaugeInput`. -/
def storeGaugeTwoJobs : Aggate :=
  (parseAndMerge exampleLib
    (parseAndMerge exampleLib (newAggate true 90) "j1" (fun _ => 0)
      [("ui_external_lib_loaded", gaugeInput)]).2
    "j2" (fun _ => 10) [("ui_external_lib_loaded", gaugeInput)]).2

/-- The family `gaugeOutput` of that test case: every gauge of `gaugeInput` with the value 2. -/
def gaugeOutput : MetricFamily :=
  { name := "ui_external_lib_loaded",
    help := some "A gauge with entries in un-sorted order", type := .GAUGE,
    metric := [scalarMetric .GAUGE [⟨"loaded", "true"⟩, ⟨"name", "Intercom"⟩] (Float64.ofNat 2),
               scalarMetric .GAUGE [⟨"loaded", "true"⟩, ⟨"name", "ga"⟩] (Float64.ofNat 2),
               scalarMetric .GAUGE [⟨"loaded", "true"⟩, ⟨"name", "mixpanel"⟩]
                 (Float64.ofNat 2)] }

/-- A counter family `c` with the given help string and one unlabelled metric of value `n`. -/
def counterHelp (help : String) (n : Nat) : MetricFamily :=
  { name := "c", help := some help, type := .COUNTER,
    metric := [scalarMetric .COUNTER [] (Float64.ofNat n)] }

/-- A source, last updated at time 0, that holds the one family given. -/
def sourceOf (job : String) (f : MetricFamily) : String × JobFamily :=
  (job, { lastUpdate := 0, families := [(f.name, f)] })

/-- A store with a window of 90 whose sources are visited in the order given. -/
def storeOf (sources : List (String × JobFamily)) : Aggate :=
  { byJob := true, jobPruneDuration := 90, familiesByJob := sources }

/-- The sources of `storeTwoSources` in the opposite order. -/
def twoSourcesSwapped : List (String × JobFamily) :=
  [("j2", { lastUpdate := 50,
            families := [("g", familyOf "g" .GAUGE 4), ("d", familyOf "d" .COUNTER 8)] }),
   ("j1", { lastUpdate := 0,
            families := [("g", familyOf "g" .GAUGE 1), ("c", familyOf "c" .COUNTER 2)] })]

/-- The family of `gaugeInput` with labels and metrics in the order of the pushed text. -/
def gaugeInputParsed : MetricFamily :=
  { name := "ui_external_lib_loaded",
    help := some "A gauge with entries in un-sorted order", type := .GAUGE,
    metric := [{ label := [⟨"name", "ga"⟩, ⟨"loaded", "true"⟩],
                 gauge := some ⟨Float64.ofNat 1⟩ },
               { label := [⟨"name", "Intercom"⟩, ⟨"loaded", "true"⟩],
                 gauge := some ⟨Float64.ofNat 1⟩ },
               { label := [⟨"name", "mixpanel"⟩, ⟨"loaded", "true"⟩],
                 gauge := some ⟨Float64.ofNat 1⟩ }] }

/-- The store after `j1` pushed `reorderedLabels2` at time 0, `j2` pushed the gauges of
`gaugeInput` at time 1 and `j1` pushed `reorderedLabels1` at time 2. -/
def storeAfterPushes : Aggate :=
  (parseAndMerge exampleLib
    (parseAndMerge exampleLib
      (parseAndMerge exampleLib (newAggate true 90) "j1" (fun _ => 0)
        [("counter", reorderedLabels2)]).2
      "j2" (fun _ => 1) [("ui_external_lib_loaded", gaugeInputParsed)]).2
    "j1" (fun _ => 2) [("counter", reorderedLabels1)]).2
/-! ## Ordering of strings and label sequences -/

theorem strLess_iff (s t : String) : strLess s t = true ↔ s < t := by
  unfold strLess
  rw [decide_eq_true_iff, String.lt_iff_toList_lt]

theorem strLess_eq_false_iff (s t : String) : strLess s t = false ↔ t ≤ s := by
  rw [← not_lt, ← strLess_iff, Bool.not_eq_true]

theorem lablesLessThan_nil_left (b : List LabelPair) :
    lablesLessThan [] b = decide (0 < b.length) := by
  cases b <;> simp [lablesLessThan]

theorem lablesLessThan_nil_right (a : List LabelPair) : lablesLessThan a [] = false := by
  cases a <;> simp [lablesLessThan]

theorem lablesLessThan_cons (p q : LabelPair) (as bs : List LabelPair) :
    lablesLessThan (p :: as) (q :: bs) =
      if p.name ≠ q.name then strLess p.name q.name
      else if p.value ≠ q.value then strLess p.value q.value
      else lablesLessThan as bs := by
  simp [lablesLessThan]

theorem lablesLessThan_iff_lex (a b : List LabelPair) :
    lablesLessThan a b = true ↔ List.Lex pairLess a b := by
  induction a generalizing b with
  | nil =>
    cases b with
    | nil => simp [lablesLessThan]
    | cons q bs => simp [lablesLessThan, List.Lex.nil]
  | cons p as ih =>
    cases b with
    | nil => simp [lablesLessThan]
    | cons q bs =>
      rw [lablesLessThan_cons]
      by_cases hn : p.name = q.name
      · by_cases hv : p.value = q.value
        · have hpq : p = q := by
            cases p; cases q; simp_all
          subst hpq
          simp only [ne_eq, not_true_eq_false, if_false, ih]
          constructor
          · intro h; exact List.Lex.cons h
          · intro h
            cases h with
            | cons h => exact h
            | rel h =>
              rcases h with h | ⟨_, h⟩ <;> exact absurd h (lt_irrefl _)
        · simp only [ne_eq, hn, not_true_eq_false, if_false, hv, not_false_eq_true, if_true,
            strLess_iff]
          constructor
          · intro h; exact List.Lex.rel (Or.inr ⟨hn, h⟩)
          · intro h
            cases h with
            | cons h => exact absurd rfl hv
            | rel h =>
              rcases h with h | ⟨_, h⟩
              · rw [hn] at h; exact absurd h (lt_irrefl _)
              · exact h
      · simp only [ne_eq, hn, not_false_eq_true, if_true, strLess_iff]
        constructor
        · intro h; exact List.Lex.rel (Or.inl h)
        · intro h
          cases h with
          | cons h => exact absurd rfl hn
          | rel h =>
            rcases h with h | ⟨h, _⟩
            · exact h
            · exact absurd h hn

theorem lablesLessThan_irrefl (a : List LabelPair) : lablesLessThan a a = false := by
  induction a with
  | nil => simp [lablesLessThan]
  | cons p as ih => rw [lablesLessThan_cons]; simp [ih]

theorem lablesLessThan_trichotomy (a b : List LabelPair) :
    (lablesLessThan a b = true ∧ lablesLessThan b a = false ∧ a ≠ b) ∨
    (lablesLessThan a b = false ∧ lablesLessThan b a = true ∧ a ≠ b) ∨
    (lablesLessThan a b = false ∧ lablesLessThan b a = false ∧ a = b) := by
  induction a generalizing b with
  | nil =>
    cases b with
    | nil => simp [lablesLessThan]
    | cons q bs => simp [lablesLessThan]
  | cons p as ih =>
    cases b with
    | nil => simp [lablesLessThan]
    | cons q bs =>
      rw [lablesLessThan_cons, lablesLessThan_cons]
      by_cases hn : p.name = q.name
      · by_cases hv : p.value = q.value
        · have hpq : p = q := by
            cases p; cases q; simp_all
          subst hpq
          simpa using ih bs
        · have hv2 : ¬ q.value = p.value := fun h => hv h.symm
          have hne : p ≠ q := fun h => hv (by rw [h])
          simp only [ne_eq, hn, not_true_eq_false, if_false, hv, hv2, not_false_eq_true, if_true]
          rcases lt_trichotomy p.value q.value with h | h | h
          · left
            refine ⟨(strLess_iff _ _).2 h, (strLess_eq_false_iff _ _).2 h.le, ?_⟩
            simp [hne]
          · exact absurd h hv
          · right; left
            refine ⟨(strLess_eq_false_iff _ _).2 h.le, (strLess_iff _ _).2 h, ?_⟩
            simp [hne]
      · have hn2 : ¬ q.name = p.name := fun h => hn h.symm
        have hne : p ≠ q := fun h => hn (by rw [h])
        simp only [ne_eq, hn, hn2, not_false_eq_true, if_true]
        rcases lt_trichotomy p.name q.name with h | h | h
        · left
          refine ⟨(strLess_iff _ _).2 h, (strLess_eq_false_iff _ _).2 h.le, ?_⟩
          simp [hne]
        · exact absurd h hn
        · right; left
          refine ⟨(strLess_eq_false_iff _ _).2 h.le, (strLess_iff _ _).2 h, ?_⟩
          simp [hne]

theorem pairLess_trans {p q r : LabelPair} (h1 : pairLess p q) (h2 : pairLess q r) :
    pairLess p r := by
  rcases h1 with h1 | ⟨e1, h1⟩ <;> rcases h2 with h2 | ⟨e2, h2⟩
  · exact Or.inl (lt_trans h1 h2)
  · exact Or.inl (e2 ▸ h1)
  · exact Or.inl (e1 ▸ h2)
  · exact Or.inr ⟨e1.trans e2, lt_trans h1 h2⟩

theorem lex_pairLess_trans {a b c : List LabelPair} (h1 : List.Lex pairLess a b)
    (h2 : List.Lex pairLess b c) : List.Lex pairLess a c := by
  induction h1 generalizing c with
  | nil => cases h2 <;> exact List.Lex.nil
  | cons _ ih =>
    cases h2 with
    | cons h2 => exact List.Lex.cons (ih h2)
    | rel h2 => exact List.Lex.rel h2
  | rel h1 =>
    cases h2 with
    | cons h2 => exact List.Lex.rel h1
    | rel h2 => exact List.Lex.rel (pairLess_trans h1 h2)

theorem lablesLessThan_trans {a b c : List LabelPair} (h1 : lablesLessThan a b = true)
    (h2 : lablesLessThan b c = true) : lablesLessThan a c = true := by
  rw [lablesLessThan_iff_lex] at *
  exact lex_pairLess_trans h1 h2

theorem lablesLessThan_append (a b : List LabelPair) (hb : b ≠ []) :
    lablesLessThan a (a ++ b) = true := by
  induction a with
  | nil =>
    cases b with
    | nil => exact absurd rfl hb
    | cons q bs => simp [lablesLessThan]
  | cons p as ih => rw [List.cons_append, lablesLessThan_cons]; simp [ih]

theorem lablesLessThan_asymm {a b : List LabelPair} (h : lablesLessThan a b = true) :
    lablesLessThan b a = false := by
  rcases lablesLessThan_trichotomy a b with h1 | h1 | h1
  · exact h1.2.1
  · rw [h1.1] at h; exact absurd h (by simp)
  · exact h1.2.1

theorem eq_of_not_lablesLessThan {a b : List LabelPair} (h1 : lablesLessThan a b = false)
    (h2 : lablesLessThan b a = false) : a = b := by
  rcases lablesLessThan_trichotomy a b with h | h | h
  · rw [h.1] at h1; exact absurd h1 (by simp)
  · rw [h.2.1] at h2; exact absurd h2 (by simp)
  · exact h.2.2

/-- C8: `lablesLessThan` is a strict total order on label sequences, the lexicographic order
on (name, value) pairs: it is irreflexive and transitive, for two sequences exactly one of
`a < b`, `b < a` and `a = b` (same length, pairwise equal names and values) holds, and a proper
initial segment of a sequence is less than it. -/
theorem lablesLessThan_strict_total_order :
    (∀ a, lablesLessThan a a = false) ∧
    (∀ a b c, lablesLessThan a b = true → lablesLessThan b c = true →
      lablesLessThan a c = true) ∧
    (∀ a b,
      (lablesLessThan a b = true ∧ lablesLessThan b a = false ∧ a ≠ b) ∨
      (lablesLessThan a b = false ∧ lablesLessThan b a = true ∧ a ≠ b) ∨
      (lablesLessThan a b = false ∧ lablesLessThan b a = false ∧ a = b)) ∧
    (∀ a b, b ≠ [] → lablesLessThan a (a ++ b) = true) ∧
    (∀ a b, lablesLessThan a b = true ↔
      List.Lex (fun p q => p.name < q.name ∨ (p.name = q.name ∧ p.value < q.value)) a b) :=
  ⟨lablesLessThan_irrefl, fun _ _ _ => lablesLessThan_trans, lablesLessThan_trichotomy,
    lablesLessThan_append, lablesLessThan_iff_lex⟩

/-! ## The merge-join of `mergeFamily` -/

theorem Result.map_eq_ok {α β : Type} {f : α → β} {r : Result α} {w : β}
    (h : r.map f = .ok w) : ∃ v, r = .ok v ∧ f v = w := by
  cases r with
  | ok v => exact ⟨v, rfl, by simpa [Result.map, Result.bind] using h⟩
  | err e => simp [Result.map, Result.bind] at h
  | panic => simp [Result.map, Result.bind] at h

theorem Result.map_ok {α β : Type} (f : α → β) (v : α) : (Result.ok v).map f = .ok (f v) := rfl

theorem mergeFamilyLoop_nil_left (ty : MetricType) (ow : Bool) (fuel : Nat) (b : List Metric) :
    mergeFamilyLoop ty ow fuel [] b = .ok b := by
  cases fuel <;> simp [mergeFamilyLoop]

theorem mergeFamilyLoop_nil_right (ty : MetricType) (ow : Bool) (fuel : Nat) (a : List Metric) :
    mergeFamilyLoop ty ow fuel a [] = .ok a := by
  cases fuel <;> cases a <;> simp [mergeFamilyLoop]

theorem mergeFamilyLoop_cons (ty : MetricType) (ow : Bool) (fuel : Nat) (x y : Metric)
    (as bs : List Metric) :
    mergeFamilyLoop ty ow (fuel + 1) (x :: as) (y :: bs) =
      if lablesLessThan x.label y.label then
        (mergeFamilyLoop ty ow fuel as (y :: bs)).map (fun out => x :: out)
      else if lablesLessThan y.label x.label then
        (mergeFamilyLoop ty ow fuel (x :: as) bs).map (fun out => y :: out)
      else
        match combine ty ow x y with
        | .ok (some merged) => (mergeFamilyLoop ty ow fuel as bs).map (fun out => merged :: out)
        | .ok none => mergeFamilyLoop ty ow fuel as bs
        | .err e => .err e
        | .panic => .panic := by
  cases ow <;> simp [mergeFamilyLoop, combine, Result.map_ok]

theorem findLabel_nil (l : List LabelPair) : findLabel l [] = none := rfl

theorem findLabel_cons (l : List LabelPair) (m : Metric) (ms : List Metric) :
    findLabel l (m :: ms) = if m.label = l then some m else findLabel l ms := by
  unfold findLabel
  by_cases h : m.label = l <;> simp [List.find?, h]

theorem findLabel_some {l : List LabelPair} {ms : List Metric} {m : Metric}
    (h : findLabel l ms = some m) : m ∈ ms ∧ m.label = l := by
  unfold findLabel at h
  exact ⟨List.mem_of_find?_eq_some h, by simpa using List.find?_some h⟩

theorem findLabel_eq_none {l : List LabelPair} {ms : List Metric}
    (h : ∀ m ∈ ms, m.label ≠ l) : findLabel l ms = none := by
  unfold findLabel
  rw [List.find?_eq_none]
  intro m hm
  simpa using h m hm

theorem findLabel_eq_none_of_below {l : List LabelPair} {ms : List Metric}
    (h : ∀ m ∈ ms, lablesLessThan l m.label = true) : findLabel l ms = none := by
  apply findLabel_eq_none
  intro m hm heq
  have := h m hm
  rw [heq, lablesLessThan_irrefl] at this
  exact absurd this (by simp)

theorem findLabel_of_mem {ms : List Metric} {m : Metric} (hs : StrictAsc ms) (hm : m ∈ ms) :
    findLabel m.label ms = some m := by
  induction ms with
  | nil => simp at hm
  | cons x xs ih =>
    rw [findLabel_cons]
    replace hs := List.pairwise_cons.1 hs
    rcases List.mem_cons.1 hm with h | h
    · subst h; simp
    · have hlt := hs.1 m h
      have hne : x.label ≠ m.label := by
        intro heq
        rw [heq, lablesLessThan_irrefl] at hlt
        exact absurd hlt (by simp)
      rw [if_neg hne]
      exact ih hs.2 h

theorem mergeMetric_label {ty : MetricType} {x y m : Metric}
    (h : mergeMetric ty x y = .ok (some m)) : m.label = x.label := by
  cases ty
  · cases hx : x.counter <;> cases hy : y.counter <;> simp [mergeMetric, hx, hy] at h
    rw [← h]
  · cases hx : x.gauge <;> cases hy : y.gauge <;> simp [mergeMetric, hx, hy] at h
    rw [← h]
  · simp [mergeMetric] at h
  · cases hx : x.untyped <;> cases hy : y.untyped <;> simp [mergeMetric, hx, hy] at h
    rw [← h]
  · cases hx : x.histogram with
    | none => simp [mergeMetric, hx] at h
    | some p =>
      cases hy : y.histogram with
      | none => simp [mergeMetric, hx, hy] at h
      | some q =>
        cases h1 : p.sampleCount <;> cases h2 : q.sampleCount <;> cases h3 : p.sampleSum <;>
          cases h4 : q.sampleSum <;> simp [mergeMetric, hx, hy, h1, h2, h3, h4] at h
        rw [← h]

theorem combined_label {ty : MetricType} {ow : Bool} {x y m : Metric} (hxy : x.label = y.label)
    (h : combined ty ow x y = some m) : m.label = x.label := by
  unfold combined combine at h
  cases ow with
  | true =>
    simp at h
    rw [← h, hxy]
  | false =>
    simp only [Bool.false_eq_true, if_false] at h
    cases hm : mergeMetric ty x y with
    | ok r =>
      rw [hm] at h
      simp only at h
      subst h
      exact mergeMetric_label hm
    | err e => rw [hm] at h; simp at h
    | panic => rw [hm] at h; simp at h

theorem mergeOpt_some_label {ty : MetricType} {ow : Bool} {a b : List Metric} {l : List LabelPair}
    {m : Metric} (h : mergeOpt ty ow (findLabel l a) (findLabel l b) = some m) :
    m.label = l ∧ ((∃ x ∈ a, x.label = l) ∨ (∃ y ∈ b, y.label = l)) := by
  cases ha : findLabel l a with
  | none =>
    cases hb : findLabel l b with
    | none => rw [ha, hb] at h; simp [mergeOpt] at h
    | some y =>
      rw [ha, hb] at h
      simp only [mergeOpt, Option.some.injEq] at h
      have := findLabel_some hb
      subst h
      exact ⟨this.2, Or.inr ⟨y, this.1, this.2⟩⟩
  | some x =>
    have hx := findLabel_some ha
    refine ⟨?_, Or.inl ⟨x, hx.1, hx.2⟩⟩
    cases hb : findLabel l b with
    | none =>
      rw [ha, hb] at h
      simp only [mergeOpt, Option.some.injEq] at h
      subst h
      exact hx.2
    | some y =>
      rw [ha, hb] at h
      simp only [mergeOpt] at h
      have hy := findLabel_some hb
      rw [combined_label (hx.2.trans hy.2.symm) h]
      exact hx.2

/-- A sequence that realises the merge of `a` and `b` entry by entry has no label outside
those of `a` and `b`. -/
theorem label_mem_of_merge {ty : MetricType} {ow : Bool} {a b out : List Metric}
    (hs : StrictAsc out)
    (hf : ∀ l, findLabel l out = mergeOpt ty ow (findLabel l a) (findLabel l b))
    {m : Metric} (hm : m ∈ out) :
    (∃ x ∈ a, x.label = m.label) ∨ (∃ y ∈ b, y.label = m.label) := by
  have h1 := findLabel_of_mem hs hm
  rw [hf] at h1
  exact (mergeOpt_some_label h1).2

theorem strictAsc_head {x : Metric} {xs : List Metric} (h : StrictAsc (x :: xs)) :
    ∀ m ∈ xs, lablesLessThan x.label m.label = true :=
  (List.pairwise_cons.1 h).1

theorem strictAsc_tail {x : Metric} {xs : List Metric} (h : StrictAsc (x :: xs)) :
    StrictAsc xs :=
  (List.pairwise_cons.1 h).2

/-- Partial correctness of the merge-join: on strictly ascending operands a normal return is
strictly ascending and holds, at every label sequence, the merge of the operands' entries. -/
theorem mergeFamilyLoop_spec (ty : MetricType) (ow : Bool) :
    ∀ (fuel : Nat) (a b out : List Metric), a.length + b.length ≤ fuel →
      StrictAsc a → StrictAsc b → mergeFamilyLoop ty ow fuel a b = .ok out →
      StrictAsc out ∧
        ∀ l, findLabel l out = mergeOpt ty ow (findLabel l a) (findLabel l b) := by
  intro fuel
  induction fuel with
  | zero =>
    intro a b out hfuel ha hb h
    have ha0 : a = [] := List.length_eq_zero.1 (by omega)
    have hb0 : b = [] := List.length_eq_zero.1 (by omega)
    subst ha0 hb0
    rw [mergeFamilyLoop_nil_left] at h
    cases h
    exact ⟨List.Pairwise.nil, fun l => by simp [findLabel_nil, mergeOpt]⟩
  | succ n ih =>
    intro a b out hfuel ha hb h
    cases a with
    | nil =>
      rw [mergeFamilyLoop_nil_left] at h
      cases h
      refine ⟨hb, fun l => ?_⟩
      rw [findLabel_nil]
      cases findLabel l b <;> rfl
    | cons x as =>
      cases b with
      | nil =>
        rw [mergeFamilyLoop_nil_right] at h
        cases h
        refine ⟨ha, fun l => ?_⟩
        rw [findLabel_nil]
        cases findLabel l (x :: as) <;> rfl
      | cons y bs =>
        rw [mergeFamilyLoop_cons] at h
        simp only [List.length_cons] at hfuel
        have hxas := strictAsc_head ha
        have hybs := strictAsc_head hb
        by_cases hxy : lablesLessThan x.label y.label = true
        · -- the head of `a` goes first
          rw [if_pos hxy] at h
          obtain ⟨out1, hout1, hout⟩ := Result.map_eq_ok h
          subst hout
          have hrec := ih as (y :: bs) out1 (by simp only [List.length_cons]; omega)
            (strictAsc_tail ha) hb hout1
          have hbelow : ∀ m ∈ y :: bs, lablesLessThan x.label m.label = true := by
            intro m hm
            rcases List.mem_cons.1 hm with e | e
            · rw [e]; exact hxy
            · exact lablesLessThan_trans hxy (hybs m e)
          refine ⟨List.pairwise_cons.2 ⟨?_, hrec.1⟩, fun l => ?_⟩
          · intro m hm
            rcases label_mem_of_merge hrec.1 hrec.2 hm with ⟨z, hz, e⟩ | ⟨z, hz, e⟩
            · rw [← e]; exact hxas z hz
            · rw [← e]; exact hbelow z hz
          · rw [findLabel_cons, findLabel_cons l x as]
            by_cases hl : x.label = l
            · rw [if_pos hl, if_pos hl]
              have : findLabel l (y :: bs) = none :=
                findLabel_eq_none_of_below (hl ▸ hbelow)
              rw [this]; rfl
            · rw [if_neg hl, if_neg hl]
              exact hrec.2 l
        · rw [if_neg hxy] at h
          by_cases hyx : lablesLessThan y.label x.label = true
          · -- the head of `b` goes first
            rw [if_pos hyx] at h
            obtain ⟨out1, hout1, hout⟩ := Result.map_eq_ok h
            subst hout
            have hrec := ih (x :: as) bs out1 (by simp only [List.length_cons]; omega)
              ha (strictAsc_tail hb) hout1
            have hbelow : ∀ m ∈ x :: as, lablesLessThan y.label m.label = true := by
              intro m hm
              rcases List.mem_cons.1 hm with e | e
              · rw [e]; exact hyx
              · exact lablesLessThan_trans hyx (hxas m e)
            refine ⟨List.pairwise_cons.2 ⟨?_, hrec.1⟩, fun l => ?_⟩
            · intro m hm
              rcases label_mem_of_merge hrec.1 hrec.2 hm with ⟨z, hz, e⟩ | ⟨z, hz, e⟩
              · rw [← e]; exact hbelow z hz
              · rw [← e]; exact hybs z hz
            · rw [findLabel_cons, findLabel_cons l y bs]
              by_cases hl : y.label = l
              · rw [if_pos hl, if_pos hl]
                have : findLabel l (x :: as) = none :=
                  findLabel_eq_none_of_below (hl ▸ hbelow)
                rw [this]; rfl
              · rw [if_neg hl, if_neg hl]
                exact hrec.2 l
          · -- both heads carry the same labels
            rw [if_neg hyx] at h
            have heq : x.label = y.label :=
              eq_of_not_lablesLessThan (by simpa using hxy) (by simpa using hyx)
            have hbelowA : ∀ m ∈ as, lablesLessThan x.label m.label = true := hxas
            have hbelowB : ∀ m ∈ bs, lablesLessThan x.label m.label = true := by
              intro m hm; rw [heq]; exact hybs m hm
            have key : ∀ out1, mergeFamilyLoop ty ow n as bs = .ok out1 →
                StrictAsc out1 ∧ (∀ m ∈ out1, lablesLessThan x.label m.label = true) ∧
                ∀ l, findLabel l out1 = mergeOpt ty ow (findLabel l as) (findLabel l bs) := by
              intro out1 hout1
              have hrec := ih as bs out1 (by omega) (strictAsc_tail ha) (strictAsc_tail hb) hout1
              refine ⟨hrec.1, ?_, hrec.2⟩
              intro m hm
              rcases label_mem_of_merge hrec.1 hrec.2 hm with ⟨z, hz, e⟩ | ⟨z, hz, e⟩
              · rw [← e]; exact hbelowA z hz
              · rw [← e]; exact hbelowB z hz
            have hrest : ∀ l, x.label = l → findLabel l as = none ∧ findLabel l bs = none :=
              fun l hl => ⟨findLabel_eq_none_of_below (hl ▸ hbelowA),
                findLabel_eq_none_of_below (hl ▸ hbelowB)⟩
            cases hc : combine ty ow x y with
            | err e => rw [hc] at h; simp at h
            | panic => rw [hc] at h; simp at h
            | ok r =>
              have hcd : combined ty ow x y = r := by simp [combined, hc]
              cases r with
              | none =>
                rw [hc] at h
                simp only at h
                obtain ⟨h1, _, h3⟩ := key out h
                refine ⟨h1, fun l => ?_⟩
                rw [findLabel_cons l x as, findLabel_cons l y bs]
                by_cases hl : x.label = l
                · have hl2 : y.label = l := heq ▸ hl
                  rw [if_pos hl, if_pos hl2, h3 l, (hrest l hl).1, (hrest l hl).2]
                  simp [mergeOpt, hcd]
                · have hl2 : ¬ y.label = l := fun e => hl (heq.trans e)
                  rw [if_neg hl, if_neg hl2]
                  exact h3 l
              | some merged =>
                rw [hc] at h
                simp only at h
                obtain ⟨out1, hout1, hout⟩ := Result.map_eq_ok h
                subst hout
                obtain ⟨h1, h2, h3⟩ := key out1 hout1
                have hml : merged.label = x.label := combined_label heq hcd
                refine ⟨List.pairwise_cons.2 ⟨by rw [hml]; exact h2, h1⟩, fun l => ?_⟩
                rw [findLabel_cons, findLabel_cons l x as, findLabel_cons l y bs, hml]
                by_cases hl : x.label = l
                · have hl2 : y.label = l := heq ▸ hl
                  rw [if_pos hl, if_pos hl, if_pos hl2]
                  simp [mergeOpt, hcd]
                · have hl2 : ¬ y.label = l := fun e => hl (heq.trans e)
                  rw [if_neg hl, if_neg hl, if_neg hl2]
                  exact h3 l

/-- Totality of the merge-join: it returns normally as soon as `combine` does on every pair. -/
theorem mergeFamilyLoop_total (ty : MetricType) (ow : Bool) :
    ∀ (fuel : Nat) (a b : List Metric),
      (∀ x ∈ a, ∀ y ∈ b, ∃ r, combine ty ow x y = .ok r) →
      ∃ out, mergeFamilyLoop ty ow fuel a b = .ok out := by
  intro fuel
  induction fuel with
  | zero =>
    intro a b _
    cases a with
    | nil => exact ⟨b, mergeFamilyLoop_nil_left _ _ _ _⟩
    | cons x as =>
      cases b with
      | nil => exact ⟨x :: as, mergeFamilyLoop_nil_right _ _ _ _⟩
      | cons y bs => exact ⟨[], by simp [mergeFamilyLoop]⟩
  | succ n ih =>
    intro a b hc
    cases a with
    | nil => exact ⟨b, mergeFamilyLoop_nil_left _ _ _ _⟩
    | cons x as =>
      cases b with
      | nil => exact ⟨x :: as, mergeFamilyLoop_nil_right _ _ _ _⟩
      | cons y bs =>
        rw [mergeFamilyLoop_cons]
        have h1 : ∃ out, mergeFamilyLoop ty ow n as (y :: bs) = .ok out :=
          ih as (y :: bs) (fun p hp q hq => hc p (List.mem_cons_of_mem _ hp) q hq)
        have h2 : ∃ out, mergeFamilyLoop ty ow n (x :: as) bs = .ok out :=
          ih (x :: as) bs (fun p hp q hq => hc p hp q (List.mem_cons_of_mem _ hq))
        have h3 : ∃ out, mergeFamilyLoop ty ow n as bs = .ok out :=
          ih as bs (fun p hp q hq =>
            hc p (List.mem_cons_of_mem _ hp) q (List.mem_cons_of_mem _ hq))
        obtain ⟨o1, e1⟩ := h1
        obtain ⟨o2, e2⟩ := h2
        obtain ⟨o3, e3⟩ := h3
        obtain ⟨r, hr⟩ := hc x (List.mem_cons_self _ _) y (List.mem_cons_self _ _)
        split
        · exact ⟨_, by rw [e1]; rfl⟩
        · split
          · exact ⟨_, by rw [e2]; rfl⟩
          · rw [hr]
            cases r with
            | none => exact ⟨o3, e3⟩
            | some m => exact ⟨_, by simp only [e3]; rfl⟩

/-! ## `mergeFamily` -/

theorem mergeMetric_ne_err (ty : MetricType) (x y : Metric) (e : Error) :
    mergeMetric ty x y ≠ .err e := by
  unfold mergeMetric
  cases ty <;> simp only <;> repeat (first | split | simp)

theorem combine_ne_err (ty : MetricType) (ow : Bool) (x y : Metric) (e : Error) :
    combine ty ow x y ≠ .err e := by
  unfold combine
  cases ow
  · simpa using mergeMetric_ne_err ty x y e
  · simp

theorem Result.map_ne_err {α β : Type} {f : α → β} {r : Result α} (h : ∀ e, r ≠ .err e)
    (e : Error) : r.map f ≠ .err e := by
  cases r with
  | ok v => simp [Result.map, Result.bind]
  | err e1 => exact absurd rfl (h e1)
  | panic => simp [Result.map, Result.bind]

theorem mergeFamilyLoop_ne_err (ty : MetricType) (ow : Bool) :
    ∀ (fuel : Nat) (a b : List Metric) (e : Error), mergeFamilyLoop ty ow fuel a b ≠ .err e := by
  intro fuel
  induction fuel with
  | zero =>
    intro a b e
    cases a with
    | nil => simp [mergeFamilyLoop_nil_left]
    | cons x as =>
      cases b with
      | nil => simp [mergeFamilyLoop_nil_right]
      | cons y bs => simp [mergeFamilyLoop]
  | succ n ih =>
    intro a b e
    cases a with
    | nil => simp [mergeFamilyLoop_nil_left]
    | cons x as =>
      cases b with
      | nil => simp [mergeFamilyLoop_nil_right]
      | cons y bs =>
        rw [mergeFamilyLoop_cons]
        split
        · exact Result.map_ne_err (ih _ _) e
        · split
          · exact Result.map_ne_err (ih _ _) e
          · cases hc : combine ty ow x y with
            | ok r =>
              cases r with
              | none => exact ih _ _ e
              | some m => exact Result.map_ne_err (ih _ _) e
            | err e1 => exact absurd hc (combine_ne_err ty ow x y e1)
            | panic => simp

theorem mergeFamily_of_type_eq {a b : MetricFamily} (ow : Bool) (hty : a.type = b.type) :
    mergeFamily a b ow =
      (mergeFamilyLoop a.type ow (a.metric.length + b.metric.length) a.metric b.metric).map
        (fun out => { name := a.name, help := a.help, type := a.type, metric := out }) := by
  simp [mergeFamily, hty]

theorem mergeFamily_of_type_ne {a b : MetricFamily} (ow : Bool) (hty : a.type ≠ b.type) :
    mergeFamily a b ow = .err (.typeMismatch a.name a.type b.type) := by
  simp [mergeFamily, hty]

/-- A normal return of `mergeFamily` on strictly ascending operands. -/
theorem mergeFamily_spec {a b r : MetricFamily} {ow : Bool} (ha : StrictAsc a.metric)
    (hb : StrictAsc b.metric) (h : mergeFamily a b ow = .ok r) :
    a.type = b.type ∧ r.name = a.name ∧ r.help = a.help ∧ r.type = a.type ∧
      StrictAsc r.metric ∧
      ∀ l, findLabel l r.metric =
        mergeOpt a.type ow (findLabel l a.metric) (findLabel l b.metric) := by
  by_cases hty : a.type = b.type
  · rw [mergeFamily_of_type_eq ow hty] at h
    obtain ⟨out, hout, hr⟩ := Result.map_eq_ok h
    subst hr
    have := mergeFamilyLoop_spec a.type ow _ _ _ out (le_refl _) ha hb hout
    exact ⟨hty, rfl, rfl, rfl, this.1, this.2⟩
  · rw [mergeFamily_of_type_ne ow hty] at h
    cases h

theorem mergeFamily_total {a b : MetricFamily} {ow : Bool} (hty : a.type = b.type)
    (hc : ∀ x ∈ a.metric, ∀ y ∈ b.metric, ∃ r, combine a.type ow x y = .ok r) :
    ∃ r, mergeFamily a b ow = .ok r := by
  rw [mergeFamily_of_type_eq ow hty]
  obtain ⟨out, hout⟩ := mergeFamilyLoop_total a.type ow _ _ _ hc
  exact ⟨_, by rw [hout]; rfl⟩

theorem mergeMetric_ok_of_payload {ty : MetricType} {x y : Metric}
    (hx : hasPayload ty x = true) (hy : hasPayload ty y = true) :
    ∃ r, mergeMetric ty x y = .ok r := by
  cases ty
  · cases h1 : x.counter <;> cases h2 : y.counter <;>
      simp [hasPayload, mergeMetric, h1, h2] at hx hy ⊢
  · cases h1 : x.gauge <;> cases h2 : y.gauge <;>
      simp [hasPayload, mergeMetric, h1, h2] at hx hy ⊢
  · exact ⟨none, rfl⟩
  · cases h1 : x.untyped <;> cases h2 : y.untyped <;>
      simp [hasPayload, mergeMetric, h1, h2] at hx hy ⊢
  · cases h1 : x.histogram with
    | none => simp [hasPayload, h1] at hx
    | some p =>
      cases h2 : y.histogram with
      | none => simp [hasPayload, h2] at hy
      | some q =>
        cases h3 : p.sampleCount <;> cases h4 : q.sampleCount <;> cases h5 : p.sampleSum <;>
          cases h6 : q.sampleSum <;>
          simp [hasPayload, mergeMetric, h1, h2, h3, h4, h5, h6] at hx hy ⊢

theorem combine_ok {a b : MetricFamily} {ow : Bool} (hty : a.type = b.type)
    (hp : ow = true ∨ (WellTyped a ∧ WellTyped b)) :
    ∀ x ∈ a.metric, ∀ y ∈ b.metric, ∃ r, combine a.type ow x y = .ok r := by
  intro x hx y hy
  unfold combine
  rcases hp with h | ⟨h1, h2⟩
  · subst h; exact ⟨some y, rfl⟩
  · cases ow
    · simpa using mergeMetric_ok_of_payload (h1 x hx) (hty ▸ h2 y hy)
    · exact ⟨some y, rfl⟩

theorem mem_iff_findLabel {ms : List Metric} (hs : StrictAsc ms) (m : Metric) :
    m ∈ ms ↔ findLabel m.label ms = some m :=
  ⟨findLabel_of_mem hs, fun h => (findLabel_some h).1⟩

theorem findLabel_eq_none_iff {l : List LabelPair} {ms : List Metric} :
    findLabel l ms = none ↔ ∀ m ∈ ms, m.label ≠ l := by
  unfold findLabel
  rw [List.find?_eq_none]
  simp

theorem strictAsc_nodup_labels {ms : List Metric} (hs : StrictAsc ms) :
    (ms.map (fun m => m.label)).Nodup := by
  unfold List.Nodup
  rw [List.pairwise_map]
  refine List.Pairwise.imp ?_ hs
  intro x y hxy heq
  rw [heq, lablesLessThan_irrefl] at hxy
  exact absurd hxy (by simp)

theorem strictAsc_nodup {ms : List Metric} (hs : StrictAsc ms) : ms.Nodup := by
  unfold List.Nodup
  refine List.Pairwise.imp ?_ hs
  intro x y hxy heq
  rw [heq, lablesLessThan_irrefl] at hxy
  exact absurd hxy (by simp)

/-- Two strictly ascending metric sequences with the same entry at every label sequence are
equal. -/
theorem strictAsc_ext {l r : List Metric} (hl : StrictAsc l) (hr : StrictAsc r)
    (h : ∀ lbl, findLabel lbl l = findLabel lbl r) : l = r := by
  have hperm : l.Perm r := by
    rw [List.perm_ext_iff_of_nodup (strictAsc_nodup hl) (strictAsc_nodup hr)]
    intro m
    rw [mem_iff_findLabel hl, mem_iff_findLabel hr, h]
  haveI : IsAntisymm Metric (fun x y => lablesLessThan x.label y.label = true) :=
    ⟨fun x y h1 h2 => by
      rw [lablesLessThan_asymm h1] at h2
      exact absurd h2 (by simp)⟩
  exact List.eq_of_perm_of_sorted hperm hl hr

/-- C2: `mergeFamily` returns an error exactly when the declared types of its operands
differ (the error then names the two types), and a result it returns carries the name, the
help string and the type of its first operand; it does return one for operands of one type
in overwrite mode or with payloads of the declared type. -/
theorem mergeFamily_error_iff_type_mismatch (a b : MetricFamily) (overwrite : Bool) :
    ((∃ e, mergeFamily a b overwrite = .err e) ↔ a.type ≠ b.type) ∧
    (a.type ≠ b.type →
      mergeFamily a b overwrite = .err (.typeMismatch a.name a.type b.type)) ∧
    (∀ r, mergeFamily a b overwrite = .ok r →
      r.name = a.name ∧ r.help = a.help ∧ r.type = a.type) ∧
    (a.type = b.type → (overwrite = true ∨ (WellTyped a ∧ WellTyped b)) →
      ∃ r, mergeFamily a b overwrite = .ok r) := by
  refine ⟨⟨?_, ?_⟩, mergeFamily_of_type_ne overwrite, ?_, ?_⟩
  · rintro ⟨e, he⟩ hty
    rw [mergeFamily_of_type_eq overwrite hty] at he
    exact Result.map_ne_err (mergeFamilyLoop_ne_err _ _ _ _ _) e he
  · intro hty
    exact ⟨_, mergeFamily_of_type_ne overwrite hty⟩
  · intro r h
    by_cases hty : a.type = b.type
    · rw [mergeFamily_of_type_eq overwrite hty] at h
      obtain ⟨out, _, hr⟩ := Result.map_eq_ok h
      subst hr
      exact ⟨rfl, rfl, rfl⟩
    · rw [mergeFamily_of_type_ne overwrite hty] at h
      cases h
  · intro hty hp
    exact mergeFamily_total hty (combine_ok hty hp)

/-- C7: merging preserves the label order.  For two families of one declared type, whatever
it is, whose metric sequences are strictly ascending, and for either value of the overwrite
flag, every result of `mergeFamily` has a strictly ascending metric sequence, and there is
such a result in overwrite mode and whenever the metrics carry payloads of the declared
type. -/
theorem mergeFamily_preserves_label_order (a b : MetricFamily) (overwrite : Bool)
    (hty : a.type = b.type) (ha : StrictAsc a.metric) (hb : StrictAsc b.metric) :
    (∀ r, mergeFamily a b overwrite = .ok r → StrictAsc r.metric) ∧
    ((overwrite = true ∨ (WellTyped a ∧ WellTyped b)) →
      ∃ r, mergeFamily a b overwrite = .ok r ∧ StrictAsc r.metric) := by
  refine ⟨fun r h => (mergeFamily_spec ha hb h).2.2.2.2.1, fun hp => ?_⟩
  obtain ⟨r, hr⟩ := mergeFamily_total hty (combine_ok hty hp)
  exact ⟨r, hr, (mergeFamily_spec ha hb hr).2.2.2.2.1⟩

/-! ## Numeric mode on scalar types, overwrite mode, summaries -/

theorem scalarValue_of_payload {ty : MetricType} {m : Metric} (hs : isScalar ty = true)
    (hp : hasPayload ty m = true) : ∃ v, scalarValue ty m = some v := by
  cases ty <;> simp [isScalar] at hs
  · cases h : m.counter <;> simp [hasPayload, scalarValue, h] at hp ⊢
  · cases h : m.gauge <;> simp [hasPayload, scalarValue, h] at hp ⊢
  · cases h : m.untyped <;> simp [hasPayload, scalarValue, h] at hp ⊢

theorem mergeMetric_scalar {ty : MetricType} {x y : Metric} {vx vy : Float64}
    (hs : isScalar ty = true) (hx : scalarValue ty x = some vx)
    (hy : scalarValue ty y = some vy) :
    mergeMetric ty x y = .ok (some (scalarMetric ty x.label (Float64.add vx vy))) := by
  cases ty <;> simp [isScalar] at hs
  · cases h1 : x.counter <;> cases h2 : y.counter <;>
      simp [scalarValue, h1, h2] at hx hy
    simp [mergeMetric, scalarMetric, h1, h2, hx, hy]
  · cases h1 : x.gauge <;> cases h2 : y.gauge <;>
      simp [scalarValue, h1, h2] at hx hy
    simp [mergeMetric, scalarMetric, h1, h2, hx, hy]
  · cases h1 : x.untyped <;> cases h2 : y.untyped <;>
      simp [scalarValue, h1, h2] at hx hy
    simp [mergeMetric, scalarMetric, h1, h2, hx, hy]

theorem combined_scalar {ty : MetricType} {x y : Metric} {vx vy : Float64}
    (hs : isScalar ty = true) (hx : scalarValue ty x = some vx)
    (hy : scalarValue ty y = some vy) :
    combined ty false x y = some (scalarMetric ty x.label (Float64.add vx vy)) := by
  simp [combined, combine, mergeMetric_scalar hs hx hy]

theorem scalarMetric_label (ty : MetricType) (l : List LabelPair) (v : Float64) :
    (scalarMetric ty l v).label = l := by
  cases ty <;> rfl

theorem scalarMetric_value {ty : MetricType} (hs : isScalar ty = true) (l : List LabelPair)
    (v : Float64) : scalarValue ty (scalarMetric ty l v) = some v := by
  cases ty <;> simp [isScalar] at hs <;> rfl

theorem combined_overwrite (ty : MetricType) (x y : Metric) :
    combined ty true x y = some y := by
  simp [combined, combine]

theorem combined_summary (x y : Metric) : combined .SUMMARY false x y = none := by
  simp [combined, combine, mergeMetric]

theorem findLabel_isSome_of_mem {ms : List Metric} {x : Metric} (hx : x ∈ ms) :
    ∃ m, findLabel x.label ms = some m := by
  cases h : findLabel x.label ms with
  | none => exact absurd rfl (findLabel_eq_none_iff.1 h x hx)
  | some m => exact ⟨m, rfl⟩

/-- C1: numeric merge of two families of one scalar type (counter, gauge or untyped, the
metrics carrying that payload) with strictly ascending metric sequences.  `mergeFamily`
returns a family whose metric sequence has exactly one metric per label sequence of either
operand: the metric of `a` unchanged where only `a` has the labels, the metric of `b`
unchanged where only `b` has them, and where both have them a metric with these labels whose
value is the float64 sum of the two values.  The label set of a metric is identified by its
label sequence, which is what the merge-join compares. -/
theorem mergeFamily_scalar_sum (a b : MetricFamily) (hty : a.type = b.type)
    (hs : isScalar a.type = true) (hwa : WellTyped a) (hwb : WellTyped b)
    (ha : StrictAsc a.metric) (hb : StrictAsc b.metric) :
    ∃ r, mergeFamily a b false = .ok r ∧
      (r.metric.map (fun m => m.label)).Nodup ∧
      (∀ l, (∃ m ∈ r.metric, m.label = l) ↔
        ((∃ x ∈ a.metric, x.label = l) ∨ (∃ y ∈ b.metric, y.label = l))) ∧
      (∀ x ∈ a.metric, (∀ y ∈ b.metric, y.label ≠ x.label) → x ∈ r.metric) ∧
      (∀ y ∈ b.metric, (∀ x ∈ a.metric, x.label ≠ y.label) → y ∈ r.metric) ∧
      (∀ x ∈ a.metric, ∀ y ∈ b.metric, x.label = y.label →
        ∃ vx vy m, scalarValue a.type x = some vx ∧ scalarValue a.type y = some vy ∧
          m ∈ r.metric ∧ m.label = x.label ∧
          scalarValue a.type m = some (Float64.add vx vy)) := by
  obtain ⟨r, hr⟩ := mergeFamily_total hty (combine_ok hty (Or.inr ⟨hwa, hwb⟩))
  obtain ⟨_, _, _, _, hsr, hf⟩ := mergeFamily_spec ha hb hr
  refine ⟨r, hr, strictAsc_nodup_labels hsr, ?_, ?_, ?_, ?_⟩
  · intro l
    constructor
    · rintro ⟨m, hm, hl⟩
      have := label_mem_of_merge hsr hf hm
      rwa [hl] at this
    · intro h
      have hsome : ∃ m, findLabel l r.metric = some m := by
        rw [hf l]
        rcases h with ⟨x, hx, hl⟩ | ⟨y, hy, hl⟩
        · obtain ⟨x1, hx1⟩ := findLabel_isSome_of_mem hx
          rw [hl] at hx1
          rw [hx1]
          cases hb1 : findLabel l b.metric with
          | none => exact ⟨x1, rfl⟩
          | some y1 =>
            obtain ⟨vx, hvx⟩ := scalarValue_of_payload hs (hwa x1 (findLabel_some hx1).1)
            obtain ⟨vy, hvy⟩ :=
              scalarValue_of_payload hs (hty ▸ hwb y1 (findLabel_some hb1).1)
            exact ⟨_, combined_scalar hs hvx hvy⟩
        · obtain ⟨y1, hy1⟩ := findLabel_isSome_of_mem hy
          rw [hl] at hy1
          rw [hy1]
          cases ha1 : findLabel l a.metric with
          | none => exact ⟨y1, rfl⟩
          | some x1 =>
            obtain ⟨vx, hvx⟩ := scalarValue_of_payload hs (hwa x1 (findLabel_some ha1).1)
            obtain ⟨vy, hvy⟩ :=
              scalarValue_of_payload hs (hty ▸ hwb y1 (findLabel_some hy1).1)
            exact ⟨_, combined_scalar hs hvx hvy⟩
      obtain ⟨m, hm⟩ := hsome
      exact ⟨m, (findLabel_some hm).1, (findLabel_some hm).2⟩
  · intro x hx hnone
    rw [mem_iff_findLabel hsr, hf, findLabel_of_mem ha hx, findLabel_eq_none_iff.2 hnone]
    rfl
  · intro y hy hnone
    rw [mem_iff_findLabel hsr, hf, findLabel_of_mem hb hy, findLabel_eq_none_iff.2 hnone]
    rfl
  · intro x hx y hy hxy
    obtain ⟨vx, hvx⟩ := scalarValue_of_payload hs (hwa x hx)
    obtain ⟨vy, hvy⟩ := scalarValue_of_payload hs (hty ▸ hwb y hy)
    refine ⟨vx, vy, scalarMetric a.type x.label (Float64.add vx vy), hvx, hvy, ?_,
      scalarMetric_label _ _ _, scalarMetric_value hs _ _⟩
    have h1 := hf x.label
    rw [findLabel_of_mem ha hx, hxy, findLabel_of_mem hb hy] at h1
    simp only [mergeOpt] at h1
    rw [combined_scalar hs hvx hvy] at h1
    exact (findLabel_some h1).1

/-- C3: overwrite mode.  For two families of one type with strictly ascending metric
sequences, the metric sequence of `mergeFamily a b true` is strictly ascending and consists
of all metrics of `b`, unchanged, and of those metrics of `a`, unchanged, whose labels no
metric of `b` carries; merging `b` into the result once more returns the result again, and
merging a family with itself returns it. -/
theorem mergeFamily_overwrite_newer_wins (a b : MetricFamily) (hty : a.type = b.type)
    (ha : StrictAsc a.metric) (hb : StrictAsc b.metric) :
    (∃ r, mergeFamily a b true = .ok r ∧ StrictAsc r.metric ∧
      (∀ m, m ∈ r.metric ↔
        (m ∈ b.metric ∨ (m ∈ a.metric ∧ ∀ y ∈ b.metric, y.label ≠ m.label))) ∧
      mergeFamily r b true = .ok r) ∧
    mergeFamily a a true = .ok a := by
  have hself : ∀ (fuel : Nat) (xs : List Metric), xs.length + xs.length ≤ fuel →
      mergeFamilyLoop a.type true fuel xs xs = .ok xs := by
    intro fuel
    induction fuel with
    | zero =>
      intro xs hx
      have : xs = [] := List.length_eq_zero.1 (by omega)
      subst this
      exact mergeFamilyLoop_nil_left _ _ _ _
    | succ n ih =>
      intro xs hx
      cases xs with
      | nil => exact mergeFamilyLoop_nil_left _ _ _ _
      | cons x xs =>
        simp only [List.length_cons] at hx
        rw [mergeFamilyLoop_cons, lablesLessThan_irrefl]
        simp only [Bool.false_eq_true, if_false, combine, if_true]
        rw [ih xs (by omega)]
        rfl
  refine ⟨?_, ?_⟩
  · obtain ⟨r, hr⟩ := mergeFamily_total hty (combine_ok hty (Or.inl rfl))
    obtain ⟨_, _, _, _, hsr, hf⟩ := mergeFamily_spec ha hb hr
    have hagain : mergeFamily r b true = .ok r := by
      have hty2 : r.type = b.type := by rw [← hty]; assumption
      obtain ⟨r2, hr2⟩ : ∃ r2, mergeFamily r b true = .ok r2 :=
        mergeFamily_total hty2 (combine_ok hty2 (Or.inl rfl))
      obtain ⟨_, hn2, hh2, ht2, hsr2, hf2⟩ := mergeFamily_spec hsr hb hr2
      have hmetric : r2.metric = r.metric := by
        apply strictAsc_ext hsr2 hsr
        intro l
        rw [hf2, hf]
        cases findLabel l a.metric <;> cases findLabel l b.metric <;>
          simp [mergeOpt, combined_overwrite]
      have : r2 = r := by
        cases r2; cases r
        simp only at hn2 hh2 ht2 hmetric
        simp [hn2, hh2, ht2, hmetric]
      rw [hr2, this]
    refine ⟨r, hr, hsr, fun m => ?_, hagain⟩
    rw [mem_iff_findLabel hsr, hf]
    constructor
    · intro h
      cases ha1 : findLabel m.label a.metric with
      | none =>
        cases hb1 : findLabel m.label b.metric with
        | none => rw [ha1, hb1] at h; simp [mergeOpt] at h
        | some y =>
          rw [ha1, hb1] at h
          simp only [mergeOpt, Option.some.injEq] at h
          subst h
          exact Or.inl (findLabel_some hb1).1
      | some x =>
        cases hb1 : findLabel m.label b.metric with
        | none =>
          rw [ha1, hb1] at h
          simp only [mergeOpt, Option.some.injEq] at h
          subst h
          exact Or.inr ⟨(findLabel_some ha1).1, findLabel_eq_none_iff.1 hb1⟩
        | some y =>
          rw [ha1, hb1] at h
          simp only [mergeOpt, combined_overwrite, Option.some.injEq] at h
          subst h
          exact Or.inl (findLabel_some hb1).1
    · rintro (h | ⟨h1, h2⟩)
      · rw [findLabel_of_mem hb h]
        cases findLabel m.label a.metric <;> simp [mergeOpt, combined_overwrite]
      · rw [findLabel_of_mem ha h1, findLabel_eq_none_iff.2 h2]
        rfl
  · rw [mergeFamily_of_type_eq true rfl, hself _ _ (le_refl _)]
    rfl

/-- C10: summaries.  For two summary families with strictly ascending metric sequences,
numeric `mergeFamily` returns without an error a family whose metric sequence has no metric
for a label sequence that both operands carry, and holds unchanged every metric whose label
sequence only one of them carries (and nothing else). -/
theorem mergeFamily_summary_drops_common (a b : MetricFamily) (hta : a.type = .SUMMARY)
    (htb : b.type = .SUMMARY) (ha : StrictAsc a.metric) (hb : StrictAsc b.metric) :
    ∃ r, mergeFamily a b false = .ok r ∧
      (∀ m ∈ r.metric,
        ¬ ((∃ x ∈ a.metric, x.label = m.label) ∧ (∃ y ∈ b.metric, y.label = m.label))) ∧
      (∀ x ∈ a.metric, (∀ y ∈ b.metric, y.label ≠ x.label) → x ∈ r.metric) ∧
      (∀ y ∈ b.metric, (∀ x ∈ a.metric, x.label ≠ y.label) → y ∈ r.metric) ∧
      (∀ m ∈ r.metric, m ∈ a.metric ∨ m ∈ b.metric) := by
  have hty : a.type = b.type := hta.trans htb.symm
  have hwa : WellTyped a := fun m _ => by rw [hta]; rfl
  have hwb : WellTyped b := fun m _ => by rw [htb]; rfl
  obtain ⟨r, hr⟩ : ∃ r, mergeFamily a b false = .ok r :=
    mergeFamily_total hty (combine_ok hty (Or.inr ⟨hwa, hwb⟩))
  obtain ⟨_, _, _, _, hsr, hf⟩ := mergeFamily_spec ha hb hr
  rw [hta] at hf
  have hcases : ∀ m ∈ r.metric,
      (m ∈ a.metric ∧ findLabel m.label b.metric = none) ∨
      (m ∈ b.metric ∧ findLabel m.label a.metric = none) := by
    intro m hm
    have h := (mem_iff_findLabel hsr m).1 hm
    rw [hf] at h
    cases ha1 : findLabel m.label a.metric with
    | none =>
      cases hb1 : findLabel m.label b.metric with
      | none => rw [ha1, hb1] at h; simp [mergeOpt] at h
      | some y =>
        rw [ha1, hb1] at h
        simp only [mergeOpt, Option.some.injEq] at h
        subst h
        exact Or.inr ⟨(findLabel_some hb1).1, rfl⟩
    | some x =>
      cases hb1 : findLabel m.label b.metric with
      | none =>
        rw [ha1, hb1] at h
        simp only [mergeOpt, Option.some.injEq] at h
        subst h
        exact Or.inl ⟨(findLabel_some ha1).1, rfl⟩
      | some y =>
        rw [ha1, hb1] at h
        simp [mergeOpt, combined_summary] at h
  refine ⟨r, hr, ?_, ?_, ?_, ?_⟩
  · rintro m hm ⟨⟨x, hx, hxl⟩, ⟨y, hy, hyl⟩⟩
    rcases hcases m hm with ⟨_, h⟩ | ⟨_, h⟩
    · exact findLabel_eq_none_iff.1 h y hy hyl
    · exact findLabel_eq_none_iff.1 h x hx hxl
  · intro x hx hnone
    rw [mem_iff_findLabel hsr, hf, findLabel_of_mem ha hx, findLabel_eq_none_iff.2 hnone]
    rfl
  · intro y hy hnone
    rw [mem_iff_findLabel hsr, hf, findLabel_of_mem hb hy, findLabel_eq_none_iff.2 hnone]
    rfl
  · intro m hm
    rcases hcases m hm with ⟨h, _⟩ | ⟨h, _⟩
    · exact Or.inl h
    · exact Or.inr h

/-! ## Histograms with identical bucket boundaries -/

theorem Float64.lt_irrefl (x : Float64) : Float64.lt x x = false := by
  unfold Float64.lt
  cases x.sign <;> simp

theorem Float64.key_of_sig_eq_zero {x : Float64} (h : x.sig = 0) : x.key = 0 := by
  unfold Float64.sig at h
  unfold Float64.key
  by_cases h0 : x.expo.val = 0
  · rw [if_pos h0] at h
    rw [h0, h]
  · rw [if_neg h0] at h
    omega

theorem Float64.not_lt_of_eq {x y : Float64} (h : Float64.eq x y = true) :
    Float64.lt x y = false ∧ Float64.lt y x = false := by
  unfold Float64.eq at h
  simp only [Bool.and_eq_true, Bool.not_eq_true', Bool.or_eq_true, decide_eq_true_eq,
    beq_iff_eq] at h
  obtain ⟨⟨hx, hy⟩, h | ⟨h1, h2⟩⟩ := h
  · subst h
    exact ⟨Float64.lt_irrefl x, Float64.lt_irrefl x⟩
  · have e1 := Float64.key_of_sig_eq_zero h1
    have e2 := Float64.key_of_sig_eq_zero h2
    unfold Float64.lt
    cases x.sign <;> cases y.sign <;> simp [hx, hy, e1, e2]

theorem mergeBucketsLoop_nil_left (fuel : Nat) (bs : List Bucket) :
    mergeBucketsLoop fuel [] bs = bs := by
  cases fuel <;> simp [mergeBucketsLoop]

theorem mergeBucketsLoop_nil_right (fuel : Nat) (as : List Bucket) :
    mergeBucketsLoop fuel as [] = as := by
  cases fuel <;> cases as <;> simp [mergeBucketsLoop]

theorem mergeBucketsLoop_cons (fuel : Nat) (x y : Bucket) (as bs : List Bucket) :
    mergeBucketsLoop (fuel + 1) (x :: as) (y :: bs) =
      if Float64.lt x.upperBound y.upperBound then
        x :: mergeBucketsLoop fuel as (y :: bs)
      else if Float64.lt y.upperBound x.upperBound then
        y :: mergeBucketsLoop fuel (x :: as) bs
      else sumBucket x y :: mergeBucketsLoop fuel as bs := by
  simp [mergeBucketsLoop, sumBucket]

theorem mergeBucketsLoop_aligned :
    ∀ (fuel : Nat) (as bs : List Bucket), as.length + bs.length ≤ fuel →
      List.Forall₂ (fun x y => Float64.eq x.upperBound y.upperBound = true) as bs →
      mergeBucketsLoop fuel as bs = List.zipWith sumBucket as bs := by
  intro fuel
  induction fuel with
  | zero =>
    intro as bs hfuel _
    have ha0 : as = [] := List.length_eq_zero.1 (by omega)
    subst ha0
    rw [mergeBucketsLoop_nil_left]
    have hb0 : bs = [] := List.length_eq_zero.1 (by simpa using hfuel)
    subst hb0
    rfl
  | succ n ih =>
    intro as bs hfuel h
    cases h with
    | nil => rw [mergeBucketsLoop_nil_left]; rfl
    | @cons x y as1 bs1 hxy hrest =>
      simp only [List.length_cons] at hfuel
      have := Float64.not_lt_of_eq hxy
      rw [mergeBucketsLoop_cons, this.1, this.2]
      simp only [Bool.false_eq_true, if_false, List.zipWith_cons_cons]
      rw [ih as1 bs1 (by omega) hrest]

theorem mergeBuckets_aligned {as bs : List Bucket}
    (h : List.Forall₂ (fun x y => Float64.eq x.upperBound y.upperBound = true) as bs) :
    mergeBuckets as bs = List.zipWith sumBucket as bs :=
  mergeBucketsLoop_aligned _ as bs (le_refl _) h

theorem zipWith_sumBucket_upperBound :
    ∀ (as bs : List Bucket), as.length = bs.length →
      (List.zipWith sumBucket as bs).map (fun x => x.upperBound) =
        as.map (fun x => x.upperBound)
  | [], _, _ => rfl
  | x :: as, [], h => by simp at h
  | x :: as, y :: bs, h => by
    have ih := zipWith_sumBucket_upperBound as bs (by simpa using h)
    simp only [List.zipWith_cons_cons, List.map_cons, ih]
    rfl

theorem zipWith_count_exact :
    ∀ (as bs : List Bucket),
      (∀ p ∈ List.zip as bs, p.1.cumulativeCount + p.2.cumulativeCount < 2 ^ 64) →
      List.zipWith (fun x y => (x.cumulativeCount + y.cumulativeCount) % 2 ^ 64) as bs =
        List.zipWith (fun x y => x.cumulativeCount + y.cumulativeCount) as bs
  | [], _, _ => rfl
  | x :: as, [], _ => rfl
  | x :: as, y :: bs, h => by
    simp only [List.zip_cons_cons, List.mem_cons, forall_eq_or_imp] at h
    simp only [List.zipWith_cons_cons, List.cons.injEq]
    exact ⟨Nat.mod_eq_of_lt h.1, zipWith_count_exact as bs h.2⟩

/-- C4, as amended: merging two histogram metrics whose bucket sequences have the same length
and pairwise equal upper bounds.  `mergeMetric` returns a histogram with the labels of `a`,
whose sample count is the sum of the two sample counts reduced modulo `2 ^ 64`, whose sample
sum is the float64 sum of the two sample sums, and whose bucket sequence has the same length
and the upper bounds of `a`, each cumulative count being the sum of the two corresponding
counts reduced modulo `2 ^ 64`; the counts are the exact sums wherever those are below
`2 ^ 64`. -/
theorem mergeMetric_histogram_aligned (a b : Metric) (ha hb : Histogram) (ca cb : Nat)
    (sa sb : Float64) (hha : a.histogram = some ha) (hhb : b.histogram = some hb)
    (hca : ha.sampleCount = some ca) (hcb : hb.sampleCount = some cb)
    (hsa : ha.sampleSum = some sa) (hsb : hb.sampleSum = some sb)
    (hbounds : List.Forall₂ (fun x y => Float64.eq x.upperBound y.upperBound = true)
      ha.bucket hb.bucket) :
    ∃ h : Histogram,
      mergeMetric .HISTOGRAM a b = .ok (some { label := a.label, histogram := some h }) ∧
      h.sampleCount = some ((ca + cb) % 2 ^ 64) ∧
      (ca + cb < 2 ^ 64 → h.sampleCount = some (ca + cb)) ∧
      h.sampleSum = some (Float64.add sa sb) ∧
      h.bucket.length = ha.bucket.length ∧ h.bucket.length = hb.bucket.length ∧
      h.bucket.map (fun x => x.upperBound) = ha.bucket.map (fun x => x.upperBound) ∧
      h.bucket.map (fun x => x.cumulativeCount) =
        List.zipWith (fun x y => (x.cumulativeCount + y.cumulativeCount) % 2 ^ 64)
          ha.bucket hb.bucket ∧
      ((∀ p ∈ List.zip ha.bucket hb.bucket,
          p.1.cumulativeCount + p.2.cumulativeCount < 2 ^ 64) →
        h.bucket.map (fun x => x.cumulativeCount) =
          List.zipWith (fun x y => x.cumulativeCount + y.cumulativeCount)
            ha.bucket hb.bucket) := by
  have hlen : ha.bucket.length = hb.bucket.length := List.Forall₂.length_eq hbounds
  have hcount : (List.zipWith sumBucket ha.bucket hb.bucket).map (fun x => x.cumulativeCount) =
      List.zipWith (fun x y => (x.cumulativeCount + y.cumulativeCount) % 2 ^ 64)
        ha.bucket hb.bucket := by
    rw [List.map_zipWith]
    rfl
  refine ⟨{ sampleCount := some (addUint64 ca cb), sampleSum := some (Float64.add sa sb),
            bucket := List.zipWith sumBucket ha.bucket hb.bucket }, ?_, rfl, ?_, rfl, ?_, ?_,
          ?_, hcount, ?_⟩
  · simp [mergeMetric, hha, hhb, hca, hcb, hsa, hsb, mergeBuckets_aligned hbounds]
  · intro hlt
    simp only [addUint64]
    rw [Nat.mod_eq_of_lt (by simpa using hlt)]
  · simp [List.length_zipWith, hlen]
  · simp [List.length_zipWith, hlen]
  · exact zipWith_sumBucket_upperBound _ _ hlen
  · intro hfit
    rw [hcount]
    exact zipWith_count_exact _ _ hfit

/-! ## Grouping of numeric merges -/

theorem labels_ext {l r : List Metric} (hl : StrictAsc l) (hr : StrictAsc r)
    (h : ∀ lbl, (∃ m ∈ l, m.label = lbl) ↔ (∃ m ∈ r, m.label = lbl)) :
    l.map (fun m => m.label) = r.map (fun m => m.label) := by
  have hperm : (l.map (fun m => m.label)).Perm (r.map (fun m => m.label)) := by
    rw [List.perm_ext_iff_of_nodup (strictAsc_nodup_labels hl) (strictAsc_nodup_labels hr)]
    intro lbl
    simp only [List.mem_map]
    exact h lbl
  haveI : IsAntisymm (List LabelPair) (fun x y => lablesLessThan x y = true) :=
    ⟨fun x y h1 h2 => by
      rw [lablesLessThan_asymm h1] at h2
      exact absurd h2 (by simp)⟩
  have s1 : List.Sorted (fun x y => lablesLessThan x y = true) (l.map (fun m => m.label)) :=
    List.pairwise_map.2 hl
  have s2 : List.Sorted (fun x y => lablesLessThan x y = true) (r.map (fun m => m.label)) :=
    List.pairwise_map.2 hr
  exact List.eq_of_perm_of_sorted hperm s1 s2

theorem scalarMetric_payload {ty : MetricType} (hs : isScalar ty = true) (l : List LabelPair)
    (v : Float64) : hasPayload ty (scalarMetric ty l v) = true := by
  cases ty <;> simp [isScalar] at hs <;> rfl

/-- The numeric merge of two well-typed scalar families with strictly ascending metric
sequences: the result and its entry at every label sequence. -/
theorem mergeFamily_scalar_core {a b : MetricFamily} (hty : a.type = b.type)
    (hs : isScalar a.type = true) (hwa : WellTyped a) (hwb : WellTyped b)
    (ha : StrictAsc a.metric) (hb : StrictAsc b.metric) :
    ∃ r, mergeFamily a b false = .ok r ∧ r.name = a.name ∧ r.help = a.help ∧
      r.type = a.type ∧ StrictAsc r.metric ∧ WellTyped r ∧
      (∀ l, findLabel l r.metric =
        mergeOpt a.type false (findLabel l a.metric) (findLabel l b.metric)) ∧
      (∀ l, (∃ m ∈ r.metric, m.label = l) ↔
        ((∃ x ∈ a.metric, x.label = l) ∨ (∃ y ∈ b.metric, y.label = l))) := by
  obtain ⟨r, hr⟩ : ∃ r, mergeFamily a b false = .ok r :=
    mergeFamily_total hty (combine_ok hty (Or.inr ⟨hwa, hwb⟩))
  obtain ⟨_, hn, hh, ht, hsr, hf⟩ := mergeFamily_spec ha hb hr
  have hentry : ∀ l x, findLabel l a.metric = some x → ∀ y, findLabel l b.metric = some y →
      ∃ vx vy, scalarValue a.type x = some vx ∧ scalarValue a.type y = some vy ∧
        findLabel l r.metric = some (scalarMetric a.type x.label (Float64.add vx vy)) := by
    intro l x hx y hy
    obtain ⟨vx, hvx⟩ := scalarValue_of_payload hs (hwa x (findLabel_some hx).1)
    obtain ⟨vy, hvy⟩ := scalarValue_of_payload hs (hty ▸ hwb y (findLabel_some hy).1)
    refine ⟨vx, vy, hvx, hvy, ?_⟩
    rw [hf, hx, hy]
    exact combined_scalar hs hvx hvy
  refine ⟨r, hr, hn, hh, ht, hsr, ?_, hf, ?_⟩
  · intro m hm
    rw [ht]
    have h1 := (mem_iff_findLabel hsr m).1 hm
    cases ha1 : findLabel m.label a.metric with
    | none =>
      cases hb1 : findLabel m.label b.metric with
      | none => rw [hf, ha1, hb1] at h1; simp [mergeOpt] at h1
      | some y =>
        rw [hf, ha1, hb1] at h1
        simp only [mergeOpt, Option.some.injEq] at h1
        subst h1
        exact hty ▸ hwb y (findLabel_some hb1).1
    | some x =>
      cases hb1 : findLabel m.label b.metric with
      | none =>
        rw [hf, ha1, hb1] at h1
        simp only [mergeOpt, Option.some.injEq] at h1
        subst h1
        exact hwa x (findLabel_some ha1).1
      | some y =>
        obtain ⟨vx, vy, _, _, h2⟩ := hentry m.label x ha1 y hb1
        rw [h2] at h1
        simp only [Option.some.injEq] at h1
        rw [← h1]
        exact scalarMetric_payload hs _ _
  · intro l
    constructor
    · rintro ⟨m, hm, hl⟩
      have := label_mem_of_merge hsr hf hm
      rwa [hl] at this
    · intro h
      have hsome : ∃ m, findLabel l r.metric = some m := by
        cases ha1 : findLabel l a.metric with
        | none =>
          cases hb1 : findLabel l b.metric with
          | none =>
            rcases h with ⟨x, hx, hl⟩ | ⟨y, hy, hl⟩
            · exact absurd hl (findLabel_eq_none_iff.1 ha1 x hx)
            · exact absurd hl (findLabel_eq_none_iff.1 hb1 y hy)
          | some y => exact ⟨y, by rw [hf, ha1, hb1]; rfl⟩
        | some x =>
          cases hb1 : findLabel l b.metric with
          | none => exact ⟨x, by rw [hf, ha1, hb1]; rfl⟩
          | some y =>
            obtain ⟨vx, vy, _, _, h2⟩ := hentry l x ha1 y hb1
            exact ⟨_, h2⟩
      obtain ⟨m, hm⟩ := hsome
      exact ⟨m, (findLabel_some hm).1, (findLabel_some hm).2⟩

/-- C9, as amended: the two groupings of a numeric merge of three families of one scalar type
(counter or untyped, and gauge as well) whose metrics carry their values and whose metric
sequences are strictly ascending.  All four merges return; the two results carry the same
label sequences in the same strictly ascending order (so each once, and the metric at a
label sequence is the one `findLabel` returns); at every label sequence that at most two of
the three families carry, the two results have the same metric; at a label sequence that all
three carry, with the values `vx`, `vy` and `vz`, the left grouping has the value
`(vx + vy) + vz` and the right grouping the value `vx + (vy + vz)` in float64 arithmetic;
and so the two metric sequences are equal whenever these two sums agree wherever all three
families share a label sequence. -/
theorem mergeFamily_assoc_up_to_rounding (a b c : MetricFamily) (hab : a.type = b.type)
    (hbc : b.type = c.type) (hs : isScalar a.type = true) (hwa : WellTyped a)
    (hwb : WellTyped b) (hwc : WellTyped c) (ha : StrictAsc a.metric)
    (hb : StrictAsc b.metric) (hc : StrictAsc c.metric) :
    ∃ ab bc l r, mergeFamily a b false = .ok ab ∧ mergeFamily b c false = .ok bc ∧
      mergeFamily ab c false = .ok l ∧ mergeFamily a bc false = .ok r ∧
      l.metric.map (fun m => m.label) = r.metric.map (fun m => m.label) ∧
      StrictAsc l.metric ∧ StrictAsc r.metric ∧
      (∀ m ∈ l.metric, findLabel m.label l.metric = some m) ∧
      (∀ m ∈ r.metric, findLabel m.label r.metric = some m) ∧
      (∀ lbl,
        (findLabel lbl a.metric = none ∨ findLabel lbl b.metric = none ∨
            findLabel lbl c.metric = none →
          findLabel lbl l.metric = findLabel lbl r.metric) ∧
        (∀ x y z, findLabel lbl a.metric = some x → findLabel lbl b.metric = some y →
          findLabel lbl c.metric = some z →
          ∃ vx vy vz, scalarValue a.type x = some vx ∧ scalarValue a.type y = some vy ∧
            scalarValue a.type z = some vz ∧
            findLabel lbl l.metric =
              some (scalarMetric a.type lbl (Float64.add (Float64.add vx vy) vz)) ∧
            findLabel lbl r.metric =
              some (scalarMetric a.type lbl (Float64.add vx (Float64.add vy vz))))) ∧
      ((∀ x ∈ a.metric, ∀ y ∈ b.metric, ∀ z ∈ c.metric, x.label = y.label →
          y.label = z.label → ∀ vx vy vz, scalarValue a.type x = some vx →
          scalarValue a.type y = some vy → scalarValue a.type z = some vz →
          Float64.add (Float64.add vx vy) vz = Float64.add vx (Float64.add vy vz)) →
        l.metric = r.metric) := by
  have hsb : isScalar b.type = true := hab ▸ hs
  obtain ⟨ab, hrab, _, _, tab, sab, wab, fab, lab⟩ :=
    mergeFamily_scalar_core hab hs hwa hwb ha hb
  obtain ⟨bc, hrbc, _, _, tbc, sbc, wbc, fbc, lbc⟩ :=
    mergeFamily_scalar_core hbc hsb hwb hwc hb hc
  obtain ⟨l, hrl, _, _, _, sl, _, fl, ll⟩ :=
    mergeFamily_scalar_core (a := ab) (b := c) (tab.trans (hab.trans hbc)) (tab ▸ hs) wab hwc
      sab hc
  obtain ⟨r, hrr, _, _, _, sr, _, fr, lr⟩ :=
    mergeFamily_scalar_core (a := a) (b := bc) (hab.trans tbc.symm) hs hwa wbc ha sbc
  rw [tab] at fl
  rw [← hab] at fbc
  have htwo : ∀ lbl, (findLabel lbl a.metric = none ∨ findLabel lbl b.metric = none ∨
      findLabel lbl c.metric = none) → findLabel lbl l.metric = findLabel lbl r.metric := by
    intro lbl hnone
    rw [fl, fr, fab, fbc]
    cases hx : findLabel lbl a.metric with
    | none =>
      cases hy : findLabel lbl b.metric with
      | none => cases findLabel lbl c.metric <;> rfl
      | some y =>
        cases hz : findLabel lbl c.metric with
        | none => rfl
        | some z =>
          simp only [mergeOpt]
          cases combined a.type false y z <;> rfl
    | some x =>
      cases hy : findLabel lbl b.metric with
      | none => cases findLabel lbl c.metric <;> rfl
      | some y =>
        cases hz : findLabel lbl c.metric with
        | none =>
          simp only [mergeOpt]
          cases combined a.type false x y <;> rfl
        | some z =>
          rw [hx, hy, hz] at hnone
          simp at hnone
  have hthree : ∀ lbl x y z, findLabel lbl a.metric = some x →
      findLabel lbl b.metric = some y → findLabel lbl c.metric = some z →
      ∃ vx vy vz, scalarValue a.type x = some vx ∧ scalarValue a.type y = some vy ∧
        scalarValue a.type z = some vz ∧
        findLabel lbl l.metric =
          some (scalarMetric a.type lbl (Float64.add (Float64.add vx vy) vz)) ∧
        findLabel lbl r.metric =
          some (scalarMetric a.type lbl (Float64.add vx (Float64.add vy vz))) := by
    intro lbl x y z hx hy hz
    obtain ⟨vx, hvx⟩ := scalarValue_of_payload hs (hwa x (findLabel_some hx).1)
    obtain ⟨vy, hvy⟩ := scalarValue_of_payload hs (hab ▸ hwb y (findLabel_some hy).1)
    obtain ⟨vz, hvz⟩ :=
      scalarValue_of_payload hs ((hab.trans hbc) ▸ hwc z (findLabel_some hz).1)
    refine ⟨vx, vy, vz, hvx, hvy, hvz, ?_, ?_⟩
    · rw [fl, fab, hx, hy, hz]
      simp only [mergeOpt]
      rw [combined_scalar hs hvx hvy]
      simp only [mergeOpt]
      rw [combined_scalar hs (scalarMetric_value hs _ _) hvz, scalarMetric_label,
        (findLabel_some hx).2]
    · rw [fr, fbc, hx, hy, hz]
      simp only [mergeOpt]
      rw [combined_scalar hs hvy hvz]
      simp only [mergeOpt]
      rw [combined_scalar hs hvx (scalarMetric_value hs _ _), (findLabel_some hx).2]
  refine ⟨ab, bc, l, r, hrab, hrbc, hrl, hrr, ?_, sl, sr, fun m hm => findLabel_of_mem sl hm,
    fun m hm => findLabel_of_mem sr hm, fun lbl => ⟨htwo lbl, hthree lbl⟩, ?_⟩
  · apply labels_ext sl sr
    intro lbl
    rw [ll, lr, lab, lbc]
    exact or_assoc
  · intro hassoc
    apply strictAsc_ext sl sr
    intro lbl
    cases hx : findLabel lbl a.metric with
    | none => exact htwo lbl (Or.inl hx)
    | some x =>
      cases hy : findLabel lbl b.metric with
      | none => exact htwo lbl (Or.inr (Or.inl hy))
      | some y =>
        cases hz : findLabel lbl c.metric with
        | none => exact htwo lbl (Or.inr (Or.inr hz))
        | some z =>
          obtain ⟨vx, vy, vz, hvx, hvy, hvz, h1, h2⟩ := hthree lbl x y z hx hy hz
          have hxy : x.label = y.label := (findLabel_some hx).2.trans (findLabel_some hy).2.symm
          have hyz : y.label = z.label := (findLabel_some hy).2.trans (findLabel_some hz).2.symm
          rw [h1, h2, hassoc x (findLabel_some hx).1 y (findLabel_some hy).1 z
            (findLabel_some hz).1 hxy hyz vx vy vz hvx hvy hvz]
/-! ## Ingestion: canonical label order -/

theorem byNameLess_eq_false_iff (p q : LabelPair) : byNameLess q p = false ↔ p.name ≤ q.name := by
  unfold byNameLess
  exact strLess_eq_false_iff _ _

theorem sortBy_byNameLess_perm (l : List LabelPair) : (sortBy byNameLess l).Perm l :=
  List.perm_insertionSort _ l

theorem sortBy_byNameLess_sorted (l : List LabelPair) :
    (sortBy byNameLess l).Pairwise (fun p q => p.name ≤ q.name) := by
  haveI : IsTotal LabelPair (fun x y => byNameLess y x = false) :=
    ⟨fun x y => by
      simp only [byNameLess_eq_false_iff]
      exact le_total _ _⟩
  haveI : IsTrans LabelPair (fun x y => byNameLess y x = false) :=
    ⟨fun x y z => by
      simp only [byNameLess_eq_false_iff]
      exact le_trans⟩
  have h := List.sorted_insertionSort (fun x y : LabelPair => byNameLess y x = false) l
  refine List.Pairwise.imp ?_ h
  intro p q hpq
  exact (byNameLess_eq_false_iff p q).1 hpq

/-- Sorting by name sends two arrangements of label pairs with distinct names to the same
sequence. -/
theorem sortBy_byNameLess_eq_of_perm {l1 l2 : List LabelPair} (hp : l1.Perm l2)
    (hn : (l1.map (fun p => p.name)).Nodup) :
    sortBy byNameLess l1 = sortBy byNameLess l2 := by
  have p1 := sortBy_byNameLess_perm l1
  have p2 := sortBy_byNameLess_perm l2
  have hperm : (sortBy byNameLess l1).Perm (sortBy byNameLess l2) :=
    p1.trans (hp.trans p2.symm)
  have strict : ∀ l : List LabelPair, l.Perm l1 → l.Pairwise (fun p q => p.name ≤ q.name) →
      l.Pairwise (fun p q => p.name < q.name) := by
    intro l hl hs
    have hnd : (l.map (fun p => p.name)).Nodup := (hl.map _).nodup_iff.2 hn
    have hne : l.Pairwise (fun p q => p.name ≠ q.name) := List.pairwise_map.1 hnd
    exact (hs.and hne).imp (fun h => lt_of_le_of_ne h.1 h.2)
  haveI : IsAntisymm LabelPair (fun p q => p.name < q.name) :=
    ⟨fun p q h1 h2 => absurd h1 (lt_asymm h2)⟩
  exact List.eq_of_perm_of_sorted hperm (strict _ p1 (sortBy_byNameLess_sorted l1))
    (strict _ (p2.trans hp.symm) (sortBy_byNameLess_sorted l2))

theorem sortLabels_eq_of_labelsPermuted {f g : MetricFamily} (h : LabelsPermuted f g)
    (hn : ∀ m ∈ f.metric, DistinctLabelNames m) : sortLabels f = sortLabels g := by
  obtain ⟨h1, h2, h3, h4⟩ := h
  have hm : ∀ (ms ns : List Metric),
      List.Forall₂ (fun m n => m.label.Perm n.label ∧ n = { m with label := n.label }) ms ns →
      (∀ m ∈ ms, DistinctLabelNames m) →
      ms.map (fun m => { m with label := sortBy byNameLess m.label }) =
        ns.map (fun m => { m with label := sortBy byNameLess m.label }) := by
    intro ms ns hf
    induction hf with
    | nil => intro _; rfl
    | @cons m n ms1 ns1 hab _ ih =>
      intro hd
      simp only [List.map_cons, List.cons.injEq]
      refine ⟨?_, ih (fun x hx => hd x (List.mem_cons_of_mem _ hx))⟩
      rw [sortBy_byNameLess_eq_of_perm hab.1 (hd m (List.mem_cons_self _ _))]
      rw [hab.2]
  cases f
  cases g
  simp only at h1 h2 h3 h4 hn
  subst h1 h2 h3
  simp only [sortLabels, MetricFamily.mk.injEq, true_and]
  exact hm _ _ h4 hn

theorem parseAndMergeLoop_congr (lib : LabelSetLib) (byJob : Bool) (job : String)
    (now : Nat → Int) {batch1 batch2 : List (String × MetricFamily)}
    (h : List.Forall₂ (fun e1 e2 => e1.1 = e2.1 ∧ sortLabels e1.2 = sortLabels e2.2)
      batch1 batch2) :
    ∀ (k : Nat) (store : List (String × JobFamily)),
      parseAndMergeLoop lib byJob job now k batch1 store =
        parseAndMergeLoop lib byJob job now k batch2 store := by
  induction h with
  | nil => intro k store; rfl
  | @cons e1 e2 r1 r2 hab _ ih =>
    intro k store
    obtain ⟨n1, f1⟩ := e1
    obtain ⟨n2, f2⟩ := e2
    simp only at hab
    obtain ⟨hn, hf⟩ := hab
    subst hn
    simp only [parseAndMergeLoop, processFamily, hf, ih]

/-- C6: label order on the wire is irrelevant.  For every store, source, clock and batch whose
metrics each have pairwise distinct label names, `parseAndMerge` of the batch and of the
same batch with the label pairs of its metrics rearranged have the same outcome: the same
error (or none) and the same resulting store. -/
theorem parseAndMerge_label_order_irrelevant (lib : LabelSetLib) (a : Aggate) (job : String)
    (now : Nat → Int) (batch1 batch2 : List (String × MetricFamily))
    (hperm : List.Forall₂ (fun e1 e2 => e1.1 = e2.1 ∧ LabelsPermuted e1.2 e2.2) batch1 batch2)
    (hdistinct : ∀ e ∈ batch1, ∀ m ∈ e.2.metric, DistinctLabelNames m) :
    parseAndMerge lib a job now batch1 = parseAndMerge lib a job now batch2 := by
  have h : List.Forall₂ (fun e1 e2 => e1.1 = e2.1 ∧ sortLabels e1.2 = sortLabels e2.2)
      batch1 batch2 := by
    induction hperm with
    | nil => exact List.Forall₂.nil
    | @cons e1 e2 r1 r2 hab _ ih =>
      refine List.Forall₂.cons ⟨hab.1, ?_⟩ (ih (fun e he => hdistinct e (List.mem_cons_of_mem _ he)))
      exact sortLabels_eq_of_labelsPermuted hab.2 (hdistinct e1 (List.mem_cons_self _ _))
  unfold parseAndMerge
  rw [parseAndMergeLoop_congr lib a.byJob job now h]

/-! ## Duplicate validation -/

theorem foldl_set_of_not_mem (k : String) :
    ∀ (l : List LabelPair) (acc : LabelSet), (∀ p ∈ l, p.name ≠ k) →
      l.foldl (fun (lset : LabelSet) p => LabelSet.set lset p.name p.value) acc k = acc k
  | [], _, _ => rfl
  | p :: l, acc, h => by
    rw [List.foldl_cons, foldl_set_of_not_mem k l _ (fun q hq => h q (List.mem_cons_of_mem _ hq))]
    have : k ≠ p.name := fun e => h p (List.mem_cons_self _ _) e.symm
    simp [LabelSet.set, this]

theorem foldl_set_of_mem (k v : String) :
    ∀ (l : List LabelPair) (acc : LabelSet), (l.map (fun p => p.name)).Nodup →
      (⟨k, v⟩ : LabelPair) ∈ l →
      l.foldl (fun (lset : LabelSet) p => LabelSet.set lset p.name p.value) acc k = some v
  | [], _, _, h => by simp at h
  | p :: l, acc, hn, h => by
    rw [List.foldl_cons]
    simp only [List.map_cons, List.nodup_cons, List.mem_map, not_exists, not_and] at hn
    rcases List.mem_cons.1 h with e | e
    · subst e
      rw [foldl_set_of_not_mem k l _ (fun q hq => hn.1 q hq)]
      simp [LabelSet.set]
    · exact foldl_set_of_mem k v l _ hn.2 e

/-- The label map of a metric with distinct label names does not depend on the order of its
label pairs. -/
theorem labelMap_eq_of_perm {l1 l2 : List LabelPair} (hp : l1.Perm l2)
    (hn : (l1.map (fun p => p.name)).Nodup) : labelMap l1 = labelMap l2 := by
  have hn2 : (l2.map (fun p => p.name)).Nodup := (hp.map _).nodup_iff.1 hn
  funext k
  unfold labelMap
  by_cases h : ∃ p ∈ l1, p.name = k
  · obtain ⟨p, hp1, hk⟩ := h
    have e : p = (⟨k, p.value⟩ : LabelPair) := by cases p; simp_all
    have m1 : (⟨k, p.value⟩ : LabelPair) ∈ l1 := by rw [← e]; exact hp1
    have m2 : (⟨k, p.value⟩ : LabelPair) ∈ l2 := hp.mem_iff.1 m1
    rw [foldl_set_of_mem k p.value l1 _ hn m1, foldl_set_of_mem k p.value l2 _ hn2 m2]
  · have h1 : ∀ p ∈ l1, p.name ≠ k := fun p hp1 e => h ⟨p, hp1, e⟩
    have h2 : ∀ p ∈ l2, p.name ≠ k := fun p hp2 e => h ⟨p, hp.mem_iff.2 hp2, e⟩
    rw [foldl_set_of_not_mem k l1 _ h1, foldl_set_of_not_mem k l2 _ h2]

theorem validateFamilyLoop_cons (lib : LabelSetLib) (name : String) (seen : List Nat)
    (m : Metric) (ms : List Metric) :
    validateFamilyLoop lib name seen (m :: ms) =
      match lib.validate (toLabelSet name m.label) with
      | some msg => some (.invalidLabelSet msg)
      | none =>
        if seen.contains (lib.fingerprint (toLabelSet name m.label)) then
          some (.duplicateLabels (lib.render (toLabelSet name m.label)))
        else
          validateFamilyLoop lib name (lib.fingerprint (toLabelSet name m.label) :: seen) ms :=
  rfl

/-- The validator fails once the fingerprint of a metric still to come has been seen. -/
theorem validateFamilyLoop_seen (lib : LabelSetLib) (name : String) :
    ∀ (ms : List Metric) (seen : List Nat),
      (∃ m ∈ ms, lib.fingerprint (toLabelSet name m.label) ∈ seen) →
      ∃ e, validateFamilyLoop lib name seen ms = some e
  | [], _, h => by simp at h
  | x :: ms, seen, h => by
    rw [validateFamilyLoop_cons]
    cases lib.validate (toLabelSet name x.label) with
    | some msg => exact ⟨_, rfl⟩
    | none =>
      simp only
      by_cases hc : seen.contains (lib.fingerprint (toLabelSet name x.label)) = true
      · rw [if_pos hc]; exact ⟨_, rfl⟩
      · rw [if_neg hc]
        apply validateFamilyLoop_seen lib name ms
        obtain ⟨m, hm, hs⟩ := h
        rcases List.mem_cons.1 hm with e | e
        · subst e
          exact absurd (by simpa using hs) hc
        · exact ⟨m, e, List.mem_cons_of_mem _ hs⟩

/-- The validator fails on a sequence in which two positions carry the same label set. -/
theorem validateFamilyLoop_duplicate (lib : LabelSetLib) (name : String) :
    ∀ (ms : List Metric) (seen : List Nat) (i j : Nat) (m1 m2 : Metric), i < j →
      ms[i]? = some m1 → ms[j]? = some m2 →
      toLabelSet name m1.label = toLabelSet name m2.label →
      ∃ e, validateFamilyLoop lib name seen ms = some e
  | [], _, i, j, m1, m2, _, h1, _, _ => by simp at h1
  | x :: ms, seen, i, j, m1, m2, hij, h1, h2, hs => by
    rw [validateFamilyLoop_cons]
    cases lib.validate (toLabelSet name x.label) with
    | some msg => exact ⟨_, rfl⟩
    | none =>
      simp only
      by_cases hc : seen.contains (lib.fingerprint (toLabelSet name x.label)) = true
      · rw [if_pos hc]; exact ⟨_, rfl⟩
      · rw [if_neg hc]
        obtain ⟨j1, rfl⟩ : ∃ j1, j = j1 + 1 := ⟨j - 1, by omega⟩
        rw [List.getElem?_cons_succ] at h2
        cases i with
        | zero =>
          rw [List.getElem?_cons_zero] at h1
          cases h1
          apply validateFamilyLoop_seen
          exact ⟨m2, List.getElem?_mem h2, by rw [hs]; exact List.mem_cons_self _ _⟩
        | succ i1 =>
          rw [List.getElem?_cons_succ] at h1
          exact validateFamilyLoop_duplicate lib name ms _ i1 j1 m1 m2 (by omega) h1 h2 hs

theorem validateFamily_duplicate (lib : LabelSetLib) (f : MetricFamily) (i j : Nat)
    (m1 m2 : Metric) (hij : i ≠ j) (h1 : f.metric[i]? = some m1) (h2 : f.metric[j]? = some m2)
    (hs : labelMap m1.label = labelMap m2.label) : ∃ e, validateFamily lib f = some e := by
  have hs1 : toLabelSet f.name m1.label = toLabelSet f.name m2.label := by
    unfold toLabelSet; rw [hs]
  unfold validateFamily
  rcases Nat.lt_or_gt_of_ne hij with h | h
  · exact validateFamilyLoop_duplicate lib f.name f.metric [] i j m1 m2 h h1 h2 hs1
  · exact validateFamilyLoop_duplicate lib f.name f.metric [] j i m2 m1 h h2 h1 hs1.symm

theorem foldl_set_some (k v : String) :
    ∀ (l : List LabelPair) (acc : LabelSet),
      l.foldl (fun (lset : LabelSet) p => LabelSet.set lset p.name p.value) acc k = some v →
      (⟨k, v⟩ : LabelPair) ∈ l ∨ acc k = some v
  | [], _, h => Or.inr h
  | p :: l, acc, h => by
    rw [List.foldl_cons] at h
    rcases foldl_set_some k v l _ h with h1 | h1
    · exact Or.inl (List.mem_cons_of_mem _ h1)
    · unfold LabelSet.set at h1
      by_cases e : k = p.name
      · rw [if_pos e] at h1
        simp only [Option.some.injEq] at h1
        left
        have : p = (⟨k, v⟩ : LabelPair) := by cases p; simp_all
        rw [← this]
        exact List.mem_cons_self _ _
      · rw [if_neg e] at h1
        exact Or.inr h1

/-- For labels sorted by name without repetition, as `parseAndMerge` leaves them, the label
sequence and the label set determine each other. -/
theorem eq_of_labelMap_eq {l1 l2 : List LabelPair}
    (h1 : l1.Pairwise (fun p q => p.name < q.name))
    (h2 : l2.Pairwise (fun p q => p.name < q.name)) (h : labelMap l1 = labelMap l2) :
    l1 = l2 := by
  have nodupNames : ∀ l : List LabelPair, l.Pairwise (fun p q => p.name < q.name) →
      (l.map (fun p => p.name)).Nodup := by
    intro l hl
    unfold List.Nodup
    rw [List.pairwise_map]
    exact hl.imp (fun hlt => ne_of_lt hlt)
  have nodup : ∀ l : List LabelPair, l.Pairwise (fun p q => p.name < q.name) → l.Nodup := by
    intro l hl
    exact hl.imp (fun hlt e => absurd hlt (by rw [e]; exact lt_irrefl _))
  have mem_iff : ∀ l : List LabelPair, l.Pairwise (fun p q => p.name < q.name) →
      ∀ p : LabelPair, p ∈ l ↔ labelMap l p.name = some p.value := by
    intro l hl p
    constructor
    · intro hp
      exact foldl_set_of_mem p.name p.value l _ (nodupNames l hl) hp
    · intro hp
      rcases foldl_set_some p.name p.value l _ hp with hm | hm
      · exact hm
      · simp at hm
  have hperm : l1.Perm l2 := by
    rw [List.perm_ext_iff_of_nodup (nodup l1 h1) (nodup l2 h2)]
    intro p
    rw [mem_iff l1 h1, mem_iff l2 h2, h]
  haveI : IsAntisymm LabelPair (fun p q => p.name < q.name) :=
    ⟨fun p q a b => absurd a (lt_asymm b)⟩
  exact List.eq_of_perm_of_sorted hperm h1 h2

/-! ## Well-typedness is kept by ingestion -/

theorem mapGet_mem {β : Type} {k : String} {v : β} :
    ∀ {m : List (String × β)}, mapGet m k = some v → (k, v) ∈ m
  | [], h => by simp [mapGet] at h
  | (k1, v1) :: rest, h => by
    unfold mapGet at h
    by_cases e : k1 = k
    · rw [if_pos e] at h
      cases h
      subst e
      exact List.mem_cons_self _ _
    · rw [if_neg e] at h
      exact List.mem_cons_of_mem _ (mapGet_mem h)

theorem mem_mapSet {β : Type} {k : String} {v : β} {e : String × β} :
    ∀ {m : List (String × β)}, e ∈ mapSet m k v → e = (k, v) ∨ e ∈ m
  | [], h => by
    simp only [mapSet, List.mem_singleton] at h
    exact Or.inl h
  | (k1, v1) :: rest, h => by
    unfold mapSet at h
    by_cases c : k1 = k
    · rw [if_pos c] at h
      rcases List.mem_cons.1 h with h1 | h1
      · exact Or.inl h1
      · exact Or.inr (List.mem_cons_of_mem _ h1)
    · rw [if_neg c] at h
      rcases List.mem_cons.1 h with h1 | h1
      · exact Or.inr (h1 ▸ List.mem_cons_self _ _)
      · rcases mem_mapSet h1 with h2 | h2
        · exact Or.inl h2
        · exact Or.inr (List.mem_cons_of_mem _ h2)

theorem mergeMetric_payload {ty : MetricType} {x y m : Metric}
    (h : mergeMetric ty x y = .ok (some m)) : hasPayload ty m = true := by
  cases ty
  · cases hx : x.counter <;> cases hy : y.counter <;> simp [mergeMetric, hx, hy] at h
    rw [← h]; rfl
  · cases hx : x.gauge <;> cases hy : y.gauge <;> simp [mergeMetric, hx, hy] at h
    rw [← h]; rfl
  · rfl
  · cases hx : x.untyped <;> cases hy : y.untyped <;> simp [mergeMetric, hx, hy] at h
    rw [← h]; rfl
  · cases hx : x.histogram with
    | none => simp [mergeMetric, hx] at h
    | some p =>
      cases hy : y.histogram with
      | none => simp [mergeMetric, hx, hy] at h
      | some q =>
        cases h1 : p.sampleCount <;> cases h2 : q.sampleCount <;> cases h3 : p.sampleSum <;>
          cases h4 : q.sampleSum <;> simp [mergeMetric, hx, hy, h1, h2, h3, h4] at h
        rw [← h]; rfl

theorem combine_payload {ty : MetricType} {ow : Bool} {x y m : Metric}
    (hy : hasPayload ty y = true) (h : combine ty ow x y = .ok (some m)) :
    hasPayload ty m = true := by
  unfold combine at h
  cases ow
  · exact mergeMetric_payload (by simpa using h)
  · simp only [if_true, Result.ok.injEq, Option.some.injEq] at h
    rw [← h]; exact hy

theorem mergeFamilyLoop_payload (ty : MetricType) (ow : Bool) :
    ∀ (fuel : Nat) (a b out : List Metric), (∀ m ∈ a, hasPayload ty m = true) →
      (∀ m ∈ b, hasPayload ty m = true) → mergeFamilyLoop ty ow fuel a b = .ok out →
      ∀ m ∈ out, hasPayload ty m = true := by
  intro fuel
  induction fuel with
  | zero =>
    intro a b out ha hb h
    cases a with
    | nil => rw [mergeFamilyLoop_nil_left] at h; cases h; exact hb
    | cons x as =>
      cases b with
      | nil => rw [mergeFamilyLoop_nil_right] at h; cases h; exact ha
      | cons y bs =>
        simp only [mergeFamilyLoop, Result.ok.injEq] at h
        subst h
        intro m hm
        simp at hm
  | succ n ih =>
    intro a b out ha hb h
    cases a with
    | nil => rw [mergeFamilyLoop_nil_left] at h; cases h; exact hb
    | cons x as =>
      cases b with
      | nil => rw [mergeFamilyLoop_nil_right] at h; cases h; exact ha
      | cons y bs =>
        have hx := ha x (List.mem_cons_self _ _)
        have hy := hb y (List.mem_cons_self _ _)
        have has : ∀ m ∈ as, hasPayload ty m = true :=
          fun m hm => ha m (List.mem_cons_of_mem _ hm)
        have hbs : ∀ m ∈ bs, hasPayload ty m = true :=
          fun m hm => hb m (List.mem_cons_of_mem _ hm)
        rw [mergeFamilyLoop_cons] at h
        split at h
        · obtain ⟨out1, h1, h2⟩ := Result.map_eq_ok h
          subst h2
          intro m hm
          rcases List.mem_cons.1 hm with e | e
          · rw [e]; exact hx
          · exact ih _ _ _ has hb h1 m e
        · split at h
          · obtain ⟨out1, h1, h2⟩ := Result.map_eq_ok h
            subst h2
            intro m hm
            rcases List.mem_cons.1 hm with e | e
            · rw [e]; exact hy
            · exact ih _ _ _ ha hbs h1 m e
          · cases hc : combine ty ow x y with
            | err e => rw [hc] at h; simp at h
            | panic => rw [hc] at h; simp at h
            | ok r =>
              rw [hc] at h
              cases r with
              | none => exact ih _ _ _ has hbs h
              | some merged =>
                simp only at h
                obtain ⟨out1, h1, h2⟩ := Result.map_eq_ok h
                subst h2
                intro m hm
                rcases List.mem_cons.1 hm with e | e
                · rw [e]; exact combine_payload hy hc
                · exact ih _ _ _ has hbs h1 m e

theorem mergeFamily_wellTyped {a b r : MetricFamily} {ow : Bool} (hwa : WellTyped a)
    (hwb : WellTyped b) (h : mergeFamily a b ow = .ok r) : WellTyped r := by
  by_cases hty : a.type = b.type
  · rw [mergeFamily_of_type_eq ow hty] at h
    obtain ⟨out, hout, hr⟩ := Result.map_eq_ok h
    subst hr
    exact mergeFamilyLoop_payload a.type ow _ _ _ out hwa (hty ▸ hwb) hout
  · rw [mergeFamily_of_type_ne ow hty] at h
    cases h

theorem mergeFamily_ne_panic {a b : MetricFamily} {ow : Bool} (hwa : WellTyped a)
    (hwb : WellTyped b) : mergeFamily a b ow ≠ .panic := by
  by_cases hty : a.type = b.type
  · obtain ⟨r, hr⟩ : ∃ r, mergeFamily a b ow = .ok r :=
      mergeFamily_total hty (combine_ok hty (Or.inr ⟨hwa, hwb⟩))
    rw [hr]
    simp
  · rw [mergeFamily_of_type_ne ow hty]
    simp

theorem hasPayload_label (ty : MetricType) (m : Metric) (l : List LabelPair) :
    hasPayload ty { m with label := l } = hasPayload ty m := by
  cases ty <;> rfl

/-- The family that `parseAndMerge` stores or merges, labels and metrics sorted, is well typed
when the incoming family is. -/
theorem wellTyped_canonical {f : MetricFamily} (hw : WellTyped f) :
    WellTyped { name := (sortLabels f).name, help := (sortLabels f).help,
                type := (sortLabels f).type,
                metric := sortBy byLabelLess (sortLabels f).metric } := by
  intro m hm
  have hm1 : m ∈ (sortLabels f).metric := (List.perm_insertionSort _ _).mem_iff.1 hm
  simp only [sortLabels, List.mem_map] at hm1
  obtain ⟨m0, hm0, e⟩ := hm1
  subst e
  show hasPayload f.type _ = true
  rw [hasPayload_label]
  exact hw m0 hm0

theorem wellTypedStore_mapSet {store : List (String × JobFamily)} {job : String}
    {entry : JobFamily} (hs : WellTypedStore store) (he : ∀ g ∈ entry.families, WellTyped g.2) :
    WellTypedStore (mapSet store job entry) := by
  intro e hmem
  rcases mem_mapSet hmem with h | h
  · rw [h]; exact he
  · exact hs e h

/-- One family processed: no panic on well-typed data, and the store stays well typed. -/
theorem processFamily_wellTyped (lib : LabelSetLib) (byJob : Bool) (job : String) (t : Int)
    (name : String) (f : MetricFamily) (store : List (String × JobFamily))
    (hs : WellTypedStore store) (hf : WellTyped f) :
    (processFamily lib byJob job t name f store).1 ≠ .panic ∧
      WellTypedStore (processFamily lib byJob job t name f store).2 := by
  have hentry : ∀ g ∈ (match mapGet store job with
      | some existing => existing
      | none => ({ families := [] } : JobFamily)).families, WellTyped g.2 := by
    cases hj : mapGet store job with
    | none => intro g hg; simp at hg
    | some existing => exact hs _ (mapGet_mem hj)
  simp only [processFamily]
  split
  · exact ⟨by simp, hs⟩
  · split
    · refine ⟨by simp, wellTypedStore_mapSet hs ?_⟩
      intro g hgm
      rcases mem_mapSet hgm with h | h
      · rw [h]; exact wellTyped_canonical hf
      · exact hentry g h
    · rename_i existingFamily hg
      have hwe : WellTyped existingFamily := hentry _ (mapGet_mem hg)
      split
      · exact ⟨by simp, wellTypedStore_mapSet hs hentry⟩
      · rename_i hm
        exact absurd hm (mergeFamily_ne_panic hwe (wellTyped_canonical hf))
      · rename_i merged hm
        refine ⟨by simp, wellTypedStore_mapSet hs ?_⟩
        intro g hgm
        rcases mem_mapSet hgm with h | h
        · rw [h]; exact mergeFamily_wellTyped hwe (wellTyped_canonical hf) hm
        · exact hentry g h

theorem processFamily_of_invalid {lib : LabelSetLib} {f : MetricFamily} {e : Error}
    (h : validateFamily lib (sortLabels f) = some e) (byJob : Bool) (job : String) (t : Int)
    (name : String) (store : List (String × JobFamily)) :
    processFamily lib byJob job t name f store = (.err e, store) := by
  simp [processFamily, h]

theorem parseAndMergeLoop_cons (lib : LabelSetLib) (byJob : Bool) (job : String)
    (now : Nat → Int) (k : Nat) (name : String) (f : MetricFamily)
    (rest : List (String × MetricFamily)) (store : List (String × JobFamily)) :
    parseAndMergeLoop lib byJob job now k ((name, f) :: rest) store =
      match processFamily lib byJob job (now k) name f store with
      | (.ok _, store1) => parseAndMergeLoop lib byJob job now (k + 1) rest store1
      | (.err e, store1) => (.err e, store1)
      | (.panic, store1) => (.panic, store1) := rfl

/-- A batch that holds a family the validator rejects is rejected, whatever well-typed
families precede it. -/
theorem parseAndMergeLoop_rejects (lib : LabelSetLib) (byJob : Bool) (job : String)
    (now : Nat → Int) (name : String) (f : MetricFamily) (post : List (String × MetricFamily))
    (e0 : Error) (hv : validateFamily lib (sortLabels f) = some e0) :
    ∀ (pre : List (String × MetricFamily)) (k : Nat) (store : List (String × JobFamily)),
      WellTypedStore store → (∀ e ∈ pre, WellTyped e.2) →
      ∃ e, (parseAndMergeLoop lib byJob job now k (pre ++ (name, f) :: post) store).1 = .err e
  | [], k, store, _, _ => by
    rw [List.nil_append, parseAndMergeLoop_cons, processFamily_of_invalid hv]
    exact ⟨e0, rfl⟩
  | (n1, g) :: pre, k, store, hs, hp => by
    rw [List.cons_append, parseAndMergeLoop_cons]
    have hw := processFamily_wellTyped lib byJob job (now k) n1 g store hs
      (hp (n1, g) (List.mem_cons_self _ _))
    rcases hr : processFamily lib byJob job (now k) n1 g store with ⟨r, store1⟩
    rw [hr] at hw
    cases r with
    | ok u =>
      exact parseAndMergeLoop_rejects lib byJob job now name f post e0 hv pre (k + 1) store1
        hw.2 (fun e he => hp e (List.mem_cons_of_mem _ he))
    | err e => exact ⟨e, rfl⟩
    | panic => exact absurd rfl hw.1

/-- A batch that holds a family the validator rejects never returns without an error,
whatever precedes that family. -/
theorem parseAndMergeLoop_not_ok (lib : LabelSetLib) (byJob : Bool) (job : String)
    (now : Nat → Int) (name : String) (f : MetricFamily) (post : List (String × MetricFamily))
    (e0 : Error) (hv : validateFamily lib (sortLabels f) = some e0) :
    ∀ (pre : List (String × MetricFamily)) (k : Nat) (store : List (String × JobFamily)),
      (parseAndMergeLoop lib byJob job now k (pre ++ (name, f) :: post) store).1 ≠ .ok ()
  | [], k, store => by
    rw [List.nil_append, parseAndMergeLoop_cons, processFamily_of_invalid hv]
    simp
  | (n1, g) :: pre, k, store => by
    rw [List.cons_append, parseAndMergeLoop_cons]
    rcases hr : processFamily lib byJob job (now k) n1 g store with ⟨r, store1⟩
    cases r with
    | ok u =>
      exact parseAndMergeLoop_not_ok lib byJob job now name f post e0 hv pre (k + 1) store1
    | err e => simp
    | panic => simp

/-- C5, as amended: duplicate series are rejected.  For every family in which two metrics at
distinct positions have the same label set (the same map from label names to label values),
`validateFamily` returns an error.  When the label names of each of the two metrics are
pairwise distinct, `parseAndMerge` of a batch that holds such a family never returns without
an error, whatever the store and the other families: it returns an error or stops in the
panic of a nil dereference; and it returns an error whenever the store and the families
visited before the offending one carry the payloads of their declared types. -/
theorem validateFamily_rejects_duplicate_series (lib : LabelSetLib) (f : MetricFamily)
    (i j : Nat) (m1 m2 : Metric) (hij : i ≠ j) (h1 : f.metric[i]? = some m1)
    (h2 : f.metric[j]? = some m2) (hsame : labelMap m1.label = labelMap m2.label) :
    (∃ e, validateFamily lib f = some e) ∧
    (∀ (a : Aggate) (job : String) (now : Nat → Int) (name : String)
        (pre post : List (String × MetricFamily)),
      DistinctLabelNames m1 → DistinctLabelNames m2 →
      (∃ e, (parseAndMerge lib a job now (pre ++ (name, f) :: post)).1 = .err e) ∨
        (parseAndMerge lib a job now (pre ++ (name, f) :: post)).1 = .panic) ∧
    (∀ (a : Aggate) (job : String) (now : Nat → Int) (name : String)
        (pre post : List (String × MetricFamily)),
      DistinctLabelNames m1 → DistinctLabelNames m2 →
      WellTypedStore a.familiesByJob → (∀ e ∈ pre, WellTyped e.2) →
      ∃ e, (parseAndMerge lib a job now (pre ++ (name, f) :: post)).1 = .err e) := by
  have hsorted : ∀ m : Metric, DistinctLabelNames m →
      labelMap (sortBy byNameLess m.label) = labelMap m.label := by
    intro m hd
    exact labelMap_eq_of_perm (sortBy_byNameLess_perm m.label)
      (((sortBy_byNameLess_perm m.label).map _).nodup_iff.2 hd)
  have hinvalid : DistinctLabelNames m1 → DistinctLabelNames m2 →
      ∃ e0, validateFamily lib (sortLabels f) = some e0 := by
    intro hd1 hd2
    exact validateFamily_duplicate lib (sortLabels f) i j
      { m1 with label := sortBy byNameLess m1.label }
      { m2 with label := sortBy byNameLess m2.label } hij
      (by simp [sortLabels, List.getElem?_map, h1])
      (by simp [sortLabels, List.getElem?_map, h2])
      (by simp only [hsorted m1 hd1, hsorted m2 hd2, hsame])
  refine ⟨validateFamily_duplicate lib f i j m1 m2 hij h1 h2 hsame, ?_, ?_⟩
  · intro a job now name pre post hd1 hd2
    obtain ⟨e0, he0⟩ := hinvalid hd1 hd2
    have hne : (parseAndMerge lib a job now (pre ++ (name, f) :: post)).1 ≠ .ok () := by
      unfold parseAndMerge
      exact parseAndMergeLoop_not_ok lib a.byJob job now name f post e0 he0 pre 0 _
    cases hr : (parseAndMerge lib a job now (pre ++ (name, f) :: post)).1 with
    | ok u => exact absurd hr hne
    | err e => exact Or.inl ⟨e, rfl⟩
    | panic => exact Or.inr rfl
  · intro a job now name pre post hd1 hd2 hs hp
    obtain ⟨e0, he0⟩ := hinvalid hd1 hd2
    unfold parseAndMerge
    exact parseAndMergeLoop_rejects lib a.byJob job now name f post e0 he0 pre 0 _ hs hp
/-! ## The theorems at concrete inputs -/

set_option maxRecDepth 100000 in
/-- C1 at the families of `labelFields1` and `labelFields2`: the merge returns the family of
`labelFieldResult`, the first series unchanged and the second with value 2. -/
theorem mergeFamily_scalar_sum_witness :
    (∃ r, mergeFamily labelFields1 labelFields2 false = .ok r ∧
      (r.metric.map (fun m => m.label)).Nodup ∧
      (∀ l, (∃ m ∈ r.metric, m.label = l) ↔
        ((∃ x ∈ labelFields1.metric, x.label = l) ∨ (∃ y ∈ labelFields2.metric, y.label = l))) ∧
      (∀ x ∈ labelFields1.metric, (∀ y ∈ labelFields2.metric, y.label ≠ x.label) →
        x ∈ r.metric) ∧
      (∀ y ∈ labelFields2.metric, (∀ x ∈ labelFields1.metric, x.label ≠ y.label) →
        y ∈ r.metric) ∧
      (∀ x ∈ labelFields1.metric, ∀ y ∈ labelFields2.metric, x.label = y.label →
        ∃ vx vy m, scalarValue labelFields1.type x = some vx ∧
          scalarValue labelFields1.type y = some vy ∧ m ∈ r.metric ∧ m.label = x.label ∧
          scalarValue labelFields1.type m = some (Float64.add vx vy))) ∧
    mergeFamily labelFields1 labelFields2 false =
      .ok { labelFields1 with
            metric := [{ label := [⟨"path", "/org/:orgId"⟩], counter := some ⟨Float64.ofNat 1⟩ },
                       { label := [⟨"path", "/prom/:orgId"⟩],
                         counter := some ⟨Float64.ofNat 2⟩ }] } :=
  ⟨mergeFamily_scalar_sum labelFields1 labelFields2 (by decide) (by decide) (by decide)
    (by decide) (by decide) (by decide), by decide⟩

set_option maxRecDepth 100000 in
/-- C3 at the gauges of `gaugeInput` and a later push: the later metrics win, the series that
only the accumulated family has is kept, and nothing is added up; with `byJob` set, pushing
`gaugeInput` twice for the source `j1` leaves the values of one push. -/
theorem mergeFamily_overwrite_newer_wins_witness :
    ((∃ r, mergeFamily gaugeInput gaugeInput2 true = .ok r ∧ StrictAsc r.metric ∧
      (∀ m, m ∈ r.metric ↔
        (m ∈ gaugeInput2.metric ∨
          (m ∈ gaugeInput.metric ∧ ∀ y ∈ gaugeInput2.metric, y.label ≠ m.label))) ∧
      mergeFamily r gaugeInput2 true = .ok r) ∧
      mergeFamily gaugeInput gaugeInput true = .ok gaugeInput) ∧
    (parseAndMerge exampleLib
        (parseAndMerge exampleLib (newAggate true 60) "j1" (fun _ => 0)
          [("ui_external_lib_loaded", gaugeInput)]).2
        "j1" (fun _ => 1) [("ui_external_lib_loaded", gaugeInput)]).2.familiesByJob =
      [("j1", { lastUpdate := 1, families := [("ui_external_lib_loaded", gaugeInput)] })] ∧
    mergeFamily gaugeInput gaugeInput2 true =
      .ok { gaugeInput with
            metric := [{ label := [⟨"loaded", "true"⟩, ⟨"name", "Intercom"⟩],
                         gauge := some ⟨Float64.ofNat 1⟩ },
                       { label := [⟨"loaded", "true"⟩, ⟨"name", "ga"⟩],
                         gauge := some ⟨Float64.ofNat 7⟩ },
                       { label := [⟨"loaded", "true"⟩, ⟨"name", "mixpanel"⟩],
                         gauge := some ⟨Float64.ofNat 1⟩ },
                       { label := [⟨"loaded", "true"⟩, ⟨"name", "zendesk"⟩],
                         gauge := some ⟨Float64.ofNat 1⟩ }] } :=
  ⟨mergeFamily_overwrite_newer_wins gaugeInput gaugeInput2 (by decide) (by decide) (by decide),
    by decide, by decide⟩

set_option maxRecDepth 100000 in
/-- C4 at two histograms with the bounds 3, 4 and +Inf: the counts are the exact sums. -/
theorem mergeMetric_histogram_aligned_witness :
    ∃ h : Histogram,
      mergeMetric .HISTOGRAM histogram1 histogram2 =
        .ok (some { label := histogram1.label, histogram := some h }) ∧
      h.sampleCount = some 2 ∧ h.sampleSum = some (Float64.ofNat 7) ∧
      h.bucket.map (fun x => x.cumulativeCount) = [3, 8, 9] ∧
      h.bucket.map (fun x => x.upperBound) =
        [Float64.ofNat 3, Float64.ofNat 4, Float64.inf false] := by
  obtain ⟨h, h1, h2, _, h4, _, _, h7, h8, _⟩ :=
    mergeMetric_histogram_aligned histogram1 histogram2
      { sampleCount := some 1, sampleSum := some ⟨false, 1024, 1125899906842624⟩,
        bucket := [⟨3, Float64.ofNat 3⟩, ⟨4, Float64.ofNat 4⟩, ⟨4, Float64.inf false⟩] }
      { sampleCount := some 1, sampleSum := some ⟨false, 1025, 562949953421312⟩,
        bucket := [⟨0, Float64.ofNat 3⟩, ⟨4, Float64.ofNat 4⟩, ⟨5, Float64.inf false⟩] }
      1 1 ⟨false, 1024, 1125899906842624⟩ ⟨false, 1025, 562949953421312⟩ rfl rfl rfl rfl rfl rfl
      (List.Forall₂.cons (by decide) (List.Forall₂.cons (by decide)
        (List.Forall₂.cons (by decide) List.Forall₂.nil)))
  refine ⟨h, h1, h2, ?_, ?_, ?_⟩
  · rw [h4]; decide
  · rw [h8]; decide
  · rw [h7]; decide

set_option maxRecDepth 100000 in
/-- C4 as stated fails where a sum of counts reaches `2 ^ 64`: merging a histogram whose
sample count and only bucket count are `2 ^ 63` with itself returns the counts 0, not
`2 ^ 64`. -/
theorem mergeMetric_histogram_count_wraps :
    ∃ h : Histogram,
      mergeMetric .HISTOGRAM histogramHalf histogramHalf =
        .ok (some { label := histogramHalf.label, histogram := some h }) ∧
      h.sampleCount = some 0 ∧
      h.sampleCount ≠ some (9223372036854775808 + 9223372036854775808) ∧
      h.bucket.map (fun x => x.cumulativeCount) = [0] ∧
      h.bucket.map (fun x => x.cumulativeCount) ≠
        [9223372036854775808 + 9223372036854775808] :=
  ⟨{ sampleCount := some 0, sampleSum := some (Float64.ofNat 2),
     bucket := [⟨0, Float64.inf false⟩] }, by decide, by decide, by decide, by decide,
    by decide⟩

set_option maxRecDepth 100000 in
/-- C5 at the family of `duplicateLabels`: the validator returns an error, `parseAndMerge` on
the store that holds a histogram without sample count and sum returns an error or panics for
the batch of that histogram and `duplicateLabels`, and `parseAndMerge` on the empty store
returns an error for the batch of a counter and `duplicateLabels`. -/
theorem validateFamily_rejects_duplicate_series_witness :
    (∃ e, validateFamily exampleLib duplicateLabels = some e) ∧
    ((∃ e, (parseAndMerge exampleLib storeBareHistogram "j1" (fun _ => 1)
        ([("h", histogramBare)] ++ ("ui_external_lib_loaded", duplicateLabels) :: [])).1 =
        .err e) ∨
      (parseAndMerge exampleLib storeBareHistogram "j1" (fun _ => 1)
        ([("h", histogramBare)] ++ ("ui_external_lib_loaded", duplicateLabels) :: [])).1 =
        .panic) ∧
    (∃ e, (parseAndMerge exampleLib (newAggate false 60) "j1" (fun _ => 0)
      ([("counter", reorderedLabels1)] ++
        ("ui_external_lib_loaded", duplicateLabels) :: [])).1 = .err e) :=
  have h := validateFamily_rejects_duplicate_series exampleLib duplicateLabels 0 1
    { label := [⟨"name", "Munchkin"⟩, ⟨"loaded", "true"⟩], gauge := some ⟨Float64.ofNat 15171⟩ }
    { label := [⟨"name", "Munchkin"⟩, ⟨"loaded", "true"⟩], gauge := some ⟨Float64.ofNat 1⟩ }
    (by decide) rfl rfl rfl
  ⟨h.1,
    h.2.1 storeBareHistogram "j1" (fun _ => 1) "ui_external_lib_loaded" [("h", histogramBare)]
      [] (by decide) (by decide),
    h.2.2 (newAggate false 60) "j1" (fun _ => 0) "ui_external_lib_loaded"
      [("counter", reorderedLabels1)] [] (by decide) (by decide) (by decide) (by decide)⟩

set_option maxRecDepth 100000 in
/-- C5 as stated fails: `duplicateLabels` holds two metrics with the same label set, yet
`parseAndMerge` of a batch that holds it need not return an error.  After the source `j1`
pushed the histogram `h` without `h_sum` and `h_count` (which is accepted), its push of the
batch of `h` and `duplicateLabels`, visited in that order, stops in the panic of the nil
dereference in `mergeMetric` before the validator sees `duplicateLabels`. -/
theorem parseAndMerge_duplicate_series_panics :
    duplicateLabels.metric.map (fun m => m.label) =
      [[⟨"name", "Munchkin"⟩, ⟨"loaded", "true"⟩], [⟨"name", "Munchkin"⟩, ⟨"loaded", "true"⟩]] ∧
    parseAndMerge exampleLib (newAggate false 60) "j1" (fun _ => 0) [("h", histogramBare)] =
      (.ok (), storeBareHistogram) ∧
    (parseAndMerge exampleLib storeBareHistogram "j1" (fun _ => 1)
      [("h", histogramBare), ("ui_external_lib_loaded", duplicateLabels)]).1 = .panic ∧
    (∀ e, (parseAndMerge exampleLib storeBareHistogram "j1" (fun _ => 1)
      [("h", histogramBare), ("ui_external_lib_loaded", duplicateLabels)]).1 ≠ .err e) := by
  refine ⟨by decide, by decide, by decide, fun e => ?_⟩
  have h : (parseAndMerge exampleLib storeBareHistogram "j1" (fun _ => 1)
      [("h", histogramBare), ("ui_external_lib_loaded", duplicateLabels)]).1 = .panic := by
    decide
  rw [h]
  simp

set_option maxRecDepth 100000 in
/-- C6 at the families of `reorderedLabels1` and `reorderedLabels2`: after a first push of
`counter{a="a",b="b"} 1`, pushing `counter{b="b",a="a"} 2` has the outcome of pushing
`counter{a="a",b="b"} 2`, the one series `counter{a="a",b="b"} 3`. -/
theorem parseAndMerge_label_order_irrelevant_witness :
    parseAndMerge exampleLib
        (parseAndMerge exampleLib (newAggate false 60) "j1" (fun _ => 0)
          [("counter", reorderedLabels1)]).2
        "j1" (fun _ => 1) [("counter", reorderedLabels2)] =
      parseAndMerge exampleLib
        (parseAndMerge exampleLib (newAggate false 60) "j1" (fun _ => 0)
          [("counter", reorderedLabels1)]).2
        "j1" (fun _ => 1) [("counter", reorderedLabels2Sorted)] ∧
    (parseAndMerge exampleLib
        (parseAndMerge exampleLib (newAggate false 60) "j1" (fun _ => 0)
          [("counter", reorderedLabels1)]).2
        "j1" (fun _ => 1) [("counter", reorderedLabels2)]).2.familiesByJob =
      [("j1", { lastUpdate := 1,
                families := [("counter",
                  { reorderedLabels1 with
                    metric := [{ label := [⟨"a", "a"⟩, ⟨"b", "b"⟩],
                                 counter := some ⟨Float64.ofNat 3⟩ }] })] })] :=
  ⟨parseAndMerge_label_order_irrelevant exampleLib _ "j1" (fun _ => 1)
      [("counter", reorderedLabels2)] [("counter", reorderedLabels2Sorted)]
      (List.Forall₂.cons
        ⟨rfl, rfl, rfl, rfl,
          List.Forall₂.cons ⟨List.Perm.swap _ _ [], rfl⟩ List.Forall₂.nil⟩
        List.Forall₂.nil)
      (by decide),
    by decide⟩

set_option maxRecDepth 100000 in
/-- C7 at the families of `labelFields1` and `labelFields2`. -/
theorem mergeFamily_preserves_label_order_witness :
    (∀ r, mergeFamily labelFields1 labelFields2 false = .ok r → StrictAsc r.metric) ∧
    ((false = true ∨ (WellTyped labelFields1 ∧ WellTyped labelFields2)) →
      ∃ r, mergeFamily labelFields1 labelFields2 false = .ok r ∧ StrictAsc r.metric) :=
  mergeFamily_preserves_label_order labelFields1 labelFields2 false (by decide) (by decide)
    (by decide)

set_option maxRecDepth 100000 in
/-- C9 at three counter families: the first holds `{k="1"}` with 2^53 and `{k="2"}` with 5,
the second `{k="1"}` with 1, the third `{k="1"}` with 1 and `{k="2"}` with 7.  At
`{k="2"}`, which two of them carry, both groupings give 12; at `{k="1"}`, which all three
carry, the left grouping gives 2^53 and the right grouping 2^53 + 2. -/
theorem mergeFamily_assoc_up_to_rounding_witness :
    (∃ ab bc l r,
      mergeFamily (countersAt [("1", 9007199254740992), ("2", 5)]) (countersAt [("1", 1)])
        false = .ok ab ∧
      mergeFamily (countersAt [("1", 1)]) (countersAt [("1", 1), ("2", 7)]) false = .ok bc ∧
      mergeFamily ab (countersAt [("1", 1), ("2", 7)]) false = .ok l ∧
      mergeFamily (countersAt [("1", 9007199254740992), ("2", 5)]) bc false = .ok r ∧
      l.metric.map (fun m => m.label) = r.metric.map (fun m => m.label) ∧
      StrictAsc l.metric ∧ StrictAsc r.metric ∧
      (∀ m ∈ l.metric, findLabel m.label l.metric = some m) ∧
      (∀ m ∈ r.metric, findLabel m.label r.metric = some m) ∧
      (∀ lbl,
        (findLabel lbl (countersAt [("1", 9007199254740992), ("2", 5)]).metric = none ∨
            findLabel lbl (countersAt [("1", 1)]).metric = none ∨
            findLabel lbl (countersAt [("1", 1), ("2", 7)]).metric = none →
          findLabel lbl l.metric = findLabel lbl r.metric) ∧
        (∀ x y z,
          findLabel lbl (countersAt [("1", 9007199254740992), ("2", 5)]).metric = some x →
          findLabel lbl (countersAt [("1", 1)]).metric = some y →
          findLabel lbl (countersAt [("1", 1), ("2", 7)]).metric = some z →
          ∃ vx vy vz,
            scalarValue (countersAt [("1", 9007199254740992), ("2", 5)]).type x = some vx ∧
            scalarValue (countersAt [("1", 9007199254740992), ("2", 5)]).type y = some vy ∧
            scalarValue (countersAt [("1", 9007199254740992), ("2", 5)]).type z = some vz ∧
            findLabel lbl l.metric =
              some (scalarMetric (countersAt [("1", 9007199254740992), ("2", 5)]).type lbl
                (Float64.add (Float64.add vx vy) vz)) ∧
            findLabel lbl r.metric =
              some (scalarMetric (countersAt [("1", 9007199254740992), ("2", 5)]).type lbl
                (Float64.add vx (Float64.add vy vz))))) ∧
      ((∀ x ∈ (countersAt [("1", 9007199254740992), ("2", 5)]).metric,
          ∀ y ∈ (countersAt [("1", 1)]).metric,
          ∀ z ∈ (countersAt [("1", 1), ("2", 7)]).metric,
          x.label = y.label → y.label = z.label → ∀ vx vy vz,
          scalarValue (countersAt [("1", 9007199254740992), ("2", 5)]).type x = some vx →
          scalarValue (countersAt [("1", 9007199254740992), ("2", 5)]).type y = some vy →
          scalarValue (countersAt [("1", 9007199254740992), ("2", 5)]).type z = some vz →
          Float64.add (Float64.add vx vy) vz = Float64.add vx (Float64.add vy vz)) →
        l.metric = r.metric)) ∧
    mergeFamily (countersAt [("1", 9007199254740992), ("2", 5)]) (countersAt [("1", 1)])
      false = .ok (countersAt [("1", 9007199254740992), ("2", 5)]) ∧
    mergeFamily (countersAt [("1", 9007199254740992), ("2", 5)])
      (countersAt [("1", 1), ("2", 7)]) false =
      .ok (countersAt [("1", 9007199254740992), ("2", 12)]) ∧
    mergeFamily (countersAt [("1", 1)]) (countersAt [("1", 1), ("2", 7)]) false =
      .ok (countersAt [("1", 2), ("2", 7)]) ∧
    mergeFamily (countersAt [("1", 9007199254740992), ("2", 5)])
      (countersAt [("1", 2), ("2", 7)]) false =
      .ok (countersAt [("1", 9007199254740994), ("2", 12)]) :=
  ⟨mergeFamily_assoc_up_to_rounding (countersAt [("1", 9007199254740992), ("2", 5)])
    (countersAt [("1", 1)]) (countersAt [("1", 1), ("2", 7)]) (by decide)
    (by decide) (by decide) (by decide) (by decide) (by decide) (by decide) (by decide)
    (by decide), by decide, by decide, by decide, by decide⟩

set_option maxRecDepth 100000 in
/-- C9 as stated fails by rounding: for the counters `2 ^ 53`, 1 and 1 with the same (empty)
label set the two groupings return `2 ^ 53` and `2 ^ 53 + 2`. -/
theorem mergeFamily_assoc_counterexample :
    WellTyped (counterOf 9007199254740992) ∧ WellTyped (counterOf 1) ∧
    StrictAsc (counterOf 9007199254740992).metric ∧ StrictAsc (counterOf 1).metric ∧
    ∃ ab bc l r, mergeFamily (counterOf 9007199254740992) (counterOf 1) false = .ok ab ∧
      mergeFamily (counterOf 1) (counterOf 1) false = .ok bc ∧
      mergeFamily ab (counterOf 1) false = .ok l ∧
      mergeFamily (counterOf 9007199254740992) bc false = .ok r ∧
      l.metric = (counterOf 9007199254740992).metric ∧
      r.metric = (counterOf 9007199254740994).metric ∧
      l.metric ≠ r.metric :=
  ⟨by decide, by decide, by decide, by decide,
    counterOf 9007199254740992, counterOf 2, counterOf 9007199254740992,
    counterOf 9007199254740994, by decide, by decide, by decide, by decide, by decide,
    by decide, by decide⟩

set_option maxRecDepth 100000 in
/-- C10 at two summary families that share one series: the shared series is dropped and the
other two are kept. -/
theorem mergeFamily_summary_drops_common_witness :
    (∃ r, mergeFamily summary1 summary2 false = .ok r ∧
      (∀ m ∈ r.metric,
        ¬ ((∃ x ∈ summary1.metric, x.label = m.label) ∧
          (∃ y ∈ summary2.metric, y.label = m.label))) ∧
      (∀ x ∈ summary1.metric, (∀ y ∈ summary2.metric, y.label ≠ x.label) → x ∈ r.metric) ∧
      (∀ y ∈ summary2.metric, (∀ x ∈ summary1.metric, x.label ≠ y.label) → y ∈ r.metric) ∧
      (∀ m ∈ r.metric, m ∈ summary1.metric ∨ m ∈ summary2.metric)) ∧
    mergeFamily summary1 summary2 false =
      .ok { summary1 with
            metric := [{ label := [⟨"job", "b"⟩], summary := some { sampleCount := some 2 } },
                       { label := [⟨"job", "c"⟩], summary := some { sampleCount := some 4 } }] } :=
  ⟨mergeFamily_summary_drops_common summary1 summary2 rfl rfl (by decide) (by decide),
    by decide⟩

/-! ## Maps -/

theorem mapGet_mapSet {β : Type} (k k1 : String) (v : β) :
    ∀ (m : List (String × β)), mapGet (mapSet m k v) k1 = if k1 = k then some v else mapGet m k1
  | [] => by
    by_cases h : k1 = k
    · simp [mapSet, mapGet, h]
    · have h2 : ¬ k = k1 := fun e => h e.symm
      simp [mapSet, mapGet, h, h2]
  | (k2, v2) :: rest => by
    unfold mapSet
    by_cases c : k2 = k
    · rw [if_pos c]
      by_cases h : k1 = k
      · simp [mapGet, h]
      · have h2 : ¬ k = k1 := fun e => h e.symm
        have h3 : ¬ k2 = k1 := fun e => h (e.symm.trans c)
        simp [mapGet, h, h2, h3]
    · rw [if_neg c]
      by_cases h3 : k2 = k1
      · have h : ¬ k1 = k := fun e => c (h3.trans e)
        simp [mapGet, h3, h]
      · simp only [mapGet, if_neg h3]
        exact mapGet_mapSet k k1 v rest

theorem mapGet_mapSet_self {β : Type} (k : String) (v : β) (m : List (String × β)) :
    mapGet (mapSet m k v) k = some v := by
  rw [mapGet_mapSet, if_pos rfl]

theorem map_mapSet_of_mapGet {β γ : Type} (f : β → γ) {k : String} {v w : β}
    (hf : f w = f v) :
    ∀ {m : List (String × β)}, mapGet m k = some v →
      (mapSet m k w).map (fun e => (e.1, f e.2)) = m.map (fun e => (e.1, f e.2))
  | [], h => by simp [mapGet] at h
  | (k2, v2) :: rest, h => by
    unfold mapGet at h
    unfold mapSet
    by_cases c : k2 = k
    · rw [if_pos c] at h
      rw [if_pos c]
      cases h
      simp [hf, c]
    · rw [if_neg c] at h
      rw [if_neg c]
      simp only [List.map_cons, List.cons.injEq, true_and]
      exact map_mapSet_of_mapGet f hf h

/-! ## Effects of ingestion on the store -/

theorem processFamily_err_familyMaps {lib : LabelSetLib} {byJob : Bool} {job : String} {t : Int}
    {name : String} {f : MetricFamily} {store store1 : List (String × JobFamily)} {e : Error}
    (h : processFamily lib byJob job t name f store = (.err e, store1)) :
    familyMaps store1 = familyMaps store := by
  simp only [processFamily] at h
  split at h
  · simp only [Prod.mk.injEq] at h
    rw [← h.2]
  · split at h
    · simp at h
    · rename_i existingFamily hg
      cases hj : mapGet store job with
      | none => rw [hj] at hg; simp [mapGet] at hg
      | some existing =>
        split at h
        · simp only [Prod.mk.injEq] at h
          rw [← h.2, hj]
          exact map_mapSet_of_mapGet (fun j : JobFamily => j.families) (v := existing)
            (w := { lastUpdate := t, families := existing.families }) rfl hj
        · simp at h
        · simp at h

theorem processFamily_ok_lastUpdate {lib : LabelSetLib} {byJob : Bool} {job : String} {t : Int}
    {name : String} {f : MetricFamily} {store store1 : List (String × JobFamily)} {u : Unit}
    (h : processFamily lib byJob job t name f store = (.ok u, store1)) :
    ∃ entry, mapGet store1 job = some entry ∧ entry.lastUpdate = t := by
  simp only [processFamily] at h
  split at h
  · simp at h
  · split at h
    · simp only [Prod.mk.injEq] at h
      rw [← h.2, mapGet_mapSet_self]
      exact ⟨_, rfl, rfl⟩
    · split at h
      · simp at h
      · simp at h
      · simp only [Prod.mk.injEq] at h
        rw [← h.2, mapGet_mapSet_self]
        exact ⟨_, rfl, rfl⟩

theorem parseAndMergeLoop_ok_lastUpdate (lib : LabelSetLib) (byJob : Bool) (job : String)
    (now : Nat → Int) :
    ∀ (batch : List (String × MetricFamily)) (k : Nat) (store store1 : List (String × JobFamily)),
      batch ≠ [] → parseAndMergeLoop lib byJob job now k batch store = (.ok (), store1) →
      ∃ entry, mapGet store1 job = some entry ∧
        entry.lastUpdate = now (k + batch.length - 1)
  | [], _, _, _, h, _ => absurd rfl h
  | (name, f) :: rest, k, store, store1, _, h => by
    rw [parseAndMergeLoop_cons] at h
    rcases hp : processFamily lib byJob job (now k) name f store with ⟨r, store2⟩
    rw [hp] at h
    cases r with
    | ok u =>
      simp only at h
      cases rest with
      | nil =>
        simp only [parseAndMergeLoop, Prod.mk.injEq, true_and] at h
        subst h
        simpa using processFamily_ok_lastUpdate hp
      | cons e rest1 =>
        obtain ⟨entry, h1, h2⟩ :=
          parseAndMergeLoop_ok_lastUpdate lib byJob job now (e :: rest1) (k + 1) store2 store1
            (by simp) h
        refine ⟨entry, h1, ?_⟩
        rw [h2]
        simp only [List.length_cons]
        congr 1
        omega
    | err e => simp at h
    | panic => simp at h

theorem parseAndMergeLoop_err_split (lib : LabelSetLib) (byJob : Bool) (job : String)
    (now : Nat → Int) (e : Error) :
    ∀ (batch : List (String × MetricFamily)) (k : Nat) (store store1 : List (String × JobFamily)),
      parseAndMergeLoop lib byJob job now k batch store = (.err e, store1) →
      ∃ pre name f post mid,
        batch = pre ++ (name, f) :: post ∧
        parseAndMergeLoop lib byJob job now k pre store = (.ok (), mid) ∧
        processFamily lib byJob job (now (k + pre.length)) name f mid = (.err e, store1)
  | [], _, _, _, h => by simp [parseAndMergeLoop] at h
  | (name, f) :: rest, k, store, store1, h => by
    rw [parseAndMergeLoop_cons] at h
    rcases hp : processFamily lib byJob job (now k) name f store with ⟨r, store2⟩
    rw [hp] at h
    cases r with
    | ok u =>
      simp only at h
      obtain ⟨pre, n1, f1, post, mid, h1, h2, h3⟩ :=
        parseAndMergeLoop_err_split lib byJob job now e rest (k + 1) store2 store1 h
      refine ⟨(name, f) :: pre, n1, f1, post, mid, by rw [h1]; rfl, ?_, ?_⟩
      · rw [parseAndMergeLoop_cons, hp]
        exact h2
      · rw [← h3]
        simp only [List.length_cons]
        congr 2
        omega
    | err e1 =>
      simp only [Prod.mk.injEq, Result.err.injEq] at h
      refine ⟨[], name, f, rest, store, rfl, rfl, ?_⟩
      rw [← h.1, ← h.2]
      simpa using hp
    | panic => simp at h

/-- C16, as amended: a failed batch is discarded from the failing family on.  If
`parseAndMerge` returns an error, the batch splits into the families visited before the
failing one, the failing one and the rest; the families visited before it stay applied, and
the family mappings of all sources are those that ingesting just these families leaves
behind: neither the failing family nor a later one is applied.  When the failing family is the
first one visited, every family mapping is as before the call. -/
theorem parseAndMerge_error_keeps_earlier_families (lib : LabelSetLib) (a : Aggate)
    (job : String) (now : Nat → Int) (batch : List (String × MetricFamily)) (e : Error)
    (h : (parseAndMerge lib a job now batch).1 = .err e) :
    ∃ pre name f post,
      batch = pre ++ (name, f) :: post ∧
      (parseAndMerge lib a job now pre).1 = .ok () ∧
      familyMaps (parseAndMerge lib a job now batch).2.familiesByJob =
        familyMaps (parseAndMerge lib a job now pre).2.familiesByJob ∧
      (pre = [] →
        familyMaps (parseAndMerge lib a job now batch).2.familiesByJob =
          familyMaps a.familiesByJob) := by
  unfold parseAndMerge at h
  simp only at h
  rcases hl : parseAndMergeLoop lib a.byJob job now 0 batch a.familiesByJob with ⟨r, store1⟩
  rw [hl] at h
  simp only at h
  subst h
  obtain ⟨pre, name, f, post, mid, h1, h2, h3⟩ :=
    parseAndMergeLoop_err_split lib a.byJob job now e batch 0 a.familiesByJob store1 hl
  have hfm := processFamily_err_familyMaps h3
  refine ⟨pre, name, f, post, h1, ?_, ?_, ?_⟩
  · simp [parseAndMerge, h2]
  · simp [parseAndMerge, hl, h2, hfm]
  · intro hpre
    subst hpre
    simp only [parseAndMergeLoop, Prod.mk.injEq, true_and] at h2
    subst h2
    simp [parseAndMerge, hl, hfm]

/-- C17, as amended: after a `parseAndMerge` of a non-empty batch that returns no error the
store has an entry for the source, and its last-update timestamp is the reading of the clock
taken while the last family of the batch was processed. -/
theorem parseAndMerge_updates_timestamp (lib : LabelSetLib) (a : Aggate) (job : String)
    (now : Nat → Int) (batch : List (String × MetricFamily)) (hne : batch ≠ [])
    (h : (parseAndMerge lib a job now batch).1 = .ok ()) :
    ∃ entry, mapGet (parseAndMerge lib a job now batch).2.familiesByJob job = some entry ∧
      entry.lastUpdate = now (batch.length - 1) := by
  unfold parseAndMerge at h ⊢
  simp only at h ⊢
  rcases hl : parseAndMergeLoop lib a.byJob job now 0 batch a.familiesByJob with ⟨r, store1⟩
  rw [hl] at h
  simp only at h
  subst h
  simpa using
    parseAndMergeLoop_ok_lastUpdate lib a.byJob job now batch 0 a.familiesByJob store1 hne hl

/-! ## Ingestion at concrete inputs -/

set_option maxRecDepth 100000 in
/-- C15 at a type mismatch: after the source `j1` pushed the counter `x 1` at time 0, its push
of the gauge `x 1` at time 5 returns the type-mismatch error and leaves the family mapping as
it was, but the last-update timestamp of `j1` is 5, not 0. -/
theorem parseAndMerge_type_mismatch_touches_timestamp :
    parseAndMerge exampleLib storeCounterX "j1" (fun _ => 5) [("x", familyX .GAUGE)] =
      (.err (.typeMismatch "x" .COUNTER .GAUGE),
        { storeCounterX with
          familiesByJob :=
            [("j1", { lastUpdate := 5, families := [("x", familyX .COUNTER)] })] }) ∧
    mapGet storeCounterX.familiesByJob "j1" =
      some { lastUpdate := 0, families := [("x", familyX .COUNTER)] } := by
  decide

set_option maxRecDepth 100000 in
/-- C16 at a batch whose second family has duplicate series: the error is returned, the first
family stays applied and the second is not. -/
theorem parseAndMerge_error_keeps_earlier_families_witness :
    (parseAndMerge exampleLib (newAggate false 60) "j1" (fun _ => 5)
      [("counter", reorderedLabels1), ("ui_external_lib_loaded", duplicateLabels)]).1 =
      .err (.duplicateLabels "Munchkin") ∧
    ∃ pre name f post,
      [("counter", reorderedLabels1), ("ui_external_lib_loaded", duplicateLabels)] =
        pre ++ (name, f) :: post ∧
      (parseAndMerge exampleLib (newAggate false 60) "j1" (fun _ => 5) pre).1 = .ok () ∧
      familyMaps (parseAndMerge exampleLib (newAggate false 60) "j1" (fun _ => 5)
        [("counter", reorderedLabels1),
          ("ui_external_lib_loaded", duplicateLabels)]).2.familiesByJob =
        familyMaps (parseAndMerge exampleLib (newAggate false 60) "j1" (fun _ => 5)
          pre).2.familiesByJob ∧
      (pre = [] →
        familyMaps (parseAndMerge exampleLib (newAggate false 60) "j1" (fun _ => 5)
          [("counter", reorderedLabels1),
            ("ui_external_lib_loaded", duplicateLabels)]).2.familiesByJob =
          familyMaps (newAggate false 60).familiesByJob) :=
  ⟨by decide,
    parseAndMerge_error_keeps_earlier_families exampleLib (newAggate false 60) "j1" (fun _ => 5)
      [("counter", reorderedLabels1), ("ui_external_lib_loaded", duplicateLabels)]
      (.duplicateLabels "Munchkin") (by decide)⟩

set_option maxRecDepth 100000 in
/-- C16 as stated fails: for a batch whose first family is sound and whose second has
duplicate series, `parseAndMerge` on the empty store returns the duplicate-series error, and
the store then holds the first family. -/
theorem parseAndMerge_failed_batch_not_discarded :
    parseAndMerge exampleLib (newAggate false 60) "j1" (fun _ => 5)
        [("counter", reorderedLabels1), ("ui_external_lib_loaded", duplicateLabels)] =
      (.err (.duplicateLabels "Munchkin"),
        { byJob := false, jobPruneDuration := 60,
          familiesByJob :=
            [("j1", { lastUpdate := 5, families := [("counter", reorderedLabels1)] })] }) ∧
    (parseAndMerge exampleLib (newAggate false 60) "j1" (fun _ => 5)
        [("counter", reorderedLabels1), ("ui_external_lib_loaded", duplicateLabels)]).2 ≠
      newAggate false 60 := by
  decide

set_option maxRecDepth 100000 in
/-- C17 at a batch of one family pushed at time 5. -/
theorem parseAndMerge_updates_timestamp_witness :
    ∃ entry,
      mapGet (parseAndMerge exampleLib (newAggate false 60) "j1" (fun _ => 5)
        [("counter", reorderedLabels1)]).2.familiesByJob "j1" = some entry ∧
      entry.lastUpdate = 5 :=
  parseAndMerge_updates_timestamp exampleLib (newAggate false 60) "j1" (fun _ => 5)
    [("counter", reorderedLabels1)] (by decide) (by decide)

set_option maxRecDepth 100000 in
/-- C17 as stated fails for the empty batch: `parseAndMerge` returns no error and the store
has no entry for the source afterwards; where the source has one, its timestamp stays. -/
theorem parseAndMerge_empty_batch_no_timestamp :
    (parseAndMerge exampleLib (newAggate false 60) "j1" (fun _ => 5) []).1 = .ok () ∧
    mapGet (parseAndMerge exampleLib (newAggate false 60) "j1" (fun _ => 5)
      []).2.familiesByJob "j1" = none ∧
    (parseAndMerge exampleLib storeCounterX "j1" (fun _ => 5) []).1 = .ok () ∧
    mapGet (parseAndMerge exampleLib storeCounterX "j1" (fun _ => 5) []).2.familiesByJob "j1" =
      some { lastUpdate := 0, families := [("x", familyX .COUNTER)] } := by
  decide

set_option maxRecDepth 100000 in
/-- C18 at a stale source that holds a gauge: `handler`, which holds the lock in shared mode,
removes the gauge family from the store. -/
theorem handler_prunes_under_shared_lock :
    handlerLock = LockMode.shared ∧
    storeGaugeX.familiesByJob =
      [("j1", { lastUpdate := 0, families := [("x", familyX .GAUGE)] })] ∧
    (handler storeGaugeX (fun _ => 100)).2.familiesByJob =
      [("j1", { lastUpdate := 0, families := [] })] := by
  decide

set_option maxRecDepth 100000 in
/-- C19: there are two bucket sequences, each strictly ascending in upper bound and with
cumulative counts that never decrease, with no upper bound in common, whose merge is strictly
ascending in upper bound while its cumulative counts do decrease: the buckets `1:5, 3:5` and
`2:1, 4:1` merge to `1:5, 2:1, 3:5, 4:1`. -/
theorem mergeBuckets_counts_can_decrease :
    ∃ a b : List Bucket,
      BoundsAscending a ∧ CountsNondecreasing a ∧ BoundsAscending b ∧ CountsNondecreasing b ∧
      (∀ x ∈ a, ∀ y ∈ b, Float64.eq x.upperBound y.upperBound = false) ∧
      BoundsAscending (mergeBuckets a b) ∧ ¬ CountsNondecreasing (mergeBuckets a b) ∧
      (mergeBuckets a b).map (fun x => x.cumulativeCount) = [5, 1, 5, 1] :=
  ⟨bucketsOdd, bucketsEven, by decide, by decide, by decide, by decide, by decide, by decide,
    by decide, by decide⟩

/-! ## Export: effect on the store -/

theorem foldl_mapDelete {β : Type} :
    ∀ (ks : List String) (m : List (String × β)),
      ks.foldl mapDelete m = m.filter (fun e => decide (e.1 ∉ ks))
  | [], m => by simp
  | k :: ks, m => by
    rw [List.foldl_cons, foldl_mapDelete ks, mapDelete, List.filter_filter]
    apply List.filter_congr
    intro e _
    simp only [List.mem_cons, not_or, Bool.decide_and, Bool.and_comm]

theorem eq_of_key_eq {β : Type} :
    ∀ {m : List (String × β)}, NodupKeys m → ∀ {e1 e2 : String × β}, e1 ∈ m → e2 ∈ m →
      e1.1 = e2.1 → e1 = e2
  | [], _, _, _, h1, _, _ => by simp at h1
  | x :: m, hn, e1, e2, h1, h2, hk => by
    simp only [NodupKeys, List.map_cons, List.nodup_cons, List.mem_map, not_exists, not_and] at hn
    rcases List.mem_cons.1 h1 with a1 | a1 <;> rcases List.mem_cons.1 h2 with a2 | a2
    · rw [a1, a2]
    · subst a1
      exact absurd hk.symm (hn.1 e2 a2)
    · subst a2
      exact absurd hk (hn.1 e1 a1)
    · exact eq_of_key_eq hn.2 a1 a2 hk

theorem prune_lastUpdate (job : JobFamily) : (prune job).lastUpdate = job.lastUpdate := rfl

theorem prune_families_subset (job : JobFamily) : ∀ e ∈ (prune job).families, e ∈ job.families := by
  intro e he
  simp only [prune, foldl_mapDelete] at he
  exact (List.mem_filter.1 he).1

/-- On a map with distinct keys `prune` removes exactly the gauge families. -/
theorem prune_families {job : JobFamily} (hn : NodupKeys job.families) :
    (prune job).families = job.families.filter (fun e => decide (e.2.type ≠ .GAUGE)) := by
  simp only [prune, foldl_mapDelete]
  apply List.filter_congr
  intro e he
  apply decide_eq_decide.2
  simp only [List.mem_filterMap, not_exists, not_and]
  constructor
  · intro h hg
    exact h e he (by simp [hg])
  · intro h e1 he1 hsome
    by_cases hg : e1.2.type = .GAUGE
    · simp only [hg, if_true, Option.some.injEq] at hsome
      have := eq_of_key_eq hn he1 he hsome
      rw [this] at hg
      exact absurd hg h
    · simp [hg] at hsome

theorem expire_eq {window t : Int} {job : JobFamily} (hn : NodupKeys job.families) :
    (if t - job.lastUpdate > window then prune job else job) = expire window t job := by
  unfold expire
  split
  · have h1 := prune_families hn
    have h2 := prune_lastUpdate job
    cases hp : prune job
    rw [hp] at h1 h2
    simp only at h1 h2
    rw [h1, h2]
  · rfl

theorem handlerLoop_cons (window : Int) (now : Nat → Int) (k : Nat) (jobName : String)
    (job : JobFamily) (rest : List (String × JobFamily)) (merged : List (String × MetricFamily)) :
    handlerLoop window now k ((jobName, job) :: rest) merged =
      match mergeJobFamilies
          (if now k - job.lastUpdate > window then prune job else job).families merged with
      | .ok merged1 =>
        ((handlerLoop window now (k + 1) rest merged1).1,
          (jobName, if now k - job.lastUpdate > window then prune job else job) ::
            (handlerLoop window now (k + 1) rest merged1).2)
      | .err e => (.err e,
          (jobName, if now k - job.lastUpdate > window then prune job else job) :: rest)
      | .panic => (.panic,
          (jobName, if now k - job.lastUpdate > window then prune job else job) :: rest) := by
  simp only [handlerLoop]

/-- An export that visits all sources leaves each as the staleness test leaves it. -/
theorem handlerLoop_store (window : Int) (now : Nat → Int) :
    ∀ (store : List (String × JobFamily)) (k : Nat) (merged merged1 : List (String × MetricFamily)),
      (∀ e ∈ store, NodupKeys e.2.families) →
      (handlerLoop window now k store merged).1 = .ok merged1 →
      (handlerLoop window now k store merged).2 = afterExport window now k store
  | [], _, _, _, _, _ => rfl
  | (jobName, job) :: rest, k, merged, merged1, hn, h => by
    rw [handlerLoop_cons] at h ⊢
    have hj : NodupKeys job.families := hn (jobName, job) (List.mem_cons_self _ _)
    cases hm : mergeJobFamilies
        (if now k - job.lastUpdate > window then prune job else job).families merged with
    | ok m2 =>
      rw [hm] at h
      simp only at h ⊢
      rw [handlerLoop_store window now rest (k + 1) m2 merged1
        (fun e he => hn e (List.mem_cons_of_mem _ he)) h, expire_eq hj]
      rfl
    | err e => rw [hm] at h; simp at h
    | panic => rw [hm] at h; simp at h

theorem afterExport_getElem? (window : Int) (now : Nat → Int) :
    ∀ (store : List (String × JobFamily)) (k i : Nat),
      (afterExport window now k store)[i]? =
        (store[i]?).map (fun e => (e.1, expire window (now (k + i)) e.2))
  | [], _, _ => by simp [afterExport]
  | (jobName, job) :: rest, k, 0 => by simp [afterExport]
  | (jobName, job) :: rest, k, i + 1 => by
    simp only [afterExport, List.getElem?_cons_succ]
    rw [afterExport_getElem? window now rest (k + 1) i]
    have : k + 1 + i = k + (i + 1) := by omega
    rw [this]

theorem afterExport_length (window : Int) (now : Nat → Int) :
    ∀ (store : List (String × JobFamily)) (k : Nat),
      (afterExport window now k store).length = store.length
  | [], _ => rfl
  | (jobName, job) :: rest, k => by
    simp only [afterExport, List.length_cons, afterExport_length window now rest (k + 1)]

theorem handler_ok {a : Aggate} {now : Nat → Int} {out : List MetricFamily}
    (h : (handler a now).1 = .ok out) :
    ∃ merged, (handlerLoop a.jobPruneDuration now 0 a.familiesByJob []).1 = .ok merged ∧
      out = (sortBy strLess (merged.map (fun e => e.1))).filterMap (fun name => mapGet merged name) := by
  unfold handler at h
  simp only at h
  cases hl : (handlerLoop a.jobPruneDuration now 0 a.familiesByJob []).1 with
  | ok merged =>
    rw [hl] at h
    simp only [Result.ok.injEq] at h
    exact ⟨merged, rfl, h.symm⟩
  | err e => rw [hl] at h; simp at h
  | panic => rw [hl] at h; simp at h

theorem handler_store (a : Aggate) (now : Nat → Int) :
    (handler a now).2 =
      { a with familiesByJob := (handlerLoop a.jobPruneDuration now 0 a.familiesByJob []).2 } := by
  unfold handler
  simp only
  split <;> rfl

/-- C11: the effect of an export on the store.  After a `handler` that returns without a merge
error the store has the same sources in the same positions; a source for which the time
elapsed since its last update exceeds `jobPruneDuration` holds exactly its former families
that are not gauges, unchanged and in the same order; every other source holds its former
family mapping; and every source keeps its name and its last-update timestamp.  (The keys of
each family mapping are distinct, as in a Go map.) -/
theorem handler_effect_on_store (a : Aggate) (now : Nat → Int) (out : List MetricFamily)
    (hkeys : ∀ e ∈ a.familiesByJob, NodupKeys e.2.families)
    (h : (handler a now).1 = .ok out) :
    (handler a now).2.byJob = a.byJob ∧
    (handler a now).2.jobPruneDuration = a.jobPruneDuration ∧
    (handler a now).2.familiesByJob.length = a.familiesByJob.length ∧
    ∀ (k : Nat) (jobName : String) (job : JobFamily),
      a.familiesByJob[k]? = some (jobName, job) →
      ∃ job1, (handler a now).2.familiesByJob[k]? = some (jobName, job1) ∧
        job1.lastUpdate = job.lastUpdate ∧
        (now k - job.lastUpdate > a.jobPruneDuration →
          job1.families = job.families.filter (fun e => decide (e.2.type ≠ .GAUGE))) ∧
        (¬ now k - job.lastUpdate > a.jobPruneDuration → job1.families = job.families) := by
  obtain ⟨merged, hm, _⟩ := handler_ok h
  have hs := handlerLoop_store a.jobPruneDuration now a.familiesByJob 0 [] merged hkeys hm
  rw [handler_store, hs]
  refine ⟨rfl, rfl, afterExport_length _ _ _ _, ?_⟩
  intro k jobName job hk
  refine ⟨expire a.jobPruneDuration (now k) job, ?_, ?_, ?_, ?_⟩
  · simp only [afterExport_getElem?, hk, Option.map_some', Nat.zero_add]
  · unfold expire; split <;> rfl
  · intro hst; unfold expire; rw [if_pos hst]
  · intro hst; unfold expire; rw [if_neg hst]

/-! ## Export: the merged families -/

theorem mapGet_isSome_iff {β : Type} (k : String) :
    ∀ (m : List (String × β)), (∃ v, mapGet m k = some v) ↔ k ∈ m.map (fun e => e.1)
  | [] => by simp [mapGet]
  | (k1, v1) :: rest => by
    unfold mapGet
    by_cases c : k1 = k
    · simp [c]
    · have c2 : ¬ k = k1 := fun e => c e.symm
      rw [if_neg c, mapGet_isSome_iff k rest]
      simp [c2]

theorem mem_keys_mapSet {β : Type} (k k1 : String) (v : β) (m : List (String × β)) :
    k1 ∈ (mapSet m k v).map (fun e => e.1) ↔ (k1 = k ∨ k1 ∈ m.map (fun e => e.1)) := by
  rw [← mapGet_isSome_iff, ← mapGet_isSome_iff]
  simp only [mapGet_mapSet]
  by_cases h : k1 = k
  · simp [h]
  · simp [h]

theorem nodupKeys_mapSet {β : Type} (k : String) (v : β) :
    ∀ {m : List (String × β)}, NodupKeys m → NodupKeys (mapSet m k v)
  | [], _ => by simp [mapSet, NodupKeys]
  | (k1, v1) :: rest, h => by
    simp only [NodupKeys, List.map_cons, List.nodup_cons] at h
    unfold mapSet
    by_cases c : k1 = k
    · rw [if_pos c]
      simp only [NodupKeys, List.map_cons, List.nodup_cons]
      exact ⟨c ▸ h.1, h.2⟩
    · rw [if_neg c]
      simp only [NodupKeys, List.map_cons, List.nodup_cons]
      refine ⟨?_, nodupKeys_mapSet k v h.2⟩
      intro hm
      rcases (mem_keys_mapSet k k1 v rest).1 hm with e | e
      · exact c e
      · exact h.1 e

theorem mapGet_of_mem {β : Type} {k : String} {v : β} :
    ∀ {m : List (String × β)}, NodupKeys m → (k, v) ∈ m → mapGet m k = some v
  | [], _, h => by simp at h
  | (k1, v1) :: rest, hn, h => by
    simp only [NodupKeys, List.map_cons, List.nodup_cons, List.mem_map, not_exists, not_and] at hn
    unfold mapGet
    rcases List.mem_cons.1 h with e | e
    · cases e
      simp
    · have c : ¬ k1 = k := fun c => hn.1 (k, v) e c.symm
      rw [if_neg c]
      exact mapGet_of_mem hn.2 e

theorem mergeFamily_ok_type {a b r : MetricFamily} {ow : Bool} (h : mergeFamily a b ow = .ok r) :
    a.type = b.type ∧ r.type = a.type ∧ r.name = a.name ∧ r.help = a.help := by
  by_cases hty : a.type = b.type
  · rw [mergeFamily_of_type_eq ow hty] at h
    obtain ⟨out, _, hr⟩ := Result.map_eq_ok h
    subst hr
    exact ⟨hty, rfl, rfl, rfl⟩
  · rw [mergeFamily_of_type_ne ow hty] at h
    cases h

theorem mergeJobFamilies_cons (name : String) (family : MetricFamily)
    (rest merged : List (String × MetricFamily)) :
    mergeJobFamilies ((name, family) :: rest) merged =
      match mapGet merged name with
      | none => mergeJobFamilies rest (mapSet merged name family)
      | some existingFamily =>
        match mergeFamily existingFamily family false with
        | .ok m => mergeJobFamilies rest (mapSet merged name m)
        | .err e => .err e
        | .panic => .panic := rfl

theorem mergeNamed_cons (name k : String) (f : MetricFamily)
    (rest : List (String × MetricFamily)) (acc : Option MetricFamily) :
    mergeNamed name ((k, f) :: rest) acc =
      if k = name then
        match acc with
        | none => mergeNamed name rest (some f)
        | some existing =>
          match mergeFamily existing f false with
          | .ok merged => mergeNamed name rest (some merged)
          | .err e => .err e
          | .panic => .panic
      else mergeNamed name rest acc := rfl

/-- The entry of `mergedFamilies` under a name after the inner loop of `handler`. -/
theorem mergeJobFamilies_named (name : String) :
    ∀ (fams merged merged1 : List (String × MetricFamily)),
      mergeJobFamilies fams merged = .ok merged1 →
      mergeNamed name fams (mapGet merged name) = .ok (mapGet merged1 name)
  | [], merged, merged1, h => by
    simp only [mergeJobFamilies, Result.ok.injEq] at h
    subst h
    rfl
  | (k, f) :: rest, merged, merged1, h => by
    rw [mergeJobFamilies_cons] at h
    rw [mergeNamed_cons]
    by_cases c : k = name
    · subst c
      rw [if_pos rfl]
      cases hg : mapGet merged k with
      | none =>
        rw [hg] at h
        simp only at h ⊢
        have := mergeJobFamilies_named k rest _ merged1 h
        rwa [mapGet_mapSet_self] at this
      | some existing =>
        rw [hg] at h
        simp only at h ⊢
        cases hm : mergeFamily existing f false with
        | ok m =>
          rw [hm] at h
          simp only at h ⊢
          have := mergeJobFamilies_named k rest _ merged1 h
          rwa [mapGet_mapSet_self] at this
        | err e => rw [hm] at h; simp at h
        | panic => rw [hm] at h; simp at h
    · rw [if_neg c]
      have c2 : ¬ name = k := fun e => c e.symm
      cases hg : mapGet merged k with
      | none =>
        rw [hg] at h
        simp only at h
        have := mergeJobFamilies_named name rest _ merged1 h
        rwa [mapGet_mapSet, if_neg c2] at this
      | some existing =>
        rw [hg] at h
        simp only at h
        cases hm : mergeFamily existing f false with
        | ok m =>
          rw [hm] at h
          simp only at h
          have := mergeJobFamilies_named name rest _ merged1 h
          rwa [mapGet_mapSet, if_neg c2] at this
        | err e => rw [hm] at h; simp at h
        | panic => rw [hm] at h; simp at h

theorem mergeNamed_append (name : String) :
    ∀ (l1 l2 : List (String × MetricFamily)) (acc acc1 : Option MetricFamily),
      mergeNamed name l1 acc = .ok acc1 →
      mergeNamed name (l1 ++ l2) acc = mergeNamed name l2 acc1
  | [], l2, acc, acc1, h => by
    simp only [mergeNamed, Result.ok.injEq] at h
    subst h
    rfl
  | (k, f) :: rest, l2, acc, acc1, h => by
    rw [List.cons_append, mergeNamed_cons]
    rw [mergeNamed_cons] at h
    by_cases c : k = name
    · rw [if_pos c] at h ⊢
      cases acc with
      | none =>
        simp only at h ⊢
        exact mergeNamed_append name rest l2 _ acc1 h
      | some existing =>
        simp only at h ⊢
        cases hm : mergeFamily existing f false with
        | ok m =>
          rw [hm] at h
          simp only at h ⊢
          exact mergeNamed_append name rest l2 _ acc1 h
        | err e => rw [hm] at h; simp at h
        | panic => rw [hm] at h; simp at h
    · rw [if_neg c] at h ⊢
      exact mergeNamed_append name rest l2 acc acc1 h

/-- The entry of `mergedFamilies` under a name after the loops of `handler`: the families that
the sources, as the loop leaves them, hold under that name, merged in the order of the
visit. -/
theorem handlerLoop_named (window : Int) (now : Nat → Int) (name : String) :
    ∀ (store : List (String × JobFamily)) (k : Nat) (merged merged1 : List (String × MetricFamily)),
      (handlerLoop window now k store merged).1 = .ok merged1 →
      mergeNamed name (allFamilies (handlerLoop window now k store merged).2)
        (mapGet merged name) = .ok (mapGet merged1 name)
  | [], _, merged, merged1, h => by
    simp only [handlerLoop, Result.ok.injEq] at h
    subst h
    rfl
  | (jobName, job) :: rest, k, merged, merged1, h => by
    rw [handlerLoop_cons] at h ⊢
    cases hm : mergeJobFamilies
        (if now k - job.lastUpdate > window then prune job else job).families merged with
    | ok m2 =>
      rw [hm] at h
      simp only at h ⊢
      simp only [allFamilies, List.flatMap_cons]
      rw [mergeNamed_append name _ _ _ _ (mergeJobFamilies_named name _ merged m2 hm)]
      exact handlerLoop_named window now name rest (k + 1) m2 merged1 h
    | err e => rw [hm] at h; simp at h
    | panic => rw [hm] at h; simp at h

/-- The keys of `mergedFamilies` after the inner loop of `handler`. -/
theorem mergeJobFamilies_keys :
    ∀ (fams merged merged1 : List (String × MetricFamily)),
      mergeJobFamilies fams merged = .ok merged1 →
      (NodupKeys merged → NodupKeys merged1) ∧
      (∀ k, k ∈ merged1.map (fun e => e.1) ↔
        (k ∈ merged.map (fun e => e.1) ∨ k ∈ fams.map (fun e => e.1)))
  | [], merged, merged1, h => by
    simp only [mergeJobFamilies, Result.ok.injEq] at h
    subst h
    simp
  | (k, f) :: rest, merged, merged1, h => by
    rw [mergeJobFamilies_cons] at h
    have step : ∀ v, mergeJobFamilies rest (mapSet merged k v) = .ok merged1 →
        (NodupKeys merged → NodupKeys merged1) ∧
        (∀ k1, k1 ∈ merged1.map (fun e => e.1) ↔
          (k1 ∈ merged.map (fun e => e.1) ∨ k1 ∈ ((k, f) :: rest).map (fun e => e.1))) := by
      intro v hv
      have ih := mergeJobFamilies_keys rest _ merged1 hv
      refine ⟨fun hn => ih.1 (nodupKeys_mapSet k v hn), fun k1 => ?_⟩
      rw [ih.2 k1, mem_keys_mapSet]
      simp only [List.map_cons, List.mem_cons]
      tauto
    cases hg : mapGet merged k with
    | none =>
      rw [hg] at h
      exact step f h
    | some existing =>
      rw [hg] at h
      simp only at h
      cases hm : mergeFamily existing f false with
      | ok m =>
        rw [hm] at h
        exact step m h
      | err e => rw [hm] at h; simp at h
      | panic => rw [hm] at h; simp at h

theorem handlerLoop_keys (window : Int) (now : Nat → Int) :
    ∀ (store : List (String × JobFamily)) (k : Nat) (merged merged1 : List (String × MetricFamily)),
      (handlerLoop window now k store merged).1 = .ok merged1 →
      (NodupKeys merged → NodupKeys merged1) ∧
      (∀ n, n ∈ merged1.map (fun e => e.1) ↔
        (n ∈ merged.map (fun e => e.1) ∨
          n ∈ (allFamilies (handlerLoop window now k store merged).2).map (fun e => e.1)))
  | [], _, merged, merged1, h => by
    simp only [handlerLoop, Result.ok.injEq] at h
    subst h
    simp [handlerLoop, allFamilies]
  | (jobName, job) :: rest, k, merged, merged1, h => by
    rw [handlerLoop_cons] at h ⊢
    cases hm : mergeJobFamilies
        (if now k - job.lastUpdate > window then prune job else job).families merged with
    | ok m2 =>
      rw [hm] at h
      simp only at h ⊢
      have h1 := mergeJobFamilies_keys _ merged m2 hm
      have h2 := handlerLoop_keys window now rest (k + 1) m2 merged1 h
      refine ⟨fun hn => h2.1 (h1.1 hn), fun n => ?_⟩
      rw [h2.2 n, h1.2 n]
      simp only [allFamilies, List.flatMap_cons, List.map_append, List.mem_append]
      tauto
    | err e => rw [hm] at h; simp at h
    | panic => rw [hm] at h; simp at h

/-! ## Export: the order of the families -/

theorem strLess_eq_false_iff_le (s t : String) : strLess t s = false ↔ s ≤ t :=
  strLess_eq_false_iff t s

theorem sortBy_strLess_perm (l : List String) : (sortBy strLess l).Perm l :=
  List.perm_insertionSort _ l

/-- Sorting pairwise distinct strings gives a strictly ascending sequence. -/
theorem sortBy_strLess_strict {l : List String} (hn : l.Nodup) :
    (sortBy strLess l).Pairwise (fun x y => strLess x y = true) := by
  haveI : IsTotal String (fun x y => strLess y x = false) :=
    ⟨fun x y => by
      simp only [strLess_eq_false_iff_le]
      exact le_total _ _⟩
  haveI : IsTrans String (fun x y => strLess y x = false) :=
    ⟨fun x y z => by
      simp only [strLess_eq_false_iff_le]
      exact le_trans⟩
  have hs := List.sorted_insertionSort (fun x y : String => strLess y x = false) l
  have hnd : (sortBy strLess l).Nodup := (sortBy_strLess_perm l).nodup_iff.2 hn
  refine (List.Pairwise.and hs hnd).imp ?_
  intro x y hxy
  rw [strLess_iff]
  exact lt_of_le_of_ne ((strLess_eq_false_iff_le x y).1 hxy.1) hxy.2

theorem strLess_strict_ext {l1 l2 : List String}
    (h1 : l1.Pairwise (fun x y => strLess x y = true))
    (h2 : l2.Pairwise (fun x y => strLess x y = true)) (h : ∀ n, n ∈ l1 ↔ n ∈ l2) :
    l1 = l2 := by
  have nd : ∀ l : List String, l.Pairwise (fun x y => strLess x y = true) → l.Nodup := by
    intro l hl
    refine hl.imp ?_
    intro x y hxy e
    rw [e, strLess_iff] at hxy
    exact lt_irrefl _ hxy
  haveI : IsAntisymm String (fun x y => strLess x y = true) :=
    ⟨fun x y a b => by
      rw [strLess_iff] at a b
      exact absurd a (lt_asymm b)⟩
  exact List.eq_of_perm_of_sorted ((List.perm_ext_iff_of_nodup (nd l1 h1) (nd l2 h2)).2 h) h1 h2

theorem mergeNamed_name (name : String) :
    ∀ (l : List (String × MetricFamily)) (acc : Option MetricFamily) (r : MetricFamily),
      mergeNamed name l acc = .ok (some r) → (∀ e ∈ l, e.2.name = e.1) →
      (∀ x, acc = some x → x.name = name) → r.name = name
  | [], acc, r, h, _, ha => by
    simp only [mergeNamed, Result.ok.injEq] at h
    exact ha r h
  | (k, f) :: rest, acc, r, h, hl, ha => by
    rw [mergeNamed_cons] at h
    have hrest : ∀ e ∈ rest, e.2.name = e.1 := fun e he => hl e (List.mem_cons_of_mem _ he)
    by_cases c : k = name
    · rw [if_pos c] at h
      have hf : f.name = name := by
        rw [← c]
        exact hl (k, f) (List.mem_cons_self _ _)
      cases acc with
      | none =>
        simp only at h
        exact mergeNamed_name name rest _ r h hrest (fun x hx => by cases hx; exact hf)
      | some existing =>
        simp only at h
        cases hm : mergeFamily existing f false with
        | ok m =>
          rw [hm] at h
          simp only at h
          refine mergeNamed_name name rest _ r h hrest (fun x hx => ?_)
          cases hx
          rw [(mergeFamily_ok_type hm).2.2.1]
          exact ha existing rfl
        | err e => rw [hm] at h; simp at h
        | panic => rw [hm] at h; simp at h
    · rw [if_neg c] at h
      exact mergeNamed_name name rest acc r h hrest ha

/-- The sources as the loops of `handler` leave them: each still in its place, with some of
its former families. -/
theorem handlerLoop_store_subset (window : Int) (now : Nat → Int) :
    ∀ (store : List (String × JobFamily)) (k : Nat) (merged : List (String × MetricFamily)),
      ∀ e ∈ (handlerLoop window now k store merged).2,
        ∃ e0 ∈ store, e.1 = e0.1 ∧ e.2.lastUpdate = e0.2.lastUpdate ∧
          ∀ g ∈ e.2.families, g ∈ e0.2.families
  | [], _, _, e, he => by simp [handlerLoop] at he
  | (jobName, job) :: rest, k, merged, e, he => by
    rw [handlerLoop_cons] at he
    have hjob : ∀ g ∈ (if now k - job.lastUpdate > window then prune job else job).families,
        g ∈ job.families := by
      intro g hg
      split at hg
      · exact prune_families_subset job g hg
      · exact hg
    have hlu : (if now k - job.lastUpdate > window then prune job else job).lastUpdate =
        job.lastUpdate := by
      split <;> rfl
    have hhead : ∀ e1, e1 = (jobName, if now k - job.lastUpdate > window then prune job else job) →
        ∃ e0 ∈ (jobName, job) :: rest, e1.1 = e0.1 ∧ e1.2.lastUpdate = e0.2.lastUpdate ∧
          ∀ g ∈ e1.2.families, g ∈ e0.2.families := by
      intro e1 he1
      subst he1
      exact ⟨(jobName, job), List.mem_cons_self _ _, rfl, hlu, hjob⟩
    have htail : ∀ e1 ∈ rest,
        ∃ e0 ∈ (jobName, job) :: rest, e1.1 = e0.1 ∧ e1.2.lastUpdate = e0.2.lastUpdate ∧
          ∀ g ∈ e1.2.families, g ∈ e0.2.families :=
      fun e1 he1 => ⟨e1, List.mem_cons_of_mem _ he1, rfl, rfl, fun g hg => hg⟩
    cases hm : mergeJobFamilies
        (if now k - job.lastUpdate > window then prune job else job).families merged with
    | ok m2 =>
      rw [hm] at he
      simp only at he
      rcases List.mem_cons.1 he with h1 | h1
      · exact hhead e h1
      · obtain ⟨e0, h0, h2⟩ := handlerLoop_store_subset window now rest (k + 1) m2 e h1
        exact ⟨e0, List.mem_cons_of_mem _ h0, h2⟩
    | err er =>
      rw [hm] at he
      simp only at he
      rcases List.mem_cons.1 he with h1 | h1
      · exact hhead e h1
      · exact htail e h1
    | panic =>
      rw [hm] at he
      simp only at he
      rcases List.mem_cons.1 he with h1 | h1
      · exact hhead e h1
      · exact htail e h1

theorem keysAreNames_handlerLoop {window : Int} {now : Nat → Int}
    {store : List (String × JobFamily)} (k : Nat) (merged : List (String × MetricFamily))
    (h : KeysAreNames store) : KeysAreNames (handlerLoop window now k store merged).2 := by
  intro e he g hg
  obtain ⟨e0, h0, _, _, h3⟩ := handlerLoop_store_subset window now store k merged e he
  exact h e0 h0 g (h3 g hg)

theorem mem_allFamilies {store : List (String × JobFamily)} {g : String × MetricFamily} :
    g ∈ allFamilies store ↔ ∃ e ∈ store, g ∈ e.2.families := by
  simp [allFamilies, List.mem_flatMap]

/-- The families `handler` hands to the encoder: those of the map `mergedFamilies`, by
ascending key; under each key a family of that name. -/
theorem handler_output {a : Aggate} {now : Nat → Int} {out : List MetricFamily}
    (hname : KeysAreNames a.familiesByJob) (h : (handler a now).1 = .ok out) :
    ∃ merged, (handlerLoop a.jobPruneDuration now 0 a.familiesByJob []).1 = .ok merged ∧
      NodupKeys merged ∧
      out = (sortBy strLess (merged.map (fun e => e.1))).filterMap
        (fun name => mapGet merged name) ∧
      out.map (fun f => f.name) = sortBy strLess (merged.map (fun e => e.1)) ∧
      (∀ n f, mapGet merged n = some f → f.name = n ∧ f ∈ out) ∧
      (∀ f ∈ out, mapGet merged f.name = some f) := by
  obtain ⟨merged, hm, hout⟩ := handler_ok h
  have hk := handlerLoop_keys a.jobPruneDuration now a.familiesByJob 0 [] merged hm
  have hnd : NodupKeys merged := hk.1 (by simp [NodupKeys])
  have hnm : ∀ n f, mapGet merged n = some f → f.name = n := by
    intro n f hf
    have h1 := handlerLoop_named a.jobPruneDuration now n a.familiesByJob 0 [] merged hm
    rw [hf] at h1
    refine mergeNamed_name n _ _ f h1 ?_ (fun x hx => by simp [mapGet] at hx)
    intro e he
    obtain ⟨e1, h2, h3⟩ := mem_allFamilies.1 he
    exact keysAreNames_handlerLoop 0 [] hname e1 h2 e h3
  have hmap : ∀ ks : List String, (∀ k ∈ ks, k ∈ merged.map (fun e => e.1)) →
      (ks.filterMap (fun name => mapGet merged name)).map (fun f => f.name) = ks := by
    intro ks
    induction ks with
    | nil => intro _; rfl
    | cons k ks ih =>
      intro hks
      obtain ⟨v, hv⟩ := (mapGet_isSome_iff k merged).2 (hks k (List.mem_cons_self _ _))
      simp only [List.filterMap_cons, hv, List.map_cons, hnm k v hv, List.cons.injEq, true_and]
      exact ih (fun k1 hk1 => hks k1 (List.mem_cons_of_mem _ hk1))
  have hsub : ∀ k ∈ sortBy strLess (merged.map (fun e => e.1)), k ∈ merged.map (fun e => e.1) :=
    fun k hk1 => (sortBy_strLess_perm _).mem_iff.1 hk1
  refine ⟨merged, hm, hnd, hout, ?_, ?_, ?_⟩
  · rw [hout]; exact hmap _ hsub
  · intro n f hf
    refine ⟨hnm n f hf, ?_⟩
    rw [hout, List.mem_filterMap]
    refine ⟨n, ?_, hf⟩
    exact (sortBy_strLess_perm _).mem_iff.2 ((mapGet_isSome_iff n merged).1 ⟨f, hf⟩)
  · intro f hf
    rw [hout, List.mem_filterMap] at hf
    obtain ⟨n, _, hn⟩ := hf
    rw [(hnm n f hn)]
    exact hn

/-- C13: the families handed to the encoder by an export that succeeds are in strictly
ascending order of their names, each name once, and the names are exactly those under which
some source holds a family after the staleness pruning of that export.  (Every accumulated
family is stored under its own name, as ingestion of parsed families leaves it.) -/
theorem handler_output_sorted_by_name (a : Aggate) (now : Nat → Int) (out : List MetricFamily)
    (hname : KeysAreNames a.familiesByJob) (h : (handler a now).1 = .ok out) :
    (out.map (fun f => f.name)).Pairwise (fun x y => strLess x y = true) ∧
    (out.map (fun f => f.name)).Nodup ∧
    ∀ n, n ∈ out.map (fun f => f.name) ↔
      ∃ e ∈ (handler a now).2.familiesByJob, ∃ g ∈ e.2.families, g.1 = n := by
  obtain ⟨merged, hm, hnd, _, hnames, _, _⟩ := handler_output hname h
  have hk := handlerLoop_keys a.jobPruneDuration now a.familiesByJob 0 [] merged hm
  rw [hnames, handler_store]
  refine ⟨sortBy_strLess_strict hnd, (sortBy_strLess_perm _).nodup_iff.2 hnd, fun n => ?_⟩
  rw [(sortBy_strLess_perm _).mem_iff, hk.2 n]
  simp only [List.map_nil, List.not_mem_nil, false_or, List.mem_map]
  constructor
  · rintro ⟨g, hg, rfl⟩
    obtain ⟨e, he, hge⟩ := mem_allFamilies.1 hg
    exact ⟨e, he, g, hge, rfl⟩
  · rintro ⟨e, he, g, hg, rfl⟩
    exact ⟨g, mem_allFamilies.2 ⟨e, he, hg⟩, rfl⟩


/-! ## Export of scalar families -/

/-- The entries, by label sequence, of the family that `mergeNamed` builds: those of the
families under the name, folded in sequence. -/
theorem mergeNamed_entries (ty : MetricType) (name : String) :
    ∀ (l : List (String × MetricFamily)) (acc r : Option MetricFamily),
      mergeNamed name l acc = .ok r →
      (∀ e ∈ l, e.1 = name → e.2.type = ty ∧ StrictAsc e.2.metric) →
      (∀ x, acc = some x → x.type = ty ∧ StrictAsc x.metric) →
      (∀ x, r = some x → x.type = ty ∧ StrictAsc x.metric) ∧
      ∀ lbl, r.bind (fun f => findLabel lbl f.metric) =
        (l.filterMap (fun e =>
          if e.1 = name then some (findLabel lbl e.2.metric) else none)).foldl
          (mergeOpt ty false) (acc.bind (fun f => findLabel lbl f.metric))
  | [], acc, r, h, _, ha => by
    simp only [mergeNamed, Result.ok.injEq] at h
    subst h
    exact ⟨ha, fun _ => rfl⟩
  | (k, f) :: rest, acc, r, h, hl, ha => by
    rw [mergeNamed_cons] at h
    have hrest : ∀ e ∈ rest, e.1 = name → e.2.type = ty ∧ StrictAsc e.2.metric :=
      fun e he => hl e (List.mem_cons_of_mem _ he)
    by_cases c : k = name
    · rw [if_pos c] at h
      have hf : f.type = ty ∧ StrictAsc f.metric := hl (k, f) (List.mem_cons_self _ _) c
      simp only [List.filterMap_cons, if_pos c, List.foldl_cons]
      cases acc with
      | none =>
        simp only at h
        have ih := mergeNamed_entries ty name rest _ r h hrest
          (fun x hx => by cases hx; exact hf)
        refine ⟨ih.1, fun lbl => ?_⟩
        rw [ih.2 lbl]
        congr 1
        simp only [Option.some_bind, Option.none_bind]
        cases findLabel lbl f.metric <;> rfl
      | some existing =>
        simp only at h
        have he := ha existing rfl
        cases hm : mergeFamily existing f false with
        | ok m =>
          rw [hm] at h
          simp only at h
          obtain ⟨_, _, _, ht, hsm, hfm⟩ := mergeFamily_spec he.2 hf.2 hm
          have ih := mergeNamed_entries ty name rest _ r h hrest
            (fun x hx => by cases hx; exact ⟨ht.trans he.1, hsm⟩)
          refine ⟨ih.1, fun lbl => ?_⟩
          rw [ih.2 lbl]
          congr 1
          simp only [Option.some_bind]
          rw [hfm lbl, he.1]
        | err e => rw [hm] at h; simp at h
        | panic => rw [hm] at h; simp at h
    · rw [if_neg c] at h
      simp only [List.filterMap_cons, if_neg c]
      exact mergeNamed_entries ty name rest acc r h hrest ha

/-- The entry that a fold of `mergeOpt` over entries of a scalar type arrives at: it exists
when one of the entries does, and its value is the running float64 sum of their values. -/
theorem foldl_mergeOpt_scalar {ty : MetricType} (hs : isScalar ty = true) (lbl : List LabelPair) :
    ∀ (es : List (Option Metric)) (acc : Option Metric),
      (∀ m, some m ∈ es → m.label = lbl ∧ ∃ v, scalarValue ty m = some v) →
      (∀ m, acc = some m → m.label = lbl ∧ ∃ v, scalarValue ty m = some v) →
      (∀ m, es.foldl (mergeOpt ty false) acc = some m → m.label = lbl) ∧
      (es.foldl (mergeOpt ty false) acc).bind (scalarValue ty) =
        (es.filterMap (fun o => o.bind (scalarValue ty))).foldl addInto
          (acc.bind (scalarValue ty)) ∧
      (es.foldl (mergeOpt ty false) acc = none ↔ acc = none ∧ ∀ o ∈ es, o = none)
  | [], acc, _, ha => by
    simp only [List.foldl_nil, List.filterMap_nil, List.not_mem_nil, false_implies,
      implies_true, and_true, true_and]
    exact fun m hm => (ha m hm).1
  | o :: es, acc, he, ha => by
    have hes : ∀ m, some m ∈ es → m.label = lbl ∧ ∃ v, scalarValue ty m = some v :=
      fun m hm => he m (List.mem_cons_of_mem _ hm)
    simp only [List.foldl_cons]
    cases o with
    | none =>
      have e1 : mergeOpt ty false acc none = acc := by cases acc <;> rfl
      rw [e1]
      obtain ⟨i1, i2, i3⟩ := foldl_mergeOpt_scalar hs lbl es acc hes ha
      refine ⟨i1, ?_, ?_⟩
      · rw [i2]; rfl
      · rw [i3]
        simp only [List.mem_cons, forall_eq_or_imp, true_and]
    | some m =>
      obtain ⟨hml, vm, hvm⟩ := he m (List.mem_cons_self _ _)
      cases acc with
      | none =>
        have e1 : mergeOpt ty false none (some m) = some m := rfl
        rw [e1]
        obtain ⟨i1, i2, i3⟩ := foldl_mergeOpt_scalar hs lbl es (some m) hes
          (fun x hx => by cases hx; exact ⟨hml, vm, hvm⟩)
        refine ⟨i1, ?_, ?_⟩
        · rw [i2]
          simp only [List.filterMap_cons, Option.some_bind, hvm, List.foldl_cons,
            Option.none_bind]
          rfl
        · rw [i3]
          simp
      | some x =>
        obtain ⟨hxl, vx, hvx⟩ := ha x rfl
        have e1 : mergeOpt ty false (some x) (some m) =
            some (scalarMetric ty x.label (Float64.add vx vm)) := combined_scalar hs hvx hvm
        rw [e1]
        obtain ⟨i1, i2, i3⟩ := foldl_mergeOpt_scalar hs lbl es
          (some (scalarMetric ty x.label (Float64.add vx vm))) hes
          (fun y hy => by
            cases hy
            exact ⟨by rw [scalarMetric_label]; exact hxl, _, scalarMetric_value hs _ _⟩)
        refine ⟨i1, ?_, ?_⟩
        · rw [i2]
          simp only [List.filterMap_cons, Option.some_bind, hvm, hvx, List.foldl_cons,
            scalarMetric_value hs]
          rfl
        · rw [i3]
          simp

/-- An export in which no source is stale leaves the store as it was. -/
theorem handlerLoop_fresh (window : Int) (now : Nat → Int) :
    ∀ (store : List (String × JobFamily)) (k : Nat) (merged : List (String × MetricFamily)),
      (∀ p ∈ store.enumFrom k, ¬ (now p.1 - p.2.2.lastUpdate > window)) →
      (handlerLoop window now k store merged).2 = store
  | [], _, _, _ => rfl
  | (jobName, job) :: rest, k, merged, hf => by
    rw [handlerLoop_cons]
    have h0 : ¬ (now k - job.lastUpdate > window) :=
      hf (k, jobName, job) (by simp [List.enumFrom_cons])
    have hr : ∀ p ∈ rest.enumFrom (k + 1), ¬ (now p.1 - p.2.2.lastUpdate > window) :=
      fun p hp => hf p (by rw [List.enumFrom_cons]; exact List.mem_cons_of_mem _ hp)
    rw [if_neg h0]
    cases hm : mergeJobFamilies job.families merged with
    | ok m2 =>
      simp only
      rw [handlerLoop_fresh window now rest (k + 1) m2 hr]
    | err e => rfl
    | panic => rfl

/-- In a map, the entries under a key are the one that `mapGet` finds. -/
theorem filterMap_key {β γ : Type} (F : β → Option γ) (name : String) :
    ∀ (m : List (String × β)), NodupKeys m →
      m.filterMap (fun g => if g.1 = name then F g.2 else none) =
        ((mapGet m name).bind F).toList
  | [], _ => rfl
  | (k1, v1) :: rest, hn => by
    simp only [NodupKeys, List.map_cons, List.nodup_cons, List.mem_map, not_exists, not_and] at hn
    unfold mapGet
    by_cases c : k1 = name
    · have hnone : rest.filterMap (fun g => if g.1 = name then F g.2 else none) = [] := by
        rw [List.filterMap_eq_nil_iff]
        intro g hg
        have : ¬ g.1 = name := fun e => hn.1 g hg (e.trans c.symm)
        rw [if_neg this]
      simp only [List.filterMap_cons, if_pos c, hnone, Option.some_bind]
      cases F v1 <;> rfl
    · simp only [List.filterMap_cons, if_neg c]
      exact filterMap_key F name rest hn.2

theorem valuesAt_eq (ty : MetricType) (name : String) (l : List LabelPair) :
    ∀ (store : List (String × JobFamily)), (∀ e ∈ store, NodupKeys e.2.families) →
      (allFamilies store).filterMap (fun g =>
        if g.1 = name then (findLabel l g.2.metric).bind (scalarValue ty) else none) =
        valuesAt ty name l store
  | [], _ => rfl
  | e :: rest, hn => by
    have ih := valuesAt_eq ty name l rest (fun e1 h1 => hn e1 (List.mem_cons_of_mem _ h1))
    simp only [allFamilies, List.flatMap_cons, List.filterMap_append] at ih ⊢
    rw [ih, filterMap_key (fun g => (findLabel l g.metric).bind (scalarValue ty)) name
      e.2.families (hn e (List.mem_cons_self _ _))]
    unfold valuesAt sourceValue
    simp only [List.filterMap_cons]
    cases (mapGet e.2.families name).bind
      (fun g => (findLabel l g.metric).bind (scalarValue ty)) <;> rfl

/-- C12: export sums independent sources.  When no source is stale and the families that the
sources hold under a name are all of one scalar type (counter, gauge or untyped; each with
the payloads of that type and its metrics in strictly ascending label order, as ingestion
leaves them), an export that succeeds hands the encoder exactly one family of that name; it
has that type, one metric for each label sequence that some source holds under the name and
no other, and the value of each metric is the float64 sum, in the order of the visit, of the
values that the sources holding its label sequence have accumulated for it. -/
theorem handler_sums_sources (a : Aggate) (now : Nat → Int) (out : List MetricFamily)
    (name : String) (ty : MetricType) (hs : isScalar ty = true)
    (hkeys : ∀ e ∈ a.familiesByJob, NodupKeys e.2.families)
    (hname : KeysAreNames a.familiesByJob)
    (hfresh : NoneStale a.jobPruneDuration now a.familiesByJob)
    (hty : ∀ e ∈ a.familiesByJob, ∀ g ∈ e.2.families, g.1 = name →
      g.2.type = ty ∧ WellTyped g.2 ∧ StrictAsc g.2.metric)
    (hheld : ∃ e ∈ a.familiesByJob, ∃ g ∈ e.2.families, g.1 = name)
    (h : (handler a now).1 = .ok out) :
    ∃ f, f ∈ out ∧ f.name = name ∧ (∀ f1 ∈ out, f1.name = name → f1 = f) ∧ f.type = ty ∧
      (f.metric.map (fun m => m.label)).Nodup ∧
      (∀ l, l ∈ f.metric.map (fun m => m.label) ↔
        ∃ e ∈ a.familiesByJob, ∃ g ∈ e.2.families, g.1 = name ∧
          l ∈ g.2.metric.map (fun m => m.label)) ∧
      ∀ m ∈ f.metric,
        scalarValue ty m = sumValues (valuesAt ty name m.label a.familiesByJob) := by
  obtain ⟨merged, hm, hnd, _, hnames, hget, hout⟩ := handler_output hname h
  have hst : (handlerLoop a.jobPruneDuration now 0 a.familiesByJob []).2 = a.familiesByJob :=
    handlerLoop_fresh _ _ _ 0 [] hfresh
  have hk := handlerLoop_keys a.jobPruneDuration now a.familiesByJob 0 [] merged hm
  have hn := handlerLoop_named a.jobPruneDuration now name a.familiesByJob 0 [] merged hm
  rw [hst] at hk hn
  obtain ⟨e0, he0, g0, hg0, hgn⟩ := hheld
  have hmem : name ∈ merged.map (fun e => e.1) :=
    (hk.2 name).2 (Or.inr (List.mem_map.2 ⟨g0, mem_allFamilies.2 ⟨e0, he0, hg0⟩, hgn⟩))
  obtain ⟨f, hf⟩ := (mapGet_isSome_iff name merged).2 hmem
  rw [hf] at hn
  have hgood : ∀ e ∈ allFamilies a.familiesByJob, e.1 = name →
      e.2.type = ty ∧ WellTyped e.2 ∧ StrictAsc e.2.metric := by
    intro e he c
    obtain ⟨e1, h1, h2⟩ := mem_allFamilies.1 he
    exact hty e1 h1 e h2 c
  obtain ⟨hr, hent⟩ := mergeNamed_entries ty name _ none (some f) hn
    (fun e he c => ⟨(hgood e he c).1, (hgood e he c).2.2⟩) (fun x hx => by cases hx)
  have hfgood := hr f rfl
  simp only [Option.some_bind, Option.none_bind, mapGet] at hent
  have hV := fun lbl => foldl_mergeOpt_scalar hs lbl
    ((allFamilies a.familiesByJob).filterMap (fun e =>
      if e.1 = name then some (findLabel lbl e.2.metric) else none)) none
    (by
      intro m hmm
      obtain ⟨e, he, hx⟩ := List.mem_filterMap.1 hmm
      by_cases c : e.1 = name
      · rw [if_pos c] at hx
        have hfl := findLabel_some (Option.some.inj hx)
        obtain ⟨ht, hw, _⟩ := hgood e he c
        exact ⟨hfl.2, scalarValue_of_payload hs (ht ▸ hw m hfl.1)⟩
      · rw [if_neg c] at hx
        cases hx)
    (fun x hx => by cases hx)
  have hsome : ∀ l, (∃ m ∈ f.metric, m.label = l) ↔
      ∃ e ∈ a.familiesByJob, ∃ g ∈ e.2.families, g.1 = name ∧
        ∃ m ∈ g.2.metric, m.label = l := by
    intro l
    have h3 := (hV l).2.2
    rw [← hent l] at h3
    constructor
    · rintro ⟨m, hmf, hml⟩
      have hne : ¬ findLabel l f.metric = none := fun hc =>
        (findLabel_eq_none_iff.1 hc) m hmf hml
      rw [h3] at hne
      simp only [true_and, not_forall] at hne
      obtain ⟨o, ho, hon⟩ := hne
      obtain ⟨e, he, hx⟩ := List.mem_filterMap.1 ho
      by_cases c : e.1 = name
      · rw [if_pos c] at hx
        obtain ⟨e1, h1, h2⟩ := mem_allFamilies.1 he
        cases hfl : findLabel l e.2.metric with
        | none =>
          rw [hfl] at hx
          exact absurd (Option.some.inj hx).symm hon
        | some m1 => exact ⟨e1, h1, e, h2, c, m1, findLabel_some hfl⟩
      · rw [if_neg c] at hx
        cases hx
    · rintro ⟨e, he, g, hg, hgn1, m, hmg, hml⟩
      have hne : ¬ findLabel l f.metric = none := by
        rw [h3]
        simp only [true_and, not_forall]
        refine ⟨findLabel l g.2.metric, List.mem_filterMap.2
          ⟨g, mem_allFamilies.2 ⟨e, he, hg⟩, by rw [if_pos hgn1]⟩, ?_⟩
        exact fun hc => (findLabel_eq_none_iff.1 hc) m hmg hml
      cases hfl : findLabel l f.metric with
      | none => exact absurd hfl hne
      | some m1 => exact ⟨m1, findLabel_some hfl⟩
  refine ⟨f, (hget name f hf).2, (hget name f hf).1, ?_, hfgood.1,
    strictAsc_nodup_labels hfgood.2, ?_, ?_⟩
  · intro f1 h1 hn1
    have h2 := hout f1 h1
    rw [hn1, hf] at h2
    exact (Option.some.inj h2).symm
  · intro l
    simp only [List.mem_map]
    exact hsome l
  · intro m hmf
    have h2 := (hV m.label).2.1
    rw [← hent m.label, findLabel_of_mem hfgood.2 hmf, List.filterMap_filterMap] at h2
    simp only [Option.some_bind, Option.none_bind] at h2
    rw [h2, ← valuesAt_eq ty name m.label a.familiesByJob hkeys]
    unfold sumValues
    congr 2
    funext g
    split <;> rfl

/-! ## Export: the order of the visit -/

/-- When the merge under a name succeeds, every family under that name has the type of the
result. -/
theorem mergeNamed_type (name : String) :
    ∀ (l : List (String × MetricFamily)) (acc : Option MetricFamily) (r : MetricFamily),
      mergeNamed name l acc = .ok (some r) →
      (∀ e ∈ l, e.1 = name → e.2.type = r.type) ∧ (∀ x, acc = some x → x.type = r.type)
  | [], acc, r, h => by
    simp only [mergeNamed, Result.ok.injEq] at h
    subst h
    exact ⟨fun e he => absurd he (List.not_mem_nil e), fun x hx => by cases hx; rfl⟩
  | (k, f) :: rest, acc, r, h => by
    rw [mergeNamed_cons] at h
    by_cases c : k = name
    · rw [if_pos c] at h
      cases acc with
      | none =>
        simp only at h
        obtain ⟨i1, i2⟩ := mergeNamed_type name rest _ r h
        refine ⟨fun e he hn => ?_, (fun x hx => by cases hx)⟩
        rcases List.mem_cons.1 he with e1 | e1
        · subst e1; exact i2 f rfl
        · exact i1 e e1 hn
      | some existing =>
        simp only at h
        cases hm : mergeFamily existing f false with
        | ok m =>
          rw [hm] at h
          simp only at h
          obtain ⟨i1, i2⟩ := mergeNamed_type name rest _ r h
          obtain ⟨t1, t2, _, _⟩ := mergeFamily_ok_type hm
          have hx : existing.type = r.type := by rw [← t2]; exact i2 m rfl
          refine ⟨fun e he hn => ?_, (fun x hx1 => by cases hx1; exact hx)⟩
          rcases List.mem_cons.1 he with e1 | e1
          · subst e1; exact t1.symm.trans hx
          · exact i1 e e1 hn
        | err e => rw [hm] at h; simp at h
        | panic => rw [hm] at h; simp at h
    · rw [if_neg c] at h
      obtain ⟨i1, i2⟩ := mergeNamed_type name rest acc r h
      refine ⟨fun e he hn => ?_, i2⟩
      rcases List.mem_cons.1 he with e1 | e1
      · subst e1; exact absurd hn c
      · exact i1 e e1 hn

/-- The merge under a name succeeds exactly when the families under that name have one type
(their metrics carrying the payloads of their types). -/
theorem mergeNamed_ok_iff (name : String) :
    ∀ (l : List (String × MetricFamily)) (acc : Option MetricFamily),
      (∀ e ∈ l, e.1 = name → WellTyped e.2) → (∀ x, acc = some x → WellTyped x) →
      ((∃ r, mergeNamed name l acc = .ok r) ↔
        ∃ T, (∀ x, acc = some x → x.type = T) ∧ ∀ e ∈ l, e.1 = name → e.2.type = T)
  | [], acc, _, _ => by
    refine ⟨fun _ => ?_, fun _ => ⟨acc, rfl⟩⟩
    cases acc with
    | none => exact ⟨.COUNTER, (fun x hx => by cases hx), fun e he => absurd he (List.not_mem_nil e)⟩
    | some x => exact ⟨x.type, (fun y hy => by cases hy; rfl), fun e he => absurd he (List.not_mem_nil e)⟩
  | (k, f) :: rest, acc, hl, ha => by
    rw [mergeNamed_cons]
    have hrest : ∀ e ∈ rest, e.1 = name → WellTyped e.2 :=
      fun e he => hl e (List.mem_cons_of_mem _ he)
    by_cases c : k = name
    · rw [if_pos c]
      have hwf : WellTyped f := hl (k, f) (List.mem_cons_self _ _) c
      cases acc with
      | none =>
        simp only
        rw [mergeNamed_ok_iff name rest (some f) hrest (fun x hx => by cases hx; exact hwf)]
        constructor
        · rintro ⟨T, h1, h2⟩
          refine ⟨T, (fun x hx => by cases hx), fun e he hn => ?_⟩
          rcases List.mem_cons.1 he with e1 | e1
          · subst e1; exact h1 f rfl
          · exact h2 e e1 hn
        · rintro ⟨T, _, h2⟩
          refine ⟨T, fun x hx => ?_, fun e he hn => h2 e (List.mem_cons_of_mem _ he) hn⟩
          cases hx
          exact h2 (k, f) (List.mem_cons_self _ _) c
      | some existing =>
        simp only
        have hwe : WellTyped existing := ha existing rfl
        by_cases hty : existing.type = f.type
        · obtain ⟨m, hm⟩ : ∃ m, mergeFamily existing f false = .ok m :=
            mergeFamily_total hty (combine_ok hty (Or.inr ⟨hwe, hwf⟩))
          rw [hm]
          simp only
          have hmt : m.type = existing.type := (mergeFamily_ok_type hm).2.1
          rw [mergeNamed_ok_iff name rest (some m) hrest
            (fun x hx => by cases hx; exact mergeFamily_wellTyped hwe hwf hm)]
          constructor
          · rintro ⟨T, h1, h2⟩
            have hT : existing.type = T := hmt ▸ h1 m rfl
            refine ⟨T, (fun x hx => by cases hx; exact hT), fun e he hn => ?_⟩
            rcases List.mem_cons.1 he with e1 | e1
            · subst e1; exact hty.symm.trans hT
            · exact h2 e e1 hn
          · rintro ⟨T, h1, h2⟩
            refine ⟨T, fun x hx => ?_, fun e he hn => h2 e (List.mem_cons_of_mem _ he) hn⟩
            cases hx
            rw [hmt]
            exact h1 existing rfl
        · rw [mergeFamily_of_type_ne false hty]
          simp only
          constructor
          · rintro ⟨r, hr⟩
            cases hr
          · rintro ⟨T, h1, h2⟩
            exact absurd ((h1 existing rfl).trans
              (h2 (k, f) (List.mem_cons_self _ _) c).symm) hty
    · rw [if_neg c, mergeNamed_ok_iff name rest acc hrest ha]
      constructor
      · rintro ⟨T, h1, h2⟩
        refine ⟨T, h1, fun e he hn => ?_⟩
        rcases List.mem_cons.1 he with e1 | e1
        · subst e1; exact absurd hn c
        · exact h2 e e1 hn
      · rintro ⟨T, h1, h2⟩
        exact ⟨T, h1, fun e he hn => h2 e (List.mem_cons_of_mem _ he) hn⟩

theorem mergeNamed_append_ok (name : String) :
    ∀ (l1 l2 : List (String × MetricFamily)) (acc r : Option MetricFamily),
      mergeNamed name (l1 ++ l2) acc = .ok r → ∃ r1, mergeNamed name l1 acc = .ok r1
  | [], _, acc, _, _ => ⟨acc, rfl⟩
  | (k, f) :: rest, l2, acc, r, h => by
    rw [List.cons_append, mergeNamed_cons] at h
    rw [mergeNamed_cons]
    by_cases c : k = name
    · rw [if_pos c] at h ⊢
      cases acc with
      | none =>
        simp only at h ⊢
        exact mergeNamed_append_ok name rest l2 _ r h
      | some existing =>
        simp only at h ⊢
        cases hm : mergeFamily existing f false with
        | ok m =>
          rw [hm] at h
          simp only at h ⊢
          exact mergeNamed_append_ok name rest l2 _ r h
        | err e => rw [hm] at h; simp at h
        | panic => rw [hm] at h; simp at h
    · rw [if_neg c] at h ⊢
      exact mergeNamed_append_ok name rest l2 acc r h

/-- The inner loop of `handler` succeeds exactly when the merge under every name does. -/
theorem mergeJobFamilies_ok_iff :
    ∀ (fams merged : List (String × MetricFamily)),
      (∃ m1, mergeJobFamilies fams merged = .ok m1) ↔
        ∀ name, ∃ r, mergeNamed name fams (mapGet merged name) = .ok r
  | [], merged => ⟨fun _ name => ⟨_, rfl⟩, fun _ => ⟨merged, rfl⟩⟩
  | (k, f) :: rest, merged => by
    constructor
    · rintro ⟨m1, h1⟩ name
      exact ⟨_, mergeJobFamilies_named name _ merged m1 h1⟩
    · intro h
      rw [mergeJobFamilies_cons]
      have hk := h k
      rw [mergeNamed_cons, if_pos rfl] at hk
      have step : ∀ v, (∃ r, mergeNamed k rest (some v) = .ok r) →
          ∃ m1, mergeJobFamilies rest (mapSet merged k v) = .ok m1 := by
        intro v hv
        rw [mergeJobFamilies_ok_iff rest (mapSet merged k v)]
        intro name
        rw [mapGet_mapSet]
        by_cases c : name = k
        · rw [if_pos c, c]
          exact hv
        · rw [if_neg c]
          have hn := h name
          rw [mergeNamed_cons, if_neg (fun e => c e.symm)] at hn
          exact hn
      cases hg : mapGet merged k with
      | none =>
        rw [hg] at hk
        exact step f hk
      | some existing =>
        rw [hg] at hk
        simp only at hk ⊢
        cases hm : mergeFamily existing f false with
        | ok m =>
          rw [hm] at hk
          exact step m hk
        | err e => rw [hm] at hk; obtain ⟨r, hr⟩ := hk; cases hr
        | panic => rw [hm] at hk; obtain ⟨r, hr⟩ := hk; cases hr

theorem handlerLoop_const_cons (window t : Int) (k : Nat) (jobName : String)
    (job : JobFamily) (rest : List (String × JobFamily)) (merged : List (String × MetricFamily)) :
    handlerLoop window (fun _ => t) k ((jobName, job) :: rest) merged =
      match mergeJobFamilies (staleChecked window t job).families merged with
      | .ok merged1 =>
        ((handlerLoop window (fun _ => t) (k + 1) rest merged1).1,
          (jobName, staleChecked window t job) ::
            (handlerLoop window (fun _ => t) (k + 1) rest merged1).2)
      | .err e => (.err e, (jobName, staleChecked window t job) :: rest)
      | .panic => (.panic, (jobName, staleChecked window t job) :: rest) :=
  handlerLoop_cons window (fun _ => t) k jobName job rest merged

/-- The loops of `handler` succeed exactly when the merge under every name does, over the
sources as the staleness test leaves them. -/
theorem handlerLoop_ok_iff (window t : Int) :
    ∀ (store : List (String × JobFamily)) (k : Nat) (merged : List (String × MetricFamily)),
      (∃ m1, (handlerLoop window (fun _ => t) k store merged).1 = .ok m1) ↔
        ∀ name, ∃ r, mergeNamed name
          (allFamilies (store.map (fun e => (e.1, staleChecked window t e.2))))
          (mapGet merged name) = .ok r
  | [], _, merged => ⟨fun _ name => ⟨_, rfl⟩, fun _ => ⟨merged, rfl⟩⟩
  | (jobName, job) :: rest, k, merged => by
    rw [handlerLoop_const_cons]
    simp only [List.map_cons, allFamilies, List.flatMap_cons]
    have ih := handlerLoop_ok_iff window t rest (k + 1)
    simp only [allFamilies] at ih
    cases hm : mergeJobFamilies (staleChecked window t job).families merged with
    | ok m2 =>
      simp only
      rw [ih m2]
      refine forall_congr' (fun name => ?_)
      rw [mergeNamed_append name _ _ _ _ (mergeJobFamilies_named name _ merged m2 hm)]
    | err e =>
      simp only
      constructor
      · rintro ⟨m1, h1⟩
        cases h1
      · intro h
        have : ∃ m1, mergeJobFamilies (staleChecked window t job).families merged = .ok m1 := by
          rw [mergeJobFamilies_ok_iff]
          intro name
          obtain ⟨r, hr⟩ := h name
          exact mergeNamed_append_ok name _ _ _ r hr
        rw [hm] at this
        obtain ⟨m1, h1⟩ := this
        cases h1
    | panic =>
      simp only
      constructor
      · rintro ⟨m1, h1⟩
        cases h1
      · intro h
        have : ∃ m1, mergeJobFamilies (staleChecked window t job).families merged = .ok m1 := by
          rw [mergeJobFamilies_ok_iff]
          intro name
          obtain ⟨r, hr⟩ := h name
          exact mergeNamed_append_ok name _ _ _ r hr
        rw [hm] at this
        obtain ⟨m1, h1⟩ := this
        cases h1

/-- An export at one reading of the clock that visits all sources leaves each as the
staleness test leaves it. -/
theorem handlerLoop_store_map (window t : Int) :
    ∀ (store : List (String × JobFamily)) (k : Nat) (merged m1 : List (String × MetricFamily)),
      (handlerLoop window (fun _ => t) k store merged).1 = .ok m1 →
      (handlerLoop window (fun _ => t) k store merged).2 =
        store.map (fun e => (e.1, staleChecked window t e.2))
  | [], _, _, _, _ => rfl
  | (jobName, job) :: rest, k, merged, m1, h => by
    rw [handlerLoop_const_cons] at h ⊢
    cases hm : mergeJobFamilies (staleChecked window t job).families merged with
    | ok m2 =>
      rw [hm] at h
      simp only at h ⊢
      rw [handlerLoop_store_map window t rest (k + 1) m2 m1 h]
      rfl
    | err e => rw [hm] at h; simp at h
    | panic => rw [hm] at h; simp at h

theorem handler_ok_iff (a : Aggate) (now : Nat → Int) :
    (∃ out, (handler a now).1 = .ok out) ↔
      ∃ m, (handlerLoop a.jobPruneDuration now 0 a.familiesByJob []).1 = .ok m := by
  constructor
  · rintro ⟨out, h⟩
    obtain ⟨m, hm, _⟩ := handler_ok h
    exact ⟨m, hm⟩
  · rintro ⟨m, hm⟩
    unfold handler
    simp only [hm]
    exact ⟨_, rfl⟩

theorem mem_allFamilies_checked (window t : Int) (store : List (String × JobFamily))
    (e : String × MetricFamily) :
    e ∈ allFamilies (store.map (fun x => (x.1, staleChecked window t x.2))) ↔
      ∃ x ∈ store, e ∈ (staleChecked window t x.2).families := by
  rw [mem_allFamilies]
  constructor
  · rintro ⟨y, hy, he⟩
    obtain ⟨x, hx, rfl⟩ := List.mem_map.1 hy
    exact ⟨x, hx, he⟩
  · rintro ⟨x, hx, he⟩
    exact ⟨_, List.mem_map.2 ⟨x, hx, rfl⟩, he⟩

theorem staleChecked_subset (window t : Int) (job : JobFamily) :
    ∀ e ∈ (staleChecked window t job).families, e ∈ job.families := by
  intro e he
  unfold staleChecked at he
  split at he
  · exact prune_families_subset job e he
  · exact he

/-- The loops of `handler` succeed exactly when, under every name, the families that the
sources hold after the staleness test have one type. -/
theorem handlerLoop_success_iff (window t : Int) (store : List (String × JobFamily))
    (hwt : WellTypedStore store) :
    (∃ m, (handlerLoop window (fun _ => t) 0 store []).1 = .ok m) ↔
      ∀ name, ∃ T, ∀ x ∈ store, ∀ e ∈ (staleChecked window t x.2).families,
        e.1 = name → e.2.type = T := by
  rw [handlerLoop_ok_iff]
  refine forall_congr' (fun name => ?_)
  rw [mergeNamed_ok_iff name _ _ (fun e he _ => by
      obtain ⟨x, hx, h1⟩ := (mem_allFamilies_checked window t store e).1 he
      exact hwt x hx e (staleChecked_subset window t x.2 e h1))
    (fun x hx => by simp [mapGet] at hx)]
  constructor
  · rintro ⟨T, _, h2⟩
    exact ⟨T, fun x hx e he hn =>
      h2 e ((mem_allFamilies_checked window t store e).2 ⟨x, hx, he⟩) hn⟩
  · rintro ⟨T, h2⟩
    refine ⟨T, fun x hx => by simp [mapGet] at hx, fun e he hn => ?_⟩
    obtain ⟨x, hx, h1⟩ := (mem_allFamilies_checked window t store e).1 he
    exact h2 x hx e h1 hn

/-- The names and types of the families an export at one reading of the clock hands to the
encoder, in terms of the families the sources hold after the staleness test. -/
theorem handler_const_output {a : Aggate} {t : Int} {out : List MetricFamily}
    (hname : KeysAreNames a.familiesByJob) (h : (handler a (fun _ => t)).1 = .ok out) :
    (out.map (fun f => f.name)).Pairwise (fun x y => strLess x y = true) ∧
    (∀ n, n ∈ out.map (fun f => f.name) ↔
      ∃ x ∈ a.familiesByJob, ∃ e ∈ (staleChecked a.jobPruneDuration t x.2).families, e.1 = n) ∧
    ∀ f ∈ out, ∀ x ∈ a.familiesByJob,
      ∀ e ∈ (staleChecked a.jobPruneDuration t x.2).families, e.1 = f.name →
        e.2.type = f.type := by
  obtain ⟨merged, hm, hnd, _, hnames, _, hout⟩ := handler_output hname h
  have hst := handlerLoop_store_map a.jobPruneDuration t a.familiesByJob 0 [] merged hm
  have hk := handlerLoop_keys a.jobPruneDuration (fun _ => t) a.familiesByJob 0 [] merged hm
  rw [hst] at hk
  refine ⟨by rw [hnames]; exact sortBy_strLess_strict hnd, fun n => ?_, ?_⟩
  · rw [hnames, (sortBy_strLess_perm _).mem_iff, hk.2 n]
    simp only [List.map_nil, List.not_mem_nil, false_or, List.mem_map]
    constructor
    · rintro ⟨e, he, rfl⟩
      obtain ⟨x, hx, h1⟩ := (mem_allFamilies_checked _ _ _ e).1 he
      exact ⟨x, hx, e, h1, rfl⟩
    · rintro ⟨x, hx, e, he, rfl⟩
      exact ⟨e, (mem_allFamilies_checked _ _ _ e).2 ⟨x, hx, he⟩, rfl⟩
  · intro f hf x hx e he hn
    have h1 := handlerLoop_named a.jobPruneDuration (fun _ => t) f.name a.familiesByJob 0 []
      merged hm
    rw [hst, hout f hf] at h1
    exact (mergeNamed_type f.name _ _ f h1).1 e
      ((mem_allFamilies_checked _ _ _ e).2 ⟨x, hx, he⟩) hn

theorem map_name_type_ext :
    ∀ (l1 l2 : List MetricFamily), l1.map (fun f => f.name) = l2.map (fun f => f.name) →
      (∀ f1 ∈ l1, ∀ f2 ∈ l2, f1.name = f2.name → f1.type = f2.type) →
      l1.map (fun f => (f.name, f.type)) = l2.map (fun f => (f.name, f.type))
  | [], [], _, _ => rfl
  | [], _ :: _, h, _ => by simp at h
  | _ :: _, [], h, _ => by simp at h
  | f1 :: r1, f2 :: r2, h, ht => by
    simp only [List.map_cons, List.cons.injEq] at h ⊢
    refine ⟨Prod.ext h.1 (ht f1 (List.mem_cons_self _ _) f2 (List.mem_cons_self _ _) h.1), ?_⟩
    exact map_name_type_ext r1 r2 h.2
      (fun g1 h1 g2 h2 => ht g1 (List.mem_cons_of_mem _ h1) g2 (List.mem_cons_of_mem _ h2))

/-- C14, amended: for a store whose families are stored under their own names and carry the
payloads of their types, and one reading of the clock, whether the export succeeds does not
depend on the order in which the sources are visited, and two orders for which it succeeds
hand the encoder the same sequence of family names, each with the same type. -/
theorem handler_names_types_order_independent (a : Aggate) (order : List (String × JobFamily))
    (t : Int) (hp : order.Perm a.familiesByJob) (hname : KeysAreNames a.familiesByJob)
    (hwt : WellTypedStore a.familiesByJob) :
    ((∃ out, (handler a (fun _ => t)).1 = .ok out) ↔
      ∃ out, (handler { a with familiesByJob := order } (fun _ => t)).1 = .ok out) ∧
    ∀ out1 out2, (handler a (fun _ => t)).1 = .ok out1 →
      (handler { a with familiesByJob := order } (fun _ => t)).1 = .ok out2 →
      out1.map (fun f => (f.name, f.type)) = out2.map (fun f => (f.name, f.type)) := by
  have hname2 : KeysAreNames order := fun e he => hname e (hp.mem_iff.1 he)
  have hwt2 : WellTypedStore order := fun e he => hwt e (hp.mem_iff.1 he)
  constructor
  · rw [handler_ok_iff, handler_ok_iff, handlerLoop_success_iff _ _ _ hwt]
    have h2 := handlerLoop_success_iff a.jobPruneDuration t order hwt2
    refine Iff.trans ?_ h2.symm
    refine forall_congr' (fun name => exists_congr (fun T => ?_))
    exact ⟨fun h x hx => h x (hp.mem_iff.1 hx), fun h x hx => h x (hp.mem_iff.2 hx)⟩
  · intro out1 out2 h1 h2
    obtain ⟨s1, n1, t1⟩ := handler_const_output hname h1
    obtain ⟨s2, n2, t2⟩ := handler_const_output
      (show KeysAreNames ({ a with familiesByJob := order } : Aggate).familiesByJob from hname2) h2
    have hn : out1.map (fun f => f.name) = out2.map (fun f => f.name) := by
      refine strLess_strict_ext s1 s2 (fun n => ?_)
      rw [n1 n, n2 n]
      exact ⟨fun ⟨x, hx, r⟩ => ⟨x, hp.mem_iff.2 hx, r⟩, fun ⟨x, hx, r⟩ => ⟨x, hp.mem_iff.1 hx, r⟩⟩
    refine map_name_type_ext out1 out2 hn (fun f1 hf1 f2 hf2 hnm => ?_)
    obtain ⟨x, hx, e, he, hen⟩ := (n1 f1.name).1 (List.mem_map.2 ⟨f1, hf1, rfl⟩)
    rw [← t1 f1 hf1 x hx e he hen]
    exact t2 f2 hf2 x (hp.mem_iff.2 hx) e he (hen.trans hnm)

/-! ## The store invariant -/

/-- A family that passes the validator has pairwise distinct label sequences. -/
theorem validateFamilyLoop_none (lib : LabelSetLib) (name : String) :
    ∀ (ms : List Metric) (seen : List Nat), validateFamilyLoop lib name seen ms = none →
      ms.Pairwise (fun x y => x.label ≠ y.label)
  | [], _, _ => List.Pairwise.nil
  | x :: ms, seen, h => by
    rw [validateFamilyLoop_cons] at h
    cases hv : lib.validate (toLabelSet name x.label) with
    | some msg => rw [hv] at h; simp at h
    | none =>
      rw [hv] at h
      simp only at h
      by_cases hc : seen.contains (lib.fingerprint (toLabelSet name x.label)) = true
      · rw [if_pos hc] at h; simp at h
      · rw [if_neg hc] at h
        refine List.Pairwise.cons (fun y hy e => ?_) (validateFamilyLoop_none lib name ms _ h)
        obtain ⟨er, her⟩ := validateFamilyLoop_seen lib name ms
          (lib.fingerprint (toLabelSet name x.label) :: seen)
          ⟨y, hy, by rw [← e]; exact List.mem_cons_self _ _⟩
        rw [her] at h
        cases h

/-- Sorting metrics with pairwise distinct label sequences gives a strictly ascending
sequence. -/
theorem sortBy_byLabelLess_strict {ms : List Metric}
    (hd : ms.Pairwise (fun x y => x.label ≠ y.label)) : StrictAsc (sortBy byLabelLess ms) := by
  haveI : IsTotal Metric (fun x y => byLabelLess y x = false) :=
    ⟨fun x y => by
      unfold byLabelLess
      rcases lablesLessThan_trichotomy x.label y.label with h | h | h
      · exact Or.inl h.2.1
      · exact Or.inr h.1
      · exact Or.inl h.2.1⟩
  haveI : IsTrans Metric (fun x y => byLabelLess y x = false) :=
    ⟨fun x y z hxy hyz => by
      unfold byLabelLess at *
      cases hzx : lablesLessThan z.label x.label with
      | false => rfl
      | true =>
        rcases lablesLessThan_trichotomy x.label y.label with h | h | h
        · rw [lablesLessThan_trans hzx h.1] at hyz
          exact hyz
        · rw [h.2.1] at hxy
          exact absurd hxy (by simp)
        · rw [← h.2.2, hzx] at hyz
          exact hyz⟩
  have hs := List.sorted_insertionSort (fun x y : Metric => byLabelLess y x = false) ms
  have hd2 : (sortBy byLabelLess ms).Pairwise (fun x y => x.label ≠ y.label) :=
    ((List.perm_insertionSort _ ms).pairwise_iff (fun h => Ne.symm h)).2 hd
  refine (List.Pairwise.and hs hd2).imp ?_
  intro x y hxy
  rcases lablesLessThan_trichotomy x.label y.label with h | h | h
  · exact h.1
  · have := hxy.1
    unfold byLabelLess at this
    rw [h.2.1] at this
    exact absurd this (by simp)
  · exact absurd h.2.2 hxy.2

/-- Sorting label pairs with pairwise distinct names gives strictly ascending names. -/
theorem sortBy_byNameLess_strict {l : List LabelPair} (hn : (l.map (fun p => p.name)).Nodup) :
    (sortBy byNameLess l).Pairwise (fun p q => strLess p.name q.name = true) := by
  have hs := sortBy_byNameLess_sorted l
  have hn2 : ((sortBy byNameLess l).map (fun p => p.name)).Nodup :=
    ((sortBy_byNameLess_perm l).map _).nodup_iff.2 hn
  unfold List.Nodup at hn2
  rw [List.pairwise_map] at hn2
  refine (List.Pairwise.and hs hn2).imp ?_
  intro p q hpq
  rw [strLess_iff]
  exact lt_of_le_of_ne hpq.1 hpq.2

/-- The family that `parseAndMerge` stores or merges is in canonical order. -/
theorem familySorted_canonical {lib : LabelSetLib} {f : MetricFamily}
    (hd : ∀ m ∈ f.metric, DistinctLabelNames m) (hv : validateFamily lib (sortLabels f) = none) :
    FamilySorted { name := (sortLabels f).name, help := (sortLabels f).help,
                   type := (sortLabels f).type,
                   metric := sortBy byLabelLess (sortLabels f).metric } := by
  constructor
  · intro m hm
    have hm1 : m ∈ (sortLabels f).metric := (List.perm_insertionSort _ _).mem_iff.1 hm
    simp only [sortLabels, List.mem_map] at hm1
    obtain ⟨m0, hm0, e⟩ := hm1
    subst e
    exact sortBy_byNameLess_strict (hd m0 hm0)
  · exact sortBy_byLabelLess_strict (validateFamilyLoop_none lib _ _ [] hv)

/-- Merging keeps the canonical order. -/
theorem mergeFamily_sorted {a b r : MetricFamily} {ow : Bool} (ha : FamilySorted a)
    (hb : FamilySorted b) (h : mergeFamily a b ow = .ok r) : FamilySorted r := by
  obtain ⟨_, _, _, _, hs, hf⟩ := mergeFamily_spec ha.2 hb.2 h
  refine ⟨fun m hm => ?_, hs⟩
  rcases label_mem_of_merge hs hf hm with ⟨x, hx, e⟩ | ⟨y, hy, e⟩
  · unfold LabelsSorted
    rw [← e]
    exact ha.1 x hx
  · unfold LabelsSorted
    rw [← e]
    exact hb.1 y hy

theorem storeSorted_mapSet {store : List (String × JobFamily)} {job : String}
    {entry : JobFamily} (hs : StoreSorted store) (he : ∀ g ∈ entry.families, FamilySorted g.2) :
    StoreSorted (mapSet store job entry) := by
  intro e hmem
  rcases mem_mapSet hmem with h | h
  · rw [h]; exact he
  · exact hs e h

/-- One family processed: the store stays in canonical order, whatever the outcome. -/
theorem processFamily_sorted (lib : LabelSetLib) (byJob : Bool) (job : String) (t : Int)
    (name : String) (f : MetricFamily) (store : List (String × JobFamily))
    (hs : StoreSorted store) (hd : ∀ m ∈ f.metric, DistinctLabelNames m) :
    StoreSorted (processFamily lib byJob job t name f store).2 := by
  have hentry : ∀ g ∈ (match mapGet store job with
      | some existing => existing
      | none => ({ families := [] } : JobFamily)).families, FamilySorted g.2 := by
    cases hj : mapGet store job with
    | none => intro g hg; simp at hg
    | some existing => exact hs _ (mapGet_mem hj)
  simp only [processFamily]
  split
  · exact hs
  · rename_i hv
    split
    · refine storeSorted_mapSet hs ?_
      intro g hgm
      rcases mem_mapSet hgm with h | h
      · rw [h]; exact familySorted_canonical hd hv
      · exact hentry g h
    · rename_i existingFamily hg
      have hwe : FamilySorted existingFamily := hentry _ (mapGet_mem hg)
      split
      · exact storeSorted_mapSet hs hentry
      · exact storeSorted_mapSet hs hentry
      · rename_i merged hm
        refine storeSorted_mapSet hs ?_
        intro g hgm
        rcases mem_mapSet hgm with h | h
        · rw [h]; exact mergeFamily_sorted hwe (familySorted_canonical hd hv) hm
        · exact hentry g h

theorem parseAndMergeLoop_sorted (lib : LabelSetLib) (byJob : Bool) (job : String)
    (now : Nat → Int) :
    ∀ (batch : List (String × MetricFamily)) (k : Nat) (store : List (String × JobFamily)),
      StoreSorted store → (∀ e ∈ batch, ∀ m ∈ e.2.metric, DistinctLabelNames m) →
      StoreSorted (parseAndMergeLoop lib byJob job now k batch store).2
  | [], _, _, hs, _ => hs
  | (name, f) :: rest, k, store, hs, hd => by
    rw [parseAndMergeLoop_cons]
    have h1 := processFamily_sorted lib byJob job (now k) name f store hs
      (hd (name, f) (List.mem_cons_self _ _))
    rcases hr : processFamily lib byJob job (now k) name f store with ⟨r, store1⟩
    rw [hr] at h1
    cases r with
    | ok u =>
      exact parseAndMergeLoop_sorted lib byJob job now rest (k + 1) store1 h1
        (fun e he => hd e (List.mem_cons_of_mem _ he))
    | err e => exact h1
    | panic => exact h1

theorem forall₂_sameSource_mem :
    ∀ {s s1 : List (String × JobFamily)}, List.Forall₂ SameSource s s1 →
      ∀ e1 ∈ s1, ∃ e ∈ s, SameSource e e1
  | _, _, .nil, e1, h => by simp at h
  | _, _, .cons hab hrest, e1, h => by
    rcases List.mem_cons.1 h with e | e
    · subst e
      exact ⟨_, List.mem_cons_self _ _, hab⟩
    · obtain ⟨x, hx, hr⟩ := forall₂_sameSource_mem hrest e1 e
      exact ⟨x, List.mem_cons_of_mem _ hx, hr⟩

/-- In a family in canonical order no two metrics have the same label set. -/
theorem familySorted_labelMaps {f : MetricFamily} (h : FamilySorted f) :
    f.metric.Pairwise (fun x y => labelMap x.label ≠ labelMap y.label) := by
  have hl : ∀ m ∈ f.metric, m.label.Pairwise (fun p q => p.name < q.name) := by
    intro m hm
    exact (h.1 m hm).imp (fun hpq => (strLess_iff _ _).1 hpq)
  refine List.Pairwise.imp_of_mem ?_ h.2
  intro x y hx hy hlt e
  have := eq_of_labelMap_eq (hl x hx) (hl y hy) e
  rw [this, lablesLessThan_irrefl] at hlt
  exact absurd hlt (by simp)

/-- C20: the store invariant.  In every store state reachable from the empty store by calls
of `parseAndMerge` (on batches whose metrics each have pairwise distinct label names) and of
`handler`, successful or failing, every accumulated family of every source has the labels of
each metric in ascending order of their names and its metric sequence strictly ascending in
the label order `lablesLessThan`; hence no two metrics of one stored family have the same
label sequence, nor the same label set. -/
theorem reachable_store_sorted (lib : LabelSetLib) (a : Aggate) (h : Reachable lib a) :
    (∀ e ∈ a.familiesByJob, ∀ g ∈ e.2.families,
      (∀ m ∈ g.2.metric, LabelsSorted m) ∧ StrictAsc g.2.metric) ∧
    (∀ e ∈ a.familiesByJob, ∀ g ∈ e.2.families,
      (g.2.metric.map (fun m => m.label)).Nodup ∧
      g.2.metric.Pairwise (fun x y => labelMap x.label ≠ labelMap y.label)) := by
  have key : StoreSorted a.familiesByJob := by
    induction h with
    | empty byJob jobPruneDuration =>
      intro e he
      simp [newAggate] at he
    | push a job now batch _ hd ih =>
      exact parseAndMergeLoop_sorted lib a.byJob job now batch 0 a.familiesByJob ih hd
    | scrape a now _ ih =>
      rw [handler_store]
      intro e he g hg
      obtain ⟨e0, h0, _, _, h3⟩ :=
        handlerLoop_store_subset a.jobPruneDuration now a.familiesByJob 0 [] e he
      exact ih e0 h0 g (h3 g hg)
    | reorderSources a store _ hp ih =>
      intro e he
      exact ih e (hp.mem_iff.1 he)
    | reorderFamilies a store _ hf ih =>
      intro e1 he1 g hg
      obtain ⟨e, he, _, _, hperm⟩ := forall₂_sameSource_mem hf e1 he1
      exact ih e he g (hperm.mem_iff.1 hg)
  exact ⟨key, fun e he g hg =>
    ⟨strictAsc_nodup_labels (key e he g hg).2, familySorted_labelMaps (key e he g hg)⟩⟩

/-! ## Export at concrete inputs -/

set_option maxRecDepth 100000 in
/-- C11 at two sources exported at time 100 with a window of 90: `j1` (last update 0) keeps
only its counter, `j2` (last update 50) keeps both families, and both keep their
timestamps. -/
theorem handler_effect_on_store_witness :
    (handler storeTwoSources (fun _ => 100)).2.familiesByJob =
      [("j1", { lastUpdate := 0, families := [("c", familyOf "c" .COUNTER 2)] }),
       ("j2", { lastUpdate := 50,
                families := [("g", familyOf "g" .GAUGE 4), ("d", familyOf "d" .COUNTER 8)] })] ∧
    ((handler storeTwoSources (fun _ => 100)).2.byJob = storeTwoSources.byJob ∧
    (handler storeTwoSources (fun _ => 100)).2.jobPruneDuration =
      storeTwoSources.jobPruneDuration ∧
    (handler storeTwoSources (fun _ => 100)).2.familiesByJob.length =
      storeTwoSources.familiesByJob.length ∧
    ∀ (k : Nat) (jobName : String) (job : JobFamily),
      storeTwoSources.familiesByJob[k]? = some (jobName, job) →
      ∃ job1, (handler storeTwoSources (fun _ => 100)).2.familiesByJob[k]? =
          some (jobName, job1) ∧
        job1.lastUpdate = job.lastUpdate ∧
        ((fun _ => (100 : Int)) k - job.lastUpdate > storeTwoSources.jobPruneDuration →
          job1.families = job.families.filter (fun e => decide (e.2.type ≠ .GAUGE))) ∧
        (¬ (fun _ => (100 : Int)) k - job.lastUpdate > storeTwoSources.jobPruneDuration →
          job1.families = job.families)) :=
  ⟨by decide,
    handler_effect_on_store storeTwoSources (fun _ => 100)
      [familyOf "c" .COUNTER 2, familyOf "d" .COUNTER 8, familyOf "g" .GAUGE 4]
      (by decide) (by decide)⟩

set_option maxRecDepth 100000 in
/-- C13 at the same export: the families handed to the encoder are `c`, `d` and `g`, in that
order. -/
theorem handler_output_sorted_by_name_witness :
    (handler storeTwoSources (fun _ => 100)).1 =
      .ok [familyOf "c" .COUNTER 2, familyOf "d" .COUNTER 8, familyOf "g" .GAUGE 4] ∧
    ((([familyOf "c" .COUNTER 2, familyOf "d" .COUNTER 8, familyOf "g" .GAUGE 4] :
        List MetricFamily).map (fun f => f.name)).Pairwise (fun x y => strLess x y = true) ∧
    (([familyOf "c" .COUNTER 2, familyOf "d" .COUNTER 8, familyOf "g" .GAUGE 4] :
        List MetricFamily).map (fun f => f.name)).Nodup ∧
    ∀ n, n ∈ ([familyOf "c" .COUNTER 2, familyOf "d" .COUNTER 8, familyOf "g" .GAUGE 4] :
        List MetricFamily).map (fun f => f.name) ↔
      ∃ e ∈ (handler storeTwoSources (fun _ => 100)).2.familiesByJob,
        ∃ g ∈ e.2.families, g.1 = n) :=
  ⟨by decide,
    handler_output_sorted_by_name storeTwoSources (fun _ => 100)
      [familyOf "c" .COUNTER 2, familyOf "d" .COUNTER 8, familyOf "g" .GAUGE 4]
      (by decide) (by decide)⟩

set_option maxRecDepth 100000 in
/-- C12 at the test case in which `j1` and `j2` each push `gaugeInput`: the export is the one
family `gaugeOutput`, every gauge of which is 1 + 1 = 2. -/
theorem handler_sums_sources_witness :
    (handler storeGaugeTwoJobs (fun _ => 20)).1 = .ok [gaugeOutput] ∧
    (∀ m ∈ gaugeOutput.metric,
      valuesAt .GAUGE "ui_external_lib_loaded" m.label storeGaugeTwoJobs.familiesByJob =
        [Float64.ofNat 1, Float64.ofNat 1] ∧
      scalarValue .GAUGE m = some (Float64.ofNat 2)) ∧
    ∃ f, f ∈ [gaugeOutput] ∧ f.name = "ui_external_lib_loaded" ∧
      (∀ f1 ∈ [gaugeOutput], f1.name = "ui_external_lib_loaded" → f1 = f) ∧ f.type = .GAUGE ∧
      (f.metric.map (fun m => m.label)).Nodup ∧
      (∀ l, l ∈ f.metric.map (fun m => m.label) ↔
        ∃ e ∈ storeGaugeTwoJobs.familiesByJob, ∃ g ∈ e.2.families,
          g.1 = "ui_external_lib_loaded" ∧ l ∈ g.2.metric.map (fun m => m.label)) ∧
      ∀ m ∈ f.metric,
        scalarValue .GAUGE m =
          sumValues (valuesAt .GAUGE "ui_external_lib_loaded" m.label
            storeGaugeTwoJobs.familiesByJob) :=
  ⟨by decide, by decide,
    handler_sums_sources storeGaugeTwoJobs (fun _ => 20) [gaugeOutput]
      "ui_external_lib_loaded" .GAUGE (by decide) (by decide) (by decide) (by decide)
      (by decide) (by decide) (by decide)⟩

set_option maxRecDepth 100000 in
/-- C14 as stated fails: the result of `handler` depends on the order in which the sources
are visited.  Of two sources that hold the counter `c` with different help strings the
export carries the help string of the one visited first; of three sources holding the
counters 2^53, 1 and 1 the export is 2^53 in one order and 2^53 + 2 in another; and of a
source holding `x` as a counter and one holding it as a gauge the error names the two types
in the order of the visit. -/
theorem handler_depends_on_visiting_order :
    ((handler (storeOf [sourceOf "j1" (counterHelp "first" 1),
        sourceOf "j2" (counterHelp "second" 2)]) (fun _ => 10)).1 =
        .ok [counterHelp "first" 3] ∧
      (handler (storeOf [sourceOf "j2" (counterHelp "second" 2),
        sourceOf "j1" (counterHelp "first" 1)]) (fun _ => 10)).1 =
        .ok [counterHelp "second" 3]) ∧
    ((handler (storeOf [sourceOf "j1" (counterHelp "h" 9007199254740992),
        sourceOf "j2" (counterHelp "h" 1), sourceOf "j3" (counterHelp "h" 1)])
        (fun _ => 10)).1 = .ok [counterHelp "h" 9007199254740992] ∧
      (handler (storeOf [sourceOf "j2" (counterHelp "h" 1), sourceOf "j3" (counterHelp "h" 1),
        sourceOf "j1" (counterHelp "h" 9007199254740992)])
        (fun _ => 10)).1 = .ok [counterHelp "h" 9007199254740994]) ∧
    ((handler (storeOf [sourceOf "j1" (familyX .COUNTER), sourceOf "j2" (familyX .GAUGE)])
        (fun _ => 10)).1 = .err (.typeMismatch "x" .COUNTER .GAUGE) ∧
      (handler (storeOf [sourceOf "j2" (familyX .GAUGE), sourceOf "j1" (familyX .COUNTER)])
        (fun _ => 10)).1 = .err (.typeMismatch "x" .GAUGE .COUNTER)) := by
  decide

set_option maxRecDepth 100000 in
/-- C14, amended, at the two sources of `storeTwoSources` visited in either order at time
100: both exports succeed with the names `c`, `d` and `g` of the types counter, counter and
gauge. -/
theorem handler_names_types_order_independent_witness :
    (handler { storeTwoSources with familiesByJob := twoSourcesSwapped } (fun _ => 100)).1 =
      .ok [familyOf "c" .COUNTER 2, familyOf "d" .COUNTER 8, familyOf "g" .GAUGE 4] ∧
    (((∃ out, (handler storeTwoSources (fun _ => 100)).1 = .ok out) ↔
      ∃ out, (handler { storeTwoSources with familiesByJob := twoSourcesSwapped }
        (fun _ => 100)).1 = .ok out) ∧
    ∀ out1 out2, (handler storeTwoSources (fun _ => 100)).1 = .ok out1 →
      (handler { storeTwoSources with familiesByJob := twoSourcesSwapped }
        (fun _ => 100)).1 = .ok out2 →
      out1.map (fun f => (f.name, f.type)) = out2.map (fun f => (f.name, f.type))) :=
  ⟨by decide,
    handler_names_types_order_independent storeTwoSources twoSourcesSwapped 100
      (by decide) (by decide) (by decide)⟩

set_option maxRecDepth 100000 in
/-- C20 at the state reached by three pushes of unsorted input and an export at time 50: the
store holds the counter of `j1` with the labels `a`, `b` (the later push replacing the
earlier, the gateway running by job) and the three gauges of `j2` in the order `Intercom`,
`ga`, `mixpanel`, each with the labels `loaded`, `name`. -/
theorem reachable_store_sorted_witness :
    Reachable exampleLib (handler storeAfterPushes (fun _ => 50)).2 ∧
    (handler storeAfterPushes (fun _ => 50)).2.familiesByJob =
      [("j1", { lastUpdate := 2,
                families := [("counter", reorderedLabels1)] }),
       ("j2", { lastUpdate := 1,
                families := [("ui_external_lib_loaded", gaugeInput)] })] ∧
    ((∀ e ∈ (handler storeAfterPushes (fun _ => 50)).2.familiesByJob, ∀ g ∈ e.2.families,
      (∀ m ∈ g.2.metric, LabelsSorted m) ∧ StrictAsc g.2.metric) ∧
    (∀ e ∈ (handler storeAfterPushes (fun _ => 50)).2.familiesByJob, ∀ g ∈ e.2.families,
      (g.2.metric.map (fun m => m.label)).Nodup ∧
      g.2.metric.Pairwise (fun x y => labelMap x.label ≠ labelMap y.label))) :=
  ⟨Reachable.scrape _ _
      (Reachable.push _ "j1" (fun _ => 2) [("counter", reorderedLabels1)]
        (Reachable.push _ "j2" (fun _ => 1) [("ui_external_lib_loaded", gaugeInputParsed)]
          (Reachable.push _ "j1" (fun _ => 0) [("counter", reorderedLabels2)]
            (Reachable.empty true 90) (by decide))
          (by decide))
        (by decide)),
    by decide,
    reachable_store_sorted exampleLib (handler storeAfterPushes (fun _ => 50)).2
      (Reachable.scrape _ _
        (Reachable.push _ "j1" (fun _ => 2) [("counter", reorderedLabels1)]
          (Reachable.push _ "j2" (fun _ => 1) [("ui_external_lib_loaded", gaugeInputParsed)]
            (Reachable.push _ "j1" (fun _ => 0) [("counter", reorderedLabels2)]
              (Reachable.empty true 90) (by decide))
            (by decide))
          (by decide)))⟩
end Gateway
